import Mathlib

/-!
# Modular pipeline system: latch, bounded string queue, stage worker, orchestrator

A shallow embedding of `plugins/sync/monitor.c`, `plugins/sync/consumer_producer.c`,
`plugins/plugin_common.c` and the feeding / start-up code of `main.c`.

Conventions of the embedding.

* A C `int` field is an `Int`; `%` is C's truncating remainder `Int.tmod`.
* An `int` that receives the `size_t` result of `strlen`, and a sum of such `int`s, is
  reduced to the range of `int` modulo 2^32 (`size_t_to_int`, `wrap_int`).
* A `char*` that may be `NULL` is an `Option String` (`none` is `NULL`).
* Every queue operation runs under the queue mutex, so an operation is one atomic
  state transformer.  A call that parks in `monitor_wait` on a cleared latch is
  reported as `Ret.blocked`; a wait loop that keeps running until the fuel is used up
  is reported as `Ret.spinning`.
* The pthread primitives themselves never fail (`pthread_cond_wait` returns 0).
-/

namespace Pipeline

/-! ## monitor.c -/

/-- The latch of `monitor.c`: of the C struct only `signaled` carries state. -/
structure monitor_t where
  signaled : Bool
deriving DecidableEq, Repr

/-- Function `monitor_init` on its success path: `signaled = 0`, return value 0. -/
def monitor_init : Int × monitor_t := (0, { signaled := false })

/-- Function `monitor_signal`: `signaled = 1` (and broadcast). -/
def monitor_signal (_m : monitor_t) : monitor_t := { signaled := true }

/-- Function `monitor_reset`: `signaled = 0`. -/
def monitor_reset (_m : monitor_t) : monitor_t := { signaled := false }

/-- Function `monitor_wait`: `while (!signaled) pthread_cond_wait(..)`, then `return 0`.
`some (0, m)` is the return value with the latch as it is left; `none` means the caller
stays parked in `pthread_cond_wait` (nobody else runs in between). -/
def monitor_wait (m : monitor_t) : Option (Int × monitor_t) :=
  if m.signaled then some (0, m) else none

/-! ## consumer_producer.c -/

/-- The queue of `consumer_producer.h` (the mutex carries no state of its own). -/
structure consumer_producer_t where
  items : List (Option String)
  capacity : Int
  count : Int
  head : Int
  tail : Int
  not_full_monitor : monitor_t
  not_empty_monitor : monitor_t
  finished_monitor : monitor_t
  finished : Bool
deriving DecidableEq, Repr

/-- Outcome of a call that may wait. -/
inductive Ret (α : Type) where
  | returned (v : α)
  | blocked
  | spinning
deriving DecidableEq, Repr

/-- Which of the allocations / primitive creations of `consumer_producer_init` succeed. -/
structure InitEnv where
  malloc_ok : Bool
  not_full_ok : Bool
  not_empty_ok : Bool
  finished_ok : Bool
  mutex_ok : Bool
deriving DecidableEq, Repr

/-- The environment in which nothing fails. -/
def InitEnv.allOk : InitEnv :=
  { malloc_ok := true, not_full_ok := true, not_empty_ok := true, finished_ok := true,
    mutex_ok := true }

/-- Function `consumer_producer_init` (the queue pointer is not `NULL`).  The slots of a
fresh `malloc` are taken to be empty. -/
def consumer_producer_init (env : InitEnv) (capacity : Int) :
    Except String consumer_producer_t :=
  if capacity ≤ 0 then .error "Queue capacity must be positive"
  else if !env.malloc_ok then .error "Failed to allocate memory for queue items"
  else if !env.not_full_ok then .error "Failed to initialize not_full_monitor"
  else if !env.not_empty_ok then .error "Failed to initialize not_empty_monitor"
  else if !env.finished_ok then .error "Failed to initialize finished_monitor"
  else if !env.mutex_ok then .error "Failed to initialize mutex"
  else
    .ok { items := List.replicate capacity.toNat none
          capacity := capacity
          count := 0
          head := 0
          tail := 0
          not_full_monitor := monitor_signal monitor_init.2
          not_empty_monitor := monitor_init.2
          finished_monitor := monitor_init.2
          finished := false }

/-- How the wait loop of `consumer_producer_put` (lines 97-116) is left. -/
inductive PutWait where
  | finished
  | space
  | parked
  | wait_failed
  | out_of_fuel
deriving DecidableEq, Repr

/-- The `while (1)` loop of `consumer_producer_put`, one iteration per unit of fuel. -/
def put_wait : Nat → consumer_producer_t → PutWait
  | 0, _ => .out_of_fuel
  | n + 1, q =>
    if q.finished then .finished
    else if q.count < q.capacity then .space
    else
      match monitor_wait q.not_full_monitor with
      | none => .parked
      | some (r, _) => if r ≠ 0 then .wait_failed else put_wait n q

/-- Function `consumer_producer_put`.  `strdup_ok` tells whether `strdup` succeeds. -/
def consumer_producer_put (fuel : Nat) (q : consumer_producer_t) (item : Option String)
    (strdup_ok : Bool) : Ret (Option String) × consumer_producer_t :=
  match item with
  | none => (.returned (some "Invalid queue or item"), q)
  | some s =>
    if q.finished then
      (.returned (some "Queue is finished, cannot accept more items"), q)
    else
      match put_wait fuel q with
      | .finished => (.returned (some "Queue is finished, cannot accept more items"), q)
      | .wait_failed => (.returned (some "Failed to wait for not_full condition"), q)
      | .parked => (.blocked, q)
      | .out_of_fuel => (.spinning, q)
      | .space =>
        if !strdup_ok then (.returned (some "Failed to allocate memory for item"), q)
        else
          let q1 := { q with
            items := q.items.set q.tail.toNat (some s)
            tail := Int.tmod (q.tail + 1) q.capacity
            count := q.count + 1 }
          let q2 := if q1.count = 1 then
            { q1 with not_empty_monitor := monitor_signal q1.not_empty_monitor } else q1
          let q3 := if q2.count = q2.capacity then
            { q2 with not_full_monitor := monitor_reset q2.not_full_monitor } else q2
          (.returned none, q3)

/-- How the wait loop of `consumer_producer_get` (lines 150-169) is left. -/
inductive GetWait where
  | available
  | drained
  | parked
  | wait_failed
  | out_of_fuel
deriving DecidableEq, Repr

/-- The `while (1)` loop of `consumer_producer_get`, one iteration per unit of fuel. -/
def get_wait : Nat → consumer_producer_t → GetWait
  | 0, _ => .out_of_fuel
  | n + 1, q =>
    if q.count > 0 then .available
    else if q.finished then .drained
    else
      match monitor_wait q.not_empty_monitor with
      | none => .parked
      | some (r, _) => if r ≠ 0 then .wait_failed else get_wait n q

/-- Function `consumer_producer_get`; the value returned is the record or `NULL`. -/
def consumer_producer_get (fuel : Nat) (q : consumer_producer_t) :
    Ret (Option String) × consumer_producer_t :=
  match get_wait fuel q with
  | .drained => (.returned none, q)
  | .wait_failed => (.returned none, q)
  | .parked => (.blocked, q)
  | .out_of_fuel => (.spinning, q)
  | .available =>
    let item := q.items.getD q.head.toNat none
    let q1 := { q with
      items := q.items.set q.head.toNat none
      head := Int.tmod (q.head + 1) q.capacity
      count := q.count - 1 }
    let q2 := if q1.count = q1.capacity - 1 then
      { q1 with not_full_monitor := monitor_signal q1.not_full_monitor } else q1
    let q3 := if q2.count = 0 then
      { q2 with not_empty_monitor := monitor_reset q2.not_empty_monitor } else q2
    (.returned item, q3)

/-- Function `consumer_producer_signal_finished`. -/
def consumer_producer_signal_finished (q : consumer_producer_t) : consumer_producer_t :=
  { q with
    finished := true
    finished_monitor := monitor_signal q.finished_monitor
    not_empty_monitor := monitor_signal q.not_empty_monitor }

/-- Function `consumer_producer_wait_finished`: the result of `monitor_wait` on the
finished latch. -/
def consumer_producer_wait_finished (q : consumer_producer_t) :
    Ret Int × consumer_producer_t :=
  match monitor_wait q.finished_monitor with
  | none => (.blocked, q)
  | some (r, m) => (.returned r, { q with finished_monitor := m })

/-! ## The live region of the ring -/

/-- Slot `i` of the live region, indexed as `consumer_producer_destroy` does:
`items[(head + i) % capacity]`. -/
def ring_slot (q : consumer_producer_t) (i : Nat) : Option String :=
  q.items.getD (Int.tmod (q.head + (i : Int)) q.capacity).toNat none

/-- The `count` slots from `head` towards `tail`, oldest first. -/
def ring_contents (q : consumer_producer_t) : List (Option String) :=
  (List.range q.count.toNat).map (ring_slot q)

/-- Shape of a well-formed ring. -/
structure RingOk (q : consumer_producer_t) : Prop where
  cap_pos : 0 < q.capacity
  len : q.items.length = q.capacity.toNat
  head_lo : 0 ≤ q.head
  head_hi : q.head < q.capacity
  count_lo : 0 ≤ q.count
  count_hi : q.count ≤ q.capacity
  tail_eq : q.tail = Int.tmod (q.head + q.count) q.capacity

/-! ## Sequences of queue operations -/

/-- A call made on the queue by some client thread. -/
inductive QueueOp where
  | put (s : String) (strdup_ok : Bool)
  | get
  | signal_finished
  | wait_finished
deriving DecidableEq, Repr

/-- What the clients have observed: the strings whose `put` returned `NULL` (success), in
call order, and the strings returned by `get`, in call order. -/
structure QueueTrace where
  enqueued : List String
  dequeued : List String
deriving DecidableEq, Repr

/-- One call and its bookkeeping. -/
def queue_step (fuel : Nat) (st : consumer_producer_t × QueueTrace) :
    QueueOp → consumer_producer_t × QueueTrace
  | .put s ok =>
    match consumer_producer_put fuel st.1 (some s) ok with
    | (.returned none, q2) => (q2, { st.2 with enqueued := st.2.enqueued ++ [s] })
    | (_, q2) => (q2, st.2)
  | .get =>
    match consumer_producer_get fuel st.1 with
    | (.returned (some v), q2) => (q2, { st.2 with dequeued := st.2.dequeued ++ [v] })
    | (_, q2) => (q2, st.2)
  | .signal_finished => (consumer_producer_signal_finished st.1, st.2)
  | .wait_finished => ((consumer_producer_wait_finished st.1).2, st.2)

/-- A sequence of calls, left to right. -/
def queue_run (fuel : Nat) (ops : List QueueOp) (st : consumer_producer_t × QueueTrace) :
    consumer_producer_t × QueueTrace :=
  ops.foldl (queue_step fuel) st

/-- A `put` is issued when `count < capacity`, a `get` when `count > 0`; the sequences
considered consist of `put` and `get` calls only. -/
def op_enabled (q : consumer_producer_t) : QueueOp → Bool
  | .put _ _ => decide (q.count < q.capacity)
  | .get => decide (0 < q.count)
  | _ => false

/-- Every call of the sequence is issued in a state in which it is enabled. -/
def admissible (fuel : Nat) : List QueueOp → consumer_producer_t × QueueTrace → Bool
  | [], _ => true
  | op :: ops, st => op_enabled st.1 op && admissible fuel ops (queue_step fuel st op)

/-- The string of a `put` whose copy succeeds. -/
def QueueOp.accepted : QueueOp → Option String
  | .put s true => some s
  | _ => none

/-- Recognises `get` calls. -/
def QueueOp.isGet : QueueOp → Bool
  | .get => true
  | _ => false

/-- The empty observation. -/
def QueueTrace.empty : QueueTrace := { enqueued := [], dequeued := [] }

/-- States reachable from a successful `consumer_producer_init` with capacity `K` by
calls of `put`, `get`, `signal_finished` and `wait_finished`. -/
inductive Reachable (K : Int) : consumer_producer_t → Prop where
  | init (env : InitEnv) (q : consumer_producer_t) :
      consumer_producer_init env K = .ok q → Reachable K q
  | step (fuel : Nat) (op : QueueOp) (q : consumer_producer_t) (tr : QueueTrace) :
      Reachable K q → Reachable K (queue_step fuel (q, tr) op).1

/-- The wake latches agree with the counters. -/
structure LatchOk (q : consumer_producer_t) : Prop where
  not_full : q.not_full_monitor.signaled = true ↔ q.count < q.capacity
  not_empty : 0 < q.count → q.not_empty_monitor.signaled = true

/-- A capacity-2 queue as `consumer_producer_init` leaves it. -/
def fresh_queue_2 : consumer_producer_t :=
  { items := [none, none]
    capacity := 2
    count := 0
    head := 0
    tail := 0
    not_full_monitor := { signaled := true }
    not_empty_monitor := { signaled := false }
    finished_monitor := { signaled := false }
    finished := false }

/-- The first `n` consecutive `consumer_producer_get` calls: their outcomes, in order, and
the queue they leave. -/
def get_many (fuel : Nat) : Nat → consumer_producer_t →
    List (Ret (Option String)) × consumer_producer_t
  | 0, q => ([], q)
  | n + 1, q =>
    let r := consumer_producer_get fuel q
    let rest := get_many fuel n r.2
    (r.1 :: rest.1, rest.2)

/-- A capacity-1 queue holding one record: `consumer_producer_init` with capacity 1
followed by one `put` of `"a"`. -/
def full_queue_1 : consumer_producer_t :=
  { items := [some "a"]
    capacity := 1
    count := 1
    head := 0
    tail := 0
    not_full_monitor := { signaled := false }
    not_empty_monitor := { signaled := true }
    finished_monitor := { signaled := false }
    finished := false }

/-! ## Sequences of latch operations -/

/-- A call made on a latch. -/
inductive MonitorOp where
  | signal
  | reset
  | wait
deriving DecidableEq, Repr

/-- The latch after one call (a `wait` never changes it). -/
def monitor_step (m : monitor_t) : MonitorOp → monitor_t
  | .signal => monitor_signal m
  | .reset => monitor_reset m
  | .wait =>
    match monitor_wait m with
    | some (_, m2) => m2
    | none => m

/-- The latch after a sequence of calls. -/
def monitor_run (ops : List MonitorOp) (m : monitor_t) : monitor_t :=
  ops.foldl monitor_step m

/-- The loop of `test_monitor_consistency_under_load`: `n` rounds of
`monitor_signal; monitor_wait; monitor_reset`, collecting what each wait returns; a wait
that does not return ends the run with `none`. -/
def signal_wait_reset_cycles : Nat → monitor_t → List (Option Int) × monitor_t
  | 0, m => ([], m)
  | n + 1, m =>
    let m1 := monitor_signal m
    match monitor_wait m1 with
    | none => ([none], m1)
    | some (r, m2) =>
      let rest := signal_wait_reset_cycles n (monitor_reset m2)
      (some r :: rest.1, rest.2)

/-- A capacity-1 queue as `consumer_producer_init` leaves it. -/
def fresh_queue_1 : consumer_producer_t :=
  { items := [none]
    capacity := 1
    count := 0
    head := 0
    tail := 0
    not_full_monitor := { signaled := true }
    not_empty_monitor := { signaled := false }
    finished_monitor := { signaled := false }
    finished := false }

/-! ## plugin_common.c -/

/-- The stage context of `plugin_common.h`.  `next_place_work` is a function pointer: it
is identified by the name of the plugin image whose `plugin_place_work` it is.  The
thread handle is kept in `Stage`. -/
structure plugin_context_t where
  name : Option String
  queue : Option consumer_producer_t
  next_place_work : Option String
  process_function : Option (String → Option String)
  initialized : Bool
  finished : Bool

/-- The zero-initialised `static plugin_context_t plugin_context = {0}`. -/
def plugin_context_zero : plugin_context_t :=
  { name := none, queue := none, next_place_work := none, process_function := none,
    initialized := false, finished := false }

/-- What a worker does that is visible outside its stage: a call of the transform
`process_function(item)` and a call of the forwarder `next_place_work(str)`. -/
inductive Event where
  | transform (item : String)
  | forward (str : String)
deriving DecidableEq, Repr

/-- The guarded call `if (next_place_work && str) next_place_work(str)`. -/
def forward_call (next_place_work : Option String) (str : Option String) : List Event :=
  match next_place_work, str with
  | some _, some s => [.forward s]
  | _, _ => []

/-- How one pass through the body of the worker loop ends. -/
inductive LoopStep where
  | next
  | leave
  | parked
  | spinning
  | crashed
deriving DecidableEq, Repr

/-- One pass through the body of `while (1)` in `plugin_consumer_thread` (lines 12-39):
the context afterwards and the calls made.  `crashed` is a call through a `NULL`
`process_function`. -/
def consumer_thread_body (fuel : Nat) (ctx : plugin_context_t) :
    LoopStep × plugin_context_t × List Event :=
  let got : Ret (Option String) × Option consumer_producer_t :=
    match ctx.queue with
    | none => (.returned none, none)
    | some q => ((consumer_producer_get fuel q).1, some (consumer_producer_get fuel q).2)
  let ctx1 := { ctx with queue := got.2 }
  match got.1 with
  | .blocked => (.parked, ctx1, [])
  | .spinning => (.spinning, ctx1, [])
  | .returned none => (.leave, ctx1, [])
  | .returned (some item) =>
    if item = "<END>" then
      (.leave, ctx1, forward_call ctx.next_place_work (some item))
    else
      match ctx.process_function with
      | none => (.crashed, ctx1, [])
      | some f =>
        (.next, ctx1, .transform item :: forward_call ctx.next_place_work (f item))

/-- State of a worker thread as seen from outside. -/
inductive ThreadStatus where
  | running
  | parked
  | exited
  | crashed
deriving DecidableEq, Repr

/-- Function `plugin_consumer_thread`, run for at most `fuel` passes of its loop: how it
stands afterwards (`running` when the passes are used up or `consumer_producer_get` is
still spinning, `parked` when it waits in `consumer_producer_get`, `exited` when it has
returned), the context and the calls made, in order. -/
def plugin_consumer_thread : Nat → plugin_context_t →
    ThreadStatus × plugin_context_t × List Event
  | 0, ctx => (.running, ctx, [])
  | n + 1, ctx =>
    match consumer_thread_body (n + 1) ctx with
    | (.parked, c, ev) => (.parked, c, ev)
    | (.spinning, c, ev) => (.running, c, ev)
    | (.crashed, c, ev) => (.crashed, c, ev)
    | (.leave, c, ev) =>
      (.exited,
        { c with queue := c.queue.map consumer_producer_signal_finished, finished := true },
        ev)
    | (.next, c, ev) =>
      ((plugin_consumer_thread n c).1, (plugin_consumer_thread n c).2.1,
        ev ++ (plugin_consumer_thread n c).2.2)

/-- Which of the allocations / creations of `common_plugin_init` succeed. -/
structure PluginEnv where
  queue_malloc_ok : Bool
  queue_env : InitEnv
  pthread_create_ok : Bool

/-- The environment in which nothing fails. -/
def PluginEnv.allOk : PluginEnv :=
  { queue_malloc_ok := true, queue_env := InitEnv.allOk, pthread_create_ok := true }

/-- Function `common_plugin_init`: the error message (`none` is `NULL`, success) and the
context afterwards.  On success the worker thread has been created. -/
def common_plugin_init (env : PluginEnv) (ctx : plugin_context_t)
    (process_function : Option (String → Option String)) (name : Option String)
    (queue_size : Int) : Option String × plugin_context_t :=
  if process_function.isNone || name.isNone || queue_size ≤ 0 then
    (some "Invalid parameters entered to plugin_init", ctx)
  else if ctx.initialized then
    (some "Plugin already initialized", ctx)
  else
    let ctx1 := { ctx with
      name := name
      process_function := process_function
      next_place_work := none
      finished := false }
    if !env.queue_malloc_ok then
      (some "Failed to allocate memory for queue", { ctx1 with queue := none })
    else
      match consumer_producer_init env.queue_env queue_size with
      | .error queue_error => (some queue_error, { ctx1 with queue := none })
      | .ok q =>
        if !env.pthread_create_ok then
          (some "Failed to create consumer thread", { ctx1 with queue := none })
        else
          (none, { ctx1 with queue := some q, initialized := true })

/-- Function `plugin_place_work`. -/
def plugin_place_work (fuel : Nat) (ctx : plugin_context_t) (str : Option String)
    (strdup_ok : Bool) : Ret (Option String) × plugin_context_t :=
  if !ctx.initialized || str.isNone then
    (.returned (some "Plugin not initialized or invalid string"), ctx)
  else
    match ctx.queue with
    | none => (.returned (some "Invalid queue or item"), ctx)
    | some q =>
      ((consumer_producer_put fuel q str strdup_ok).1,
        { ctx with queue := some (consumer_producer_put fuel q str strdup_ok).2 })

/-- Function `plugin_attach`. -/
def plugin_attach (ctx : plugin_context_t) (next_place_work : Option String) :
    plugin_context_t :=
  if ctx.initialized then { ctx with next_place_work := next_place_work } else ctx

/-- Function `plugin_wait_finished`. -/
def plugin_wait_finished (ctx : plugin_context_t) : Ret (Option String) × plugin_context_t :=
  if !ctx.initialized then (.returned (some "Plugin not initialized"), ctx)
  else
    match ctx.queue with
    | none => (.returned (some "Failed to wait for finished signal"), ctx)
    | some q =>
      match consumer_producer_wait_finished q with
      | (.returned r, q2) =>
        if r ≠ 0 then
          (.returned (some "Failed to wait for finished signal"), { ctx with queue := some q2 })
        else (.returned none, { ctx with queue := some q2 })
      | (.blocked, q2) => (.blocked, { ctx with queue := some q2 })
      | (.spinning, q2) => (.spinning, { ctx with queue := some q2 })

/-! ## A stage and the threads around it -/

/-- A stage: its context, its worker thread (`none` before the thread is created) and the
calls the worker has made so far. -/
structure Stage where
  ctx : plugin_context_t
  worker : Option ThreadStatus
  events : List Event

/-- A stage together with the records accepted so far (those for which
`plugin_place_work` returned `NULL`). -/
structure StageRun where
  stage : Stage
  delivered : List String

/-- What happens next at a stage: a client calls `plugin_place_work`, or the worker
thread gets to run for up to `n` passes of its loop. -/
inductive StageAction where
  | place_work (str : Option String) (strdup_ok : Bool)
  | work (n : Nat)
deriving DecidableEq, Repr

/-- The worker of a stage runs for up to `n` passes; a thread that has returned or
crashed, or was never created, does nothing. -/
def Stage.work (st : Stage) (n : Nat) : Stage :=
  match st.worker with
  | some .running | some .parked =>
    { ctx := (plugin_consumer_thread n st.ctx).2.1
      worker := some (plugin_consumer_thread n st.ctx).1
      events := st.events ++ (plugin_consumer_thread n st.ctx).2.2 }
  | _ => st

/-- One action on a stage. -/
def stage_step (fuel : Nat) (r : StageRun) : StageAction → StageRun
  | .place_work str ok =>
    { stage := { r.stage with ctx := (plugin_place_work fuel r.stage.ctx str ok).2 }
      delivered :=
        match (plugin_place_work fuel r.stage.ctx str ok).1, str with
        | .returned none, some s => r.delivered ++ [s]
        | _, _ => r.delivered }
  | .work n => { r with stage := r.stage.work n }

/-- A schedule of actions, left to right. -/
def stage_run (fuel : Nat) (sched : List StageAction) (r : StageRun) : StageRun :=
  sched.foldl (stage_step fuel) r

/-- A stage right after `common_plugin_init` (zero context, worker created on success)
and `plugin_attach` with the given forwarder. -/
def stage_start (env : PluginEnv) (f : String → Option String) (name : String)
    (queue_size : Int) (next : Option String) : Option String × StageRun :=
  let r := common_plugin_init env plugin_context_zero (some f) (some name) queue_size
  (r.1,
    { stage :=
        { ctx := plugin_attach r.2 next
          worker := if r.1.isNone then some .running else none
          events := [] }
      delivered := [] })

/-- Calls a worker makes for one record that is not the sentinel: the transform, then
the forwarder on the result when a forwarder is attached and the result is not `NULL`. -/
def record_events (f : String → Option String) (next : Option String) (r : String) :
    List Event :=
  .transform r :: forward_call next (f r)

/-- Calls expected of a worker for the delivered records `rs`: those of the
records before the first `"<END>"`, in order, then one forward of `"<END>"` when a
forwarder is attached. -/
def expected_events (f : String → Option String) (next : Option String)
    (rs : List String) : List Event :=
  (rs.takeWhile (fun r => decide (r ≠ "<END>"))).flatMap (record_events f next)
    ++ forward_call next (some "<END>")

/-- The context of a running stage with transform `f` and forwarder `next`, whose queue
is `q`. -/
def StageCtxOk (f : String → Option String) (next : Option String)
    (ctx : plugin_context_t) (q : consumer_producer_t) : Prop :=
  ctx.queue = some q ∧ RingOk q ∧ ctx.process_function = some f ∧
    ctx.next_place_work = next ∧ ctx.initialized = true

/-- A stage whose worker is still in its loop: the records `delivered` are those already
taken by the worker (none of them the sentinel) followed by the ring contents, and the
calls made so far are those for the records taken. -/
def LiveInv (f : String → Option String) (next : Option String) (ctx : plugin_context_t)
    (delivered : List String) (evs : List Event) : Prop :=
  ∃ (q : consumer_producer_t) (consumed : List String),
    StageCtxOk f next ctx q ∧ q.finished = false ∧
    consumed.map some ++ ring_contents q = delivered.map some ∧
    "<END>" ∉ consumed ∧ evs = consumed.flatMap (record_events f next)

/-- A stage whose worker has returned after the sentinel. -/
def ExitedInv (f : String → Option String) (next : Option String) (ctx : plugin_context_t)
    (delivered : List String) (evs : List Event) : Prop :=
  ∃ q : consumer_producer_t,
    StageCtxOk f next ctx q ∧ q.finished = true ∧ "<END>" ∈ delivered ∧
    evs = expected_events f next delivered

/-- The invariant of a stage under any schedule: its worker is in its loop, or has
returned after the sentinel. -/
def StageInv (f : String → Option String) (next : Option String) (r : StageRun) : Prop :=
  (r.stage.worker = some .exited ∧
      ExitedInv f next r.stage.ctx r.delivered r.stage.events) ∨
    ((r.stage.worker = some .running ∨ r.stage.worker = some .parked) ∧
      LiveInv f next r.stage.ctx r.delivered r.stage.events)

/-- Function `plugin_fini`.  `pthread_join` lets the worker run on (for up to `n` passes
of its loop) and returns once the worker has returned; a worker parked in
`consumer_producer_get` keeps the caller waiting. -/
def plugin_fini (n : Nat) (st : Stage) : Ret (Option String) × Stage :=
  if !st.ctx.initialized then (.returned (some "Plugin not initialized"), st)
  else
    match (st.work n).worker with
    | some .exited =>
      (.returned none,
        { st.work n with ctx := { (st.work n).ctx with queue := none, initialized := false } })
    | some .parked => (.blocked, st.work n)
    | _ => (.spinning, st.work n)

/-! ## logger.c -/

/-- The `plugin_transform` of `logger.c` on a non-`NULL` input: prints the record and
returns a copy of it. -/
def logger_plugin_transform (input : String) : Option String := some input

/-- A capacity-2 logger stage attached to a downstream stage, as started by
`common_plugin_init` and `plugin_attach`. -/
def logger_stage_2 : StageRun :=
  (stage_start PluginEnv.allOk logger_plugin_transform "logger" 2 (some "typewriter")).2

/-! ## main.c -/

/-- Lines 200-203 of `main`: a trailing newline of the line read is cut off. -/
def strip_newline (line : String) : String :=
  if line.length > 0 ∧ line.data.getLast? = some (Char.ofNat 10) then
    String.mk line.data.dropLast
  else line

/-- The read loop of `main` (lines 199-216).  `lines` are the strings that the successive
`fgets` calls leave in the buffer (end of input after the last one), `place_work` is
`plugins[0].place_work` acting on the rest of the world `σ`; the result is the world
afterwards and the records that `place_work` accepted, in order. -/
def feed_loop {σ : Type} (place_work : String → σ → Option String × σ)
    (num_plugins : Int) : List String → σ → List String → σ × List String
  | [], w, placed => (w, placed)
  | line :: rest, w, placed =>
    if num_plugins > 0 then
      match place_work (strip_newline line) w with
      | (some _, w2) => (w2, placed)
      | (none, w2) =>
        if strip_newline line = "<END>" then (w2, placed ++ [strip_newline line])
        else feed_loop place_work num_plugins rest w2 (placed ++ [strip_newline line])
    else if strip_newline line = "<END>" then (w, placed)
    else feed_loop place_work num_plugins rest w placed

/-- The records the read loop would place if every `place_work` succeeds: the stripped
lines up to and including the first `"<END>"`. -/
def fed_records (lines : List String) : List String :=
  (lines.map strip_newline).takeWhile (fun r => decide (r ≠ "<END>"))
    ++ (if "<END>" ∈ lines.map strip_newline then ["<END>"] else [])

/-- A `place_work` that always succeeds and keeps no state. -/
def place_work_accepting (_s : String) (w : Unit) : Option String × Unit := (none, w)

/-- The loaded plugin images: each name stands for one shared object with its own static
`plugin_context` and worker thread (loading a name twice yields the same image). -/
abbrev World := String → Stage

/-- The world before any `plugin_init`: zeroed contexts, no threads. -/
def world_zero : World :=
  fun _ => { ctx := plugin_context_zero, worker := none, events := [] }

/-- What `main` needs to know about the images: the `plugin_transform` of each and which
allocations succeed in its `plugin_init`. -/
structure MainEnv where
  transform : String → String → Option String
  plugin_env : String → PluginEnv

/-- The `plugin_init` of the image `name`: `common_plugin_init(plugin_transform, name,
queue_size)`; on success the worker thread runs. -/
def plugin_init (env : MainEnv) (name : String) (queue_size : Int) (w : World) :
    Option String × World :=
  let r := common_plugin_init (env.plugin_env name) (w name).ctx (some (env.transform name))
    (some name) queue_size
  (r.1, Function.update w name
    { ctx := r.2
      worker := if r.1.isNone then some .running else (w name).worker
      events := (w name).events })

/-- Function `cleanup_plugins`: `fini` of every handle in order (`dlclose` and `free`
carry no state here); it gets no further than a `fini` that does not return. -/
def cleanup_plugins (n : Nat) : List String → World → Ret Unit × World
  | [], w => (.returned (), w)
  | name :: rest, w =>
    match plugin_fini n (w name) with
    | (.returned _, st) => cleanup_plugins n rest (Function.update w name st)
    | (.blocked, st) => (.blocked, Function.update w name st)
    | (.spinning, st) => (.spinning, Function.update w name st)

/-- The loop "Initialize all plugins" of `main` (lines 182-190) over the handles still to
be initialised; `plugins` are all handles.  `returned (some 2)` is `return 2`,
`returned none` means the loop is done and `main` goes on, `blocked` means `main` waits
for ever inside `cleanup_plugins`. -/
def init_all (env : MainEnv) (n : Nat) (queue_size : Int) (plugins : List String) :
    List String → World → Ret (Option Int) × World
  | [], w => (.returned none, w)
  | name :: rest, w =>
    match plugin_init env name queue_size w with
    | (some _, w2) =>
      match cleanup_plugins n plugins w2 with
      | (.returned _, w3) => (.returned (some 2), w3)
      | (.blocked, w3) => (.blocked, w3)
      | (.spinning, w3) => (.spinning, w3)
    | (none, w2) => init_all env n queue_size plugins rest w2

/-- An environment with the logger transform everywhere and no failing allocation. -/
def env_all_logger : MainEnv :=
  { transform := fun _ => logger_plugin_transform, plugin_env := fun _ => PluginEnv.allOk }

/-! ## rotator.c and expander.c -/

/-- The terminator byte of a C string. -/
def nul : Char := Char.ofNat 0

/-- The `for` loop of the rotator's `plugin_transform` (lines 25-27), from index `i`, one
iteration per unit of fuel: `result[i] = input[i - 1]`. -/
def rotator_loop (input : List Char) (len : Nat) : Nat → Nat → List Char → List Char
  | 0, _, result => result
  | fuel + 1, i, result =>
    if i < len then
      rotator_loop input len fuel (i + 1) (result.set i (input.getD (i - 1) nul))
    else result

/-- The conversion of a `size_t` to `int` in `int length_of_input = strlen(input)`
(implementation-defined; gcc keeps the low 32 bits, read as a two's-complement number). -/
def size_t_to_int (n : Nat) : Int :=
  if n % 4294967296 < 2147483648 then ((n % 4294967296 : Nat) : Int)
  else ((n % 4294967296 : Nat) : Int) - 4294967296

/-- The result of an `int` operation brought back into the range of `int` by wrap-around
modulo 2^32 (what the compiled code computes; the C standard leaves signed overflow
undefined). -/
def wrap_int (v : Int) : Int := (v + 2147483648) % 4294967296 - 2147483648

/-- Whether `malloc(size)` called with an `int` returns a buffer: the argument is converted
to `size_t`, so a negative `int` asks for more than `PTRDIFF_MAX` bytes and `malloc`
returns `NULL`; every other request is taken to succeed. -/
def malloc_int_ok (size : Int) : Bool := decide (0 ≤ size)

/-- Lines 23-31 of the rotator's `plugin_transform` for a positive `length_of_input = len`
once `malloc(len + 1)` has returned a buffer: the buffer is filled and the string that
stands before the terminator written at index `len` is returned. -/
def rotator_fill (input : List Char) (len : Nat) : String :=
  let r0 := List.replicate (len + 1) nul
  let r1 := r0.set 0 (input.getD (len - 1) nul)
  let r2 := rotator_loop input len len 1 r1
  let r3 := r2.set len nul
  String.mk (r3.take len)

/-- The `plugin_transform` of `rotator.c` on a non-`NULL` input (`strdup` succeeds).
`length_of_input` is an `int`: the length of the input converted by `size_t_to_int`, so
only the low 32 bits of the length count.  When `length_of_input + 1` is negative as an
`int` (a negative `length_of_input`, or `INT_MAX` after wrap-around) `malloc` returns
`NULL`.  For `length_of_input = -1` the code gets a buffer from `malloc(0)` and then
accesses `input[-2]` and `result[-1]`, outside both arrays; this undefined case is
rendered as `NULL` as well. -/
def rotator_plugin_transform (input : String) : Option String :=
  let length_of_input : Int := size_t_to_int input.data.length
  if length_of_input = 0 then some input
  else if !malloc_int_ok (wrap_int (length_of_input + 1)) then none
  else if length_of_input < 0 then none
  else some (rotator_fill input.data length_of_input.toNat)

/-- The `for` loop of the expander's `plugin_transform` (lines 22-27), from index `i` with
write position `result_idx`, one iteration per unit of fuel. -/
def expander_loop (input : List Char) (len : Nat) :
    Nat → Nat → Nat → List Char → List Char
  | 0, _, _, result => result
  | fuel + 1, i, result_idx, result =>
    if i < len then
      if i < len - 1 then
        expander_loop input len fuel (i + 1) (result_idx + 2)
          ((result.set result_idx (input.getD i nul)).set (result_idx + 1) (Char.ofNat 32))
      else
        expander_loop input len fuel (i + 1) (result_idx + 1)
          (result.set result_idx (input.getD i nul))
    else result

/-- Lines 22-30 of the expander's `plugin_transform` for a positive
`length_of_input = len` once `malloc(length_after_transform + 1)` has returned a buffer:
the buffer is filled and the string that stands before the terminator written at index
`length_after_transform` is returned. -/
def expander_fill (input : List Char) (len length_after_transform : Nat) : String :=
  let r0 := List.replicate (length_after_transform + 1) nul
  let r1 := expander_loop input len len 0 0 r0
  let r2 := r1.set length_after_transform nul
  String.mk (r2.take length_after_transform)

/-- The `plugin_transform` of `expander.c` on a non-`NULL` input (`strdup` succeeds).
`length_of_input` and `length_after_transform` are `int`s: the length of the input is
converted by `size_t_to_int` and the sums wrap around.  When
`length_after_transform + 1` is negative as an `int`, `malloc` returns `NULL`; this
happens from `length_of_input = 2^30` on.  For a negative `length_of_input` that still
gets a buffer the loop body never runs and the code returns uninitialised bytes or
writes at index `-1`; this case is rendered as `NULL` as well. -/
def expander_plugin_transform (input : String) : Option String :=
  let length_of_input : Int := size_t_to_int input.data.length
  if length_of_input = 0 then some input
  else
    let length_after_transform : Int :=
      wrap_int (length_of_input + wrap_int (length_of_input - 1))
    if !malloc_int_ok (wrap_int (length_after_transform + 1)) then none
    else if length_of_input < 0 then none
    else
      some (expander_fill input.data length_of_input.toNat length_after_transform.toNat)

/-- A capacity-2 rotator stage attached to a downstream stage, as started by
`common_plugin_init` and `plugin_attach`. -/
def rotator_stage_2 : StageRun :=
  (stage_start PluginEnv.allOk rotator_plugin_transform "rotator" 2 (some "logger")).2

/-- A capacity-2 stage whose transform returns `NULL` for every record, attached to a
downstream stage, after `plugin_place_work("ab")`. -/
def dropping_stage : StageRun :=
  stage_run 1 [.place_work (some "ab") true]
    (stage_start PluginEnv.allOk (fun _ => none) "drop" 2 (some "logger")).2

/-- The queue of `dropping_stage`: capacity 2, holding `"ab"`. -/
def queue_2_holding_ab : consumer_producer_t :=
  { items := [some "ab", none]
    capacity := 2
    count := 1
    head := 0
    tail := 1
    not_full_monitor := { signaled := true }
    not_empty_monitor := { signaled := true }
    finished_monitor := { signaled := false }
    finished := false }

/-- The drain-complete latch of a stage agrees with its worker: the finished latch of the
stage queue is signaled exactly when the worker has returned. -/
def DrainLatchOk (r : StageRun) : Prop :=
  ∃ q : consumer_producer_t, r.stage.ctx.queue = some q ∧
    (q.finished_monitor.signaled = true ↔ r.stage.worker = some .exited)

/-- Modelled from the spec: the `plugin_transform` of the flipper stage, whose source
`flipper.c` is not among the files; the spec says "Forwards the character-reverse of s". -/
def flipper_plugin_transform (input : String) : Option String :=
  some (String.mk input.data.reverse)

/-! ## main.c: reading lines and checking the arguments -/

/-- The newline byte. -/
def newline : Char := Char.ofNat 10

/-- The bytes that one `fgets` call with room for `n` characters takes from the input:
it stops after a newline, after `n` characters or at the end of input.  The result is
the bytes read and the input left. -/
def fgets_take : Nat → List Char → List Char × List Char
  | 0, rest => ([], rest)
  | _ + 1, [] => ([], [])
  | n + 1, c :: rest =>
    if c = newline then ([c], rest)
    else (c :: (fgets_take n rest).1, (fgets_take n rest).2)

/-- The C library's `fgets(line, size, stdin)`: `none` is `NULL` (end of input with
nothing read), otherwise at most `size - 1` bytes are stored. -/
def fgets (size : Nat) (stdin : List Char) : Option (List Char × List Char) :=
  if stdin = [] then none else some (fgets_take (size - 1) stdin)

/-- The C string held by a buffer: the bytes before the first terminator. -/
def c_string (buf : List Char) : String := String.mk (buf.takeWhile (fun c => decide (c ≠ nul)))

/-- The strings that the successive `fgets(line, size, stdin)` calls of the read loop
leave in `line`, one call per unit of fuel, until `fgets` returns `NULL`. -/
def read_lines (size : Nat) : Nat → List Char → List String
  | 0, _ => []
  | fuel + 1, stdin =>
    match fgets size stdin with
    | none => []
    | some (buf, rest) => c_string buf :: read_lines size fuel rest

/-- The read loop of `main` on the input `stdin`, with `char line[1025]`: the world
afterwards and the records accepted by `place_work`, in order. -/
def main_read_loop {σ : Type} (place_work : String → σ → Option String × σ)
    (num_plugins : Int) (stdin : List Char) (w : σ) : σ × List String :=
  feed_loop place_work num_plugins (read_lines 1025 stdin.length stdin) w []

/-- Largest `int`. -/
def INT_MAX : Int := 2147483647

/-- Smallest `int`. -/
def INT_MIN : Int := -2147483648

/-- The C library's `isspace` in the C locale. -/
def is_space (c : Char) : Bool := c.toNat = 32 || (9 ≤ c.toNat && c.toNat ≤ 13)

/-- Test `'0' <= c && c <= '9'`. -/
def is_digit (c : Char) : Bool := !(decide (c < '0') || decide (c > '9'))

/-- The number written by a string of decimal digits. -/
def digits_value (cs : List Char) : Nat :=
  cs.foldl (fun acc c => 10 * acc + (c.toNat - 48)) 0

/-- The optional sign read by `atoi`: whether it is a minus, and the characters after it. -/
def atoi_sign : List Char → Bool × List Char
  | [] => (false, [])
  | c :: r =>
    if c = '-' then (true, r)
    else if c = '+' then (false, r)
    else (false, c :: r)

/-- The C library's `atoi`: white space, an optional sign, then the leading decimal
digits.  The C standard leaves the result undefined when the number does not fit an
`int`; `undefined_atoi` stands for what the library returns then. -/
def atoi (undefined_atoi : List Char → Int) (s : String) : Int :=
  let signed := atoi_sign (s.data.dropWhile is_space)
  let v : Int := (digits_value (signed.2.takeWhile is_digit) : Nat)
  let r : Int := if signed.1 then -v else v
  if INT_MIN ≤ r ∧ r ≤ INT_MAX then r else undefined_atoi s.data

/-- Lines 138-159 of `main`: the argument count, the digit scan of `argv[1]` and the
sign test of `atoi(argv[1])`.  `.error 1` is `return 1`, `.ok queue_size` means `main`
goes on. -/
def main_queue_size (undefined_atoi : List Char → Int) (argv : List String) :
    Except Int Int :=
  if argv.length < 3 then .error 1
  else if (argv.getD 1 "").data.any (fun c => decide (c < '0') || decide (c > '9')) then
    .error 1
  else if atoi undefined_atoi (argv.getD 1 "") ≤ 0 then .error 1
  else .ok (atoi undefined_atoi (argv.getD 1 ""))

/-- The loop "Load all plugins" of `main` (lines 172-179): the names handed to
`load_plugin`, in order, and whether one of them failed (`main` then returns 1).
`can_load` tells for which names `load_plugin` returns 0. -/
def load_all (can_load : String → Bool) : List String → List String × Bool
  | [] => ([], false)
  | name :: rest =>
    if can_load name then (name :: (load_all can_load rest).1, (load_all can_load rest).2)
    else ([name], true)

/-- What `main` has done when it reaches the init loop or returns before it. -/
structure Startup where
  exit_code : Option Int
  queue_size : Int
  loaded : List String
deriving DecidableEq, Repr

/-- Lines 135-179 of `main`: argument checks, then loading. -/
def main_startup (undefined_atoi : List Char → Int) (can_load : String → Bool)
    (argv : List String) : Startup :=
  match main_queue_size undefined_atoi argv with
  | .error code => { exit_code := some code, queue_size := 0, loaded := [] }
  | .ok queue_size =>
    { exit_code := if (load_all can_load (argv.drop 2)).2 then some 1 else none
      queue_size := queue_size
      loaded := (load_all can_load (argv.drop 2)).1 }

/-! ## The pipeline: workers wired by `main`, each forwarding into the next queue -/

/-- Where a worker thread stands between two queue operations: at the top of its loop
(about to call `consumer_producer_get`), inside `next_place_work(str)` (`last` tells
whether this is the forward of the sentinel, after which the loop is left), returned, or
crashed on a `NULL` transform. -/
inductive WorkerPc where
  | loop
  | forwarding (str : String) (last : Bool)
  | done
  | crashed
deriving DecidableEq, Repr

/-- A stage of a running pipeline: its context, where its worker stands, and the
arguments of the `process_function` calls made so far, in order. -/
structure Worker where
  ctx : plugin_context_t
  pc : WorkerPc
  calls : List String

/-- The end of `plugin_consumer_thread` (lines 42-45): `consumer_producer_signal_finished`
on the own queue, `finished = 1`, return. -/
def worker_exit (w : Worker) : Worker :=
  { w with
    ctx := { w.ctx with
      queue := w.ctx.queue.map consumer_producer_signal_finished
      finished := true }
    pc := .done }

/-- A worker at the top of its loop runs up to its next queue operation (lines 12-30):
`consumer_producer_get`, the sentinel test and the transform.  It stays where it is when
`consumer_producer_get` does not return. -/
def worker_take (fuel : Nat) (w : Worker) : Worker :=
  match w.ctx.queue with
  | none => worker_exit w
  | some q =>
    match consumer_producer_get fuel q with
    | (.returned none, q2) => worker_exit { w with ctx := { w.ctx with queue := some q2 } }
    | (.returned (some item), q2) =>
      if item = "<END>" then
        match w.ctx.next_place_work with
        | some _ =>
          { w with ctx := { w.ctx with queue := some q2 }, pc := .forwarding item true }
        | none => worker_exit { w with ctx := { w.ctx with queue := some q2 } }
      else
        match w.ctx.process_function with
        | none => { w with ctx := { w.ctx with queue := some q2 }, pc := .crashed }
        | some f =>
          match w.ctx.next_place_work, f item with
          | some _, some processed =>
            { ctx := { w.ctx with queue := some q2 }
              pc := .forwarding processed false
              calls := w.calls ++ [item] }
          | _, _ =>
            { ctx := { w.ctx with queue := some q2 }
              pc := .loop
              calls := w.calls ++ [item] }
    | (_, q2) => { w with ctx := { w.ctx with queue := some q2 } }

/-- A worker inside `next_place_work(str)`, which is the `plugin_place_work` of the stage
`next` (its copy of the string succeeds): once the call returns, with or without an
error, the worker goes back to its loop, or leaves after the sentinel; while the call
waits for room, nothing changes. -/
def worker_forward (fuel : Nat) (w : Worker) (str : String) (last : Bool) (next : Worker) :
    Worker × Worker :=
  match plugin_place_work fuel next.ctx (some str) true with
  | (.returned _, ctx2) =>
    (if last then worker_exit w else { w with pc := .loop }, { next with ctx := ctx2 })
  | (_, ctx2) => (w, { next with ctx := ctx2 })

/-- One step of the worker at position `i` of the chain; its forwarder is the stage at
position `i + 1`. -/
def workers_step (fuel : Nat) : Nat → List Worker → List Worker
  | _, [] => []
  | 0, w :: rest =>
    match w.pc with
    | .loop => worker_take fuel w :: rest
    | .forwarding str last =>
      match rest with
      | [] => w :: rest
      | nw :: rest2 =>
        (worker_forward fuel w str last nw).1 :: (worker_forward fuel w str last nw).2 :: rest2
    | _ => w :: rest
  | i + 1, w :: rest => w :: workers_step fuel i rest

/-- A running pipeline: the stages in order and the records that the read loop of `main`
still has to place into stage 0. -/
structure PipelineState where
  workers : List Worker
  unfed : List String

/-- What happens next in a pipeline: `main` places its next record into stage 0, or the
worker at position `i` takes a step. -/
inductive PipeAction where
  | feed
  | work (i : Nat)
deriving DecidableEq, Repr

/-- The read loop of `main` places its next record: it goes on to the next one when
`place_work` returns `NULL`, stops reading when it returns an error, and stays in the
call while it waits for room. -/
def pipeline_feed (fuel : Nat) (st : PipelineState) : PipelineState :=
  match st.unfed, st.workers with
  | s :: rest, w :: ws =>
    match plugin_place_work fuel w.ctx (some s) true with
    | (.returned none, ctx2) => { workers := { w with ctx := ctx2 } :: ws, unfed := rest }
    | (.returned (some _), ctx2) => { workers := { w with ctx := ctx2 } :: ws, unfed := [] }
    | (_, ctx2) => { workers := { w with ctx := ctx2 } :: ws, unfed := s :: rest }
  | _, _ => st

/-- One action on a pipeline. -/
def pipeline_step (fuel : Nat) (st : PipelineState) : PipeAction → PipelineState
  | .feed => pipeline_feed fuel st
  | .work i => { st with workers := workers_step fuel i st.workers }

/-- A schedule of actions, left to right. -/
def pipeline_run (fuel : Nat) (sched : List PipeAction) (st : PipelineState) :
    PipelineState :=
  sched.foldl (pipeline_step fuel) st

/-- The stages as `main` leaves them before reading input: every stage initialised by
`common_plugin_init` from its own zeroed context (the stages are pairwise distinct
images) with the same `queue_size`, and every stage but the last attached to the
`plugin_place_work` of its successor; `none` when an init fails. -/
def start_workers (env : PluginEnv) (queue_size : Int) :
    List (String × (String → Option String)) → Option (List Worker)
  | [] => some []
  | (name, t) :: rest =>
    match common_plugin_init env plugin_context_zero (some t) (some name) queue_size,
      start_workers env queue_size rest with
    | (none, ctx), some ws =>
      some ({ ctx := plugin_attach ctx (rest.head?.map Prod.fst), pc := .loop, calls := [] }
        :: ws)
    | _, _ => none

/-- What a stage with transform `t` hands on for the record `x`: the sentinel for the
sentinel, otherwise the result of the transform. -/
def relay (t : String → Option String) (x : String) : String :=
  if x = "<END>" then "<END>" else (t x).getD ""

/-- The records that reach the last stage of a chain with transforms `ts` when the
records `rs` are fed: `t_{N-2}(... t_0(r) ...)` for each `r`. -/
def last_stage_inputs : List (String → Option String) → List String → List String
  | [], rs => rs
  | [_], rs => rs
  | t :: t2 :: ts, rs => last_stage_inputs (t2 :: ts) (rs.map (relay t))

/-- No record that reaches a stage is the sentinel, and no stage but the last returns
`NULL` for a record that reaches it. -/
def well_behaved : List (String → Option String) → List String → Bool
  | [], _ => true
  | t :: ts, rs =>
    rs.all (fun r => decide (r ≠ "<END>")) &&
      (ts.isEmpty || (rs.all (fun r => (t r).isSome) && well_behaved ts (rs.map (relay t))))

/-- The calls of the transform of the last stage so far. -/
def last_calls (st : PipelineState) : List String :=
  match st.workers.getLast? with
  | some w => w.calls
  | none => []

/-- Whether the worker of the last stage has returned. -/
def last_done (st : PipelineState) : Bool :=
  match st.workers.getLast? with
  | some w => decide (w.pc = .done)
  | none => false

/-- The string a worker is about to forward, if any. -/
def WorkerPc.pending : WorkerPc → List String
  | .forwarding s _ => [s]
  | _ => []

/-- How the place of a worker in its code fits the records `taken` from its queue so far
and the `finished` flag of its queue. -/
def PcOk (t : String → Option String) (pc : WorkerPc) (finished : Bool)
    (taken : List String) (has_next : Bool) : Prop :=
  match pc with
  | .loop => "<END>" ∉ taken ∧ finished = false
  | .forwarding s last =>
    finished = false ∧ has_next = true ∧
      ∃ (tk : List String) (x : String), taken = tk ++ [x] ∧ "<END>" ∉ tk ∧
        s = relay t x ∧ last = decide (x = "<END>")
  | .done => finished = true ∧ "<END>" ∈ taken
  | .crashed => False

/-- The invariant of a chain of stages with transforms `ts`.  `body` are the records
that reach the first stage of the chain over the whole run (the sentinel follows them)
and `inc` is the part of that stream that has not been put into its queue yet: the
stream is what the worker has taken, then the queue contents, then `inc`; the calls made
are the records taken; and the rest of the chain satisfies the same with the relayed
stream. -/
def ChainInv : List Worker → List (String → Option String) → List String → List String →
    Prop
  | [], [], _, _ => True
  | w :: ws, t :: ts, body, inc =>
    ∃ (q : consumer_producer_t) (taken Q : List String),
      w.ctx.queue = some q ∧ RingOk q ∧ w.ctx.process_function = some t ∧
      w.ctx.initialized = true ∧ w.ctx.next_place_work.isSome = !ws.isEmpty ∧
      ring_contents q = Q.map some ∧ taken ++ Q ++ inc = body ++ ["<END>"] ∧
      w.calls = taken.filter (fun x => decide (x ≠ "<END>")) ∧
      PcOk t w.pc q.finished taken (!ws.isEmpty) ∧
      ChainInv ws ts (body.map (relay t)) (w.pc.pending ++ (Q ++ inc).map (relay t))
  | _, _, _, _ => False

/-- Progress still to be made by a worker: three units per record it has not taken yet
and up to three for where it stands. -/
def worker_measure (m : Nat) (w : Worker) : Nat :=
  3 * (m - w.calls.length) +
    (match w.pc with
     | .loop => 2
     | .forwarding _ false => 3
     | .forwarding _ true => 1
     | _ => 0)

/-- Progress still to be made by a chain fed with `m` records. -/
def chain_measure (m : Nat) (ws : List Worker) : Nat :=
  (ws.map (worker_measure m)).sum

/-- Progress still to be made by a pipeline fed with `m` records. -/
def pipeline_measure (m : Nat) (st : PipelineState) : Nat :=
  st.unfed.length + chain_measure m st.workers

/-- The actions of `rounds` rounds over a pipeline of `stages` stages: in each round
`main` places a record, then every worker takes a step, first stage first. -/
def round_robin (rounds stages : Nat) : List PipeAction :=
  (List.replicate rounds (PipeAction.feed :: (List.range stages).map PipeAction.work)).flatten

/-- The pipeline that `main` builds from `stages` with queue size `queue_size`, fed with
`records` followed by the sentinel and run under a schedule: whether the worker of the
last stage has returned, and the calls of its transform; `none` when an init fails. -/
def pipeline_outcome (env : PluginEnv) (queue_size : Int)
    (stages : List (String × (String → Option String))) (records : List String)
    (fuel : Nat) (sched : List PipeAction) : Option (Bool × List String) :=
  (start_workers env queue_size stages).map fun ws =>
    (last_done (pipeline_run fuel sched { workers := ws, unfed := records ++ ["<END>"] }),
      last_calls (pipeline_run fuel sched { workers := ws, unfed := records ++ ["<END>"] }))

/-- The stages of `prog K rotator logger`. -/
def rotator_logger : List (String × (String → Option String)) :=
  [("rotator", rotator_plugin_transform), ("logger", logger_plugin_transform)]

/-- The stages of `prog K expander logger`. -/
def expander_logger : List (String × (String → Option String)) :=
  [("expander", expander_plugin_transform), ("logger", logger_plugin_transform)]

/-- A capacity-3 queue as `consumer_producer_init` leaves it. -/
def fresh_queue_3 : consumer_producer_t :=
  { items := [none, none, none]
    capacity := 3
    count := 0
    head := 0
    tail := 0
    not_full_monitor := { signaled := true }
    not_empty_monitor := { signaled := false }
    finished_monitor := { signaled := false }
    finished := false }

/-- The capacity-2 queue after two puts: the ring is full and `tail` has come back to
`head`. -/
def full_queue_2 : consumer_producer_t :=
  (queue_run 1 [.put "a" true, .put "b" true] (fresh_queue_2, QueueTrace.empty)).1

/-- The capacity-3 queue after three puts, two gets and one more put: the live region
runs over the end of the array (`head = 2`, `tail = 1`, `count = 2`). -/
def wrapped_queue_3 : consumer_producer_t :=
  (queue_run 1 [.put "a" true, .put "b" true, .put "c" true, .get, .get, .put "d" true]
    (fresh_queue_3, QueueTrace.empty)).1

/-- The capacity-3 queue holding two records on which `consumer_producer_signal_finished`
was called and one record was taken afterwards. -/
def draining_queue_3 : consumer_producer_t :=
  (queue_run 1 [.put "a" true, .put "b" true, .signal_finished, .get]
    (fresh_queue_3, QueueTrace.empty)).1

/-- A record of 2^32 + 3 bytes: `xyz` followed by 2^32 times `a`. -/
def long_record : String := String.mk ('x' :: 'y' :: 'z' :: List.replicate 4294967296 'a')

/-- Largest `long`. -/
def LONG_MAX : Int := 9223372036854775807

/-- Smallest `long`. -/
def LONG_MIN : Int := -9223372036854775808

/-- What the `atoi` of the GNU C library returns, `(int) strtol(nptr, NULL, 10)`: `strtol`
reads white space, an optional sign and the leading decimal digits and clamps the number
to the range of `long`; the conversion to `int` keeps the low 32 bits. -/
def glibc_atoi (cs : List Char) : Int :=
  let signed := atoi_sign (cs.dropWhile is_space)
  let v : Int := (digits_value (signed.2.takeWhile is_digit) : Nat)
  let r : Int := if signed.1 then -v else v
  wrap_int (max LONG_MIN (min LONG_MAX r))

/-- The record of a call of the transform. -/
def Event.transformed : Event → Option String
  | .transform r => some r
  | .forward _ => none

/-- The string of a call of the forwarder. -/
def Event.forwarded : Event → Option String
  | .forward s => some s
  | .transform _ => none

/-- The calls that a worker with transform `f` owes for the delivered records, written out
from the contract of a stage and not from the worker's code: for every record before the
first `"<END>"`, in order, the call of `f` on it, followed by the forward of the result
when a forwarder is attached and the result is not absent; then, when a forwarder is
attached, one forward of `"<END>"`; nothing for the records after the first `"<END>"`. -/
def owed_calls (f : String → Option String) (has_forwarder : Bool) :
    List String → List Event
  | [] => if has_forwarder then [.forward "<END>"] else []
  | r :: rs =>
    if r = "<END>" then (if has_forwarder then [.forward "<END>"] else [])
    else
      match has_forwarder, f r with
      | true, some y => .transform r :: .forward y :: owed_calls f has_forwarder rs
      | _, _ => .transform r :: owed_calls f has_forwarder rs

/-! # Theorems -/

/-! ## Ring arithmetic and single queue operations -/

theorem tmod_wrap (a c : Int) (h0 : 0 ≤ a) (h1 : a < 2 * c) :
    Int.tmod a c = if a < c then a else a - c := by
  have hc : 0 ≤ c := by omega
  rw [Int.tmod_eq_emod h0 hc]
  split
  · exact Int.emod_eq_of_lt h0 (by assumption)
  · rw [Int.emod_eq_sub_self_emod]
    exact Int.emod_eq_of_lt (by omega) (by omega)

theorem put_wait_space (fuel : Nat) (q : consumer_producer_t) (hf : q.finished = false)
    (hc : q.count < q.capacity) : put_wait (fuel + 1) q = .space := by
  simp [put_wait, hf, hc]

theorem get_wait_available (fuel : Nat) (q : consumer_producer_t) (hc : 0 < q.count) :
    get_wait (fuel + 1) q = .available := by
  simp [get_wait, hc]

theorem put_ok_fields (fuel : Nat) (q : consumer_producer_t) (s : String)
    (hf : q.finished = false) (hc : q.count < q.capacity) :
    (consumer_producer_put (fuel + 1) q (some s) true).1 = .returned none ∧
    (consumer_producer_put (fuel + 1) q (some s) true).2.items
      = q.items.set q.tail.toNat (some s) ∧
    (consumer_producer_put (fuel + 1) q (some s) true).2.capacity = q.capacity ∧
    (consumer_producer_put (fuel + 1) q (some s) true).2.count = q.count + 1 ∧
    (consumer_producer_put (fuel + 1) q (some s) true).2.head = q.head ∧
    (consumer_producer_put (fuel + 1) q (some s) true).2.tail
      = Int.tmod (q.tail + 1) q.capacity ∧
    (consumer_producer_put (fuel + 1) q (some s) true).2.finished = false := by
  simp only [consumer_producer_put, hf, put_wait_space fuel q hf hc]
  refine ⟨?_, ?_, ?_, ?_, ?_, ?_, ?_⟩ <;> simp <;> split_ifs <;> simp [hf]

theorem get_ok_fields (fuel : Nat) (q : consumer_producer_t) (hc : 0 < q.count) :
    (consumer_producer_get (fuel + 1) q).1
      = .returned (q.items.getD q.head.toNat none) ∧
    (consumer_producer_get (fuel + 1) q).2.items = q.items.set q.head.toNat none ∧
    (consumer_producer_get (fuel + 1) q).2.capacity = q.capacity ∧
    (consumer_producer_get (fuel + 1) q).2.count = q.count - 1 ∧
    (consumer_producer_get (fuel + 1) q).2.head = Int.tmod (q.head + 1) q.capacity ∧
    (consumer_producer_get (fuel + 1) q).2.tail = q.tail ∧
    (consumer_producer_get (fuel + 1) q).2.finished = q.finished := by
  simp only [consumer_producer_get, get_wait_available fuel q hc]
  refine ⟨?_, ?_, ?_, ?_, ?_, ?_, ?_⟩ <;> simp <;> split_ifs <;> simp

theorem ring_slot_wrap (q : consumer_producer_t) (h : RingOk q) (i : Nat)
    (hi : (i : Int) ≤ q.capacity) :
    Int.tmod (q.head + (i : Int)) q.capacity
      = if q.head + (i : Int) < q.capacity then q.head + (i : Int)
        else q.head + (i : Int) - q.capacity := by
  have h1 := h.head_lo
  have h2 := h.head_hi
  exact tmod_wrap _ _ (by omega) (by omega)

theorem ring_push (q q2 : consumer_producer_t) (s : String) (h : RingOk q)
    (hc : q.count < q.capacity)
    (hitems : q2.items = q.items.set q.tail.toNat (some s))
    (hcap : q2.capacity = q.capacity) (hcount : q2.count = q.count + 1)
    (hhead : q2.head = q.head) (htail : q2.tail = Int.tmod (q.tail + 1) q.capacity) :
    RingOk q2 ∧ ring_contents q2 = ring_contents q ++ [some s] := by
  obtain ⟨c1, c2, c3, c4, c5, c6, c7⟩ := h
  have hw : q.tail = if q.head + q.count < q.capacity then q.head + q.count
      else q.head + q.count - q.capacity := by
    rw [c7]; exact tmod_wrap _ _ (by omega) (by omega)
  have htl : 0 ≤ q.tail ∧ q.tail < q.capacity := by
    rw [hw]; split_ifs <;> omega
  constructor
  · refine ⟨by omega, ?_, by omega, by omega, by omega, by omega, ?_⟩
    · rw [hitems, hcap, List.length_set, c2]
    · rw [htail, hcap, hhead, hcount, tmod_wrap _ _ (by omega) (by omega),
        tmod_wrap (q.head + (q.count + 1)) _ (by omega) (by omega), hw]
      split_ifs <;> omega
  · have hn : q2.count.toNat = q.count.toNat + 1 := by omega
    unfold ring_contents
    rw [hn, List.range_succ, List.map_append, List.map_singleton]
    congr 1
    · apply List.map_congr_left
      intro i hi
      have hi2 : i < q.count.toNat := List.mem_range.mp hi
      unfold ring_slot
      rw [hitems, hcap, hhead, List.getD_eq_getElem?_getD, List.getD_eq_getElem?_getD,
        List.getElem?_set_ne]
      rw [tmod_wrap _ _ (by omega) (by omega), hw]
      split_ifs <;> omega
    · unfold ring_slot
      have e : ((q.count.toNat : Nat) : Int) = q.count := by omega
      rw [hitems, hcap, hhead, e, ← c7, List.getD_eq_getElem?_getD, List.getElem?_set_self]
      · rfl
      · omega

theorem ring_pop (q q2 : consumer_producer_t) (h : RingOk q) (hc : 0 < q.count)
    (hitems : q2.items = q.items.set q.head.toNat none)
    (hcap : q2.capacity = q.capacity) (hcount : q2.count = q.count - 1)
    (hhead : q2.head = Int.tmod (q.head + 1) q.capacity) (htail : q2.tail = q.tail) :
    RingOk q2 ∧ ring_contents q = q.items.getD q.head.toNat none :: ring_contents q2 := by
  obtain ⟨c1, c2, c3, c4, c5, c6, c7⟩ := h
  have hh : q2.head = if q.head + 1 < q.capacity then q.head + 1
      else q.head + 1 - q.capacity := by
    rw [hhead]; exact tmod_wrap _ _ (by omega) (by omega)
  constructor
  · refine ⟨by omega, ?_, ?_, ?_, by omega, by omega, ?_⟩
    · rw [hitems, hcap, List.length_set, c2]
    · rw [hh]; split_ifs <;> omega
    · rw [hh, hcap]; split_ifs <;> omega
    · rw [htail, c7, hcap, hcount, tmod_wrap _ _ (by omega) (by omega), hh]
      have h3 : 0 ≤ (if q.head + 1 < q.capacity then q.head + 1
          else q.head + 1 - q.capacity) + (q.count - 1) := by split_ifs <;> omega
      have h4 : (if q.head + 1 < q.capacity then q.head + 1
          else q.head + 1 - q.capacity) + (q.count - 1) < 2 * q.capacity := by
        split_ifs <;> omega
      rw [tmod_wrap _ _ h3 h4]
      split_ifs <;> omega
  · have hn : q.count.toNat = q2.count.toNat + 1 := by omega
    unfold ring_contents
    rw [hn, List.range_succ_eq_map, List.map_cons, List.map_map]
    congr 1
    · unfold ring_slot
      have e : q.head + ((0 : Nat) : Int) = q.head := by simp
      rw [e, tmod_wrap _ _ (by omega) (by omega), if_pos c4]
    · apply List.map_congr_left
      intro i hi
      have hi2 : i < q2.count.toNat := List.mem_range.mp hi
      simp only [Function.comp, ring_slot]
      rw [hitems, hcap, List.getD_eq_getElem?_getD, List.getD_eq_getElem?_getD,
        List.getElem?_set_ne]
      · congr 2
        rw [hh, tmod_wrap _ _ (by omega) (by omega)]
        have h3 : 0 ≤ (if q.head + 1 < q.capacity then q.head + 1
            else q.head + 1 - q.capacity) + (i : Int) := by split_ifs <;> omega
        have h4 : (if q.head + 1 < q.capacity then q.head + 1
            else q.head + 1 - q.capacity) + (i : Int) < 2 * q.capacity := by
          split_ifs <;> omega
        rw [tmod_wrap _ _ h3 h4]
        push_cast
        split_ifs <;> omega
      · rw [hh]
        have h3 : 0 ≤ (if q.head + 1 < q.capacity then q.head + 1
            else q.head + 1 - q.capacity) + (i : Int) := by split_ifs <;> omega
        have h4 : (if q.head + 1 < q.capacity then q.head + 1
            else q.head + 1 - q.capacity) + (i : Int) < 2 * q.capacity := by
          split_ifs <;> omega
        rw [tmod_wrap _ _ h3 h4]
        split_ifs <;> omega

/-! ## FIFO order of `put` / `get` -/

theorem put_strdup_fail (fuel : Nat) (q : consumer_producer_t) (s : String)
    (hf : q.finished = false) (hc : q.count < q.capacity) :
    consumer_producer_put (fuel + 1) q (some s) false
      = (.returned (some "Failed to allocate memory for item"), q) := by
  simp [consumer_producer_put, hf, put_wait_space fuel q hf hc]

theorem queue_step_inv (fuel : Nat) (st : consumer_producer_t × QueueTrace) (op : QueueOp)
    (h1 : RingOk st.1) (h2 : st.1.finished = false)
    (h3 : st.2.dequeued.map some ++ ring_contents st.1 = st.2.enqueued.map some)
    (hen : op_enabled st.1 op = true) :
    RingOk (queue_step (fuel + 1) st op).1 ∧
    (queue_step (fuel + 1) st op).1.finished = false ∧
    (queue_step (fuel + 1) st op).2.dequeued.map some
        ++ ring_contents (queue_step (fuel + 1) st op).1
      = (queue_step (fuel + 1) st op).2.enqueued.map some ∧
    (queue_step (fuel + 1) st op).2.enqueued = st.2.enqueued ++ op.accepted.toList ∧
    (queue_step (fuel + 1) st op).2.dequeued.length
      = st.2.dequeued.length + (if op.isGet then 1 else 0) := by
  obtain ⟨q, tr⟩ := st
  simp only at h1 h2 h3 hen
  cases op with
  | put s ok =>
    have hc : q.count < q.capacity := by simpa [op_enabled] using hen
    cases ok with
    | false =>
      simp only [queue_step, put_strdup_fail fuel q s h2 hc, QueueOp.accepted,
        QueueOp.isGet]
      simp [h1, h2, h3]
    | true =>
      obtain ⟨e1, e2, e3, e4, e5, e6, e7⟩ := put_ok_fields fuel q s h2 hc
      obtain ⟨r1, r2⟩ := ring_push q _ s h1 hc e2 e3 e4 e5 e6
      have hres : consumer_producer_put (fuel + 1) q (some s) true
          = (.returned none, (consumer_producer_put (fuel + 1) q (some s) true).2) :=
        Prod.ext e1 rfl
      simp only [queue_step, QueueOp.accepted, QueueOp.isGet]
      rw [hres]
      refine ⟨r1, e7, ?_, by simp, by simp⟩
      simp only [r2, List.map_append, List.map_cons, List.map_nil, ← h3, List.append_assoc]
  | get =>
    have hc : 0 < q.count := by simpa [op_enabled] using hen
    obtain ⟨e1, e2, e3, e4, e5, e6, e7⟩ := get_ok_fields fuel q hc
    obtain ⟨r1, r2⟩ := ring_pop q _ h1 hc e2 e3 e4 e5 e6
    rw [r2] at h3
    have hmem : q.items.getD q.head.toNat none ∈ tr.enqueued.map some := by
      rw [← h3]; simp
    obtain ⟨v, -, hv⟩ := List.mem_map.mp hmem
    rw [← hv] at h3 e1
    have hres : consumer_producer_get (fuel + 1) q
        = (.returned (some v), (consumer_producer_get (fuel + 1) q).2) :=
      Prod.ext e1 rfl
    simp only [queue_step, QueueOp.accepted, QueueOp.isGet]
    rw [hres]
    refine ⟨r1, by rw [e7, h2], ?_, by simp, by simp⟩
    simp only [List.map_append, List.map_cons, List.map_nil, ← h3, List.append_assoc,
      List.singleton_append]
  | signal_finished => simp [op_enabled] at hen
  | wait_finished => simp [op_enabled] at hen

theorem queue_run_inv (fuel : Nat) (ops : List QueueOp) :
    ∀ st : consumer_producer_t × QueueTrace,
    RingOk st.1 → st.1.finished = false →
    st.2.dequeued.map some ++ ring_contents st.1 = st.2.enqueued.map some →
    admissible (fuel + 1) ops st = true →
    RingOk (queue_run (fuel + 1) ops st).1 ∧
    (queue_run (fuel + 1) ops st).1.finished = false ∧
    (queue_run (fuel + 1) ops st).2.dequeued.map some
        ++ ring_contents (queue_run (fuel + 1) ops st).1
      = (queue_run (fuel + 1) ops st).2.enqueued.map some ∧
    (queue_run (fuel + 1) ops st).2.enqueued
      = st.2.enqueued ++ ops.filterMap QueueOp.accepted ∧
    (queue_run (fuel + 1) ops st).2.dequeued.length
      = st.2.dequeued.length + ops.countP QueueOp.isGet := by
  induction ops with
  | nil => intro st h1 h2 h3 _; simp [queue_run, h1, h2, h3]
  | cons op ops ih =>
    intro st h1 h2 h3 hadm
    simp only [admissible, Bool.and_eq_true] at hadm
    obtain ⟨s1, s2, s3, s4, s5⟩ := queue_step_inv fuel st op h1 h2 h3 hadm.1
    obtain ⟨t1, t2, t3, t4, t5⟩ := ih _ s1 s2 s3 hadm.2
    have e : queue_run (fuel + 1) (op :: ops) st
        = queue_run (fuel + 1) ops (queue_step (fuel + 1) st op) := rfl
    rw [e]
    refine ⟨t1, t2, t3, ?_, ?_⟩
    · rw [t4, s4]
      cases h : op.accepted <;> simp [List.filterMap_cons, h]
    · rw [t5, s5, List.countP_cons]
      omega

theorem init_ok_state (env : InitEnv) (K : Int) (q0 : consumer_producer_t)
    (h : consumer_producer_init env K = .ok q0) :
    0 < K ∧ q0 =
      { items := List.replicate K.toNat none
        capacity := K
        count := 0
        head := 0
        tail := 0
        not_full_monitor := { signaled := true }
        not_empty_monitor := { signaled := false }
        finished_monitor := { signaled := false }
        finished := false } := by
  unfold consumer_producer_init at h
  split_ifs at h with h1
  refine ⟨by omega, ?_⟩
  injection h with h
  rw [← h]
  rfl

theorem init_ringOk (env : InitEnv) (K : Int) (q0 : consumer_producer_t)
    (h : consumer_producer_init env K = .ok q0) :
    RingOk q0 ∧ q0.finished = false ∧ ring_contents q0 = [] ∧ q0.count = 0 ∧
      q0.capacity = K := by
  obtain ⟨hK, rfl⟩ := init_ok_state env K q0 h
  refine ⟨⟨hK, by simp, le_refl _, hK, le_refl _, le_of_lt hK, ?_⟩, rfl, rfl, rfl, rfl⟩
  show (0 : Int) = Int.tmod (0 + 0) K
  rw [tmod_wrap _ _ (by omega) (by omega)]
  simp [hK]

/-- C1: on a freshly initialised queue, along every sequence of `put` / `get` calls each
issued when it is enabled (`put` when `count < capacity`, `get` when `count > 0`), the
strings returned by the gets followed by the ring contents from head to tail are exactly
the successfully enqueued strings in enqueue order; every `put` whose copy succeeds is
enqueued, every `get` returns a string, and gets + count = successful puts. -/
theorem fifo_put_get (env : InitEnv) (K : Int) (q0 : consumer_producer_t)
    (hinit : consumer_producer_init env K = .ok q0) (fuel : Nat) (hfuel : 0 < fuel)
    (ops : List QueueOp) (hadm : admissible fuel ops (q0, QueueTrace.empty) = true) :
    (queue_run fuel ops (q0, QueueTrace.empty)).2.dequeued.map some
        ++ ring_contents (queue_run fuel ops (q0, QueueTrace.empty)).1
      = (queue_run fuel ops (q0, QueueTrace.empty)).2.enqueued.map some ∧
    (queue_run fuel ops (q0, QueueTrace.empty)).2.enqueued
      = ops.filterMap QueueOp.accepted ∧
    (queue_run fuel ops (q0, QueueTrace.empty)).2.dequeued.length
      = ops.countP QueueOp.isGet ∧
    ((queue_run fuel ops (q0, QueueTrace.empty)).2.dequeued.length : Int)
        + (queue_run fuel ops (q0, QueueTrace.empty)).1.count
      = ((queue_run fuel ops (q0, QueueTrace.empty)).2.enqueued.length : Int) := by
  obtain ⟨n, rfl⟩ : ∃ n, fuel = n + 1 := ⟨fuel - 1, by omega⟩
  obtain ⟨i1, i2, i3, -, -⟩ := init_ringOk env K q0 hinit
  obtain ⟨t1, t2, t3, t4, t5⟩ := queue_run_inv n ops (q0, QueueTrace.empty) i1 i2
    (by simp [QueueTrace.empty, i3]) hadm
  refine ⟨t3, by simpa [QueueTrace.empty] using t4, by simpa [QueueTrace.empty] using t5, ?_⟩
  have hl := congrArg List.length t3
  simp only [List.length_append, List.length_map, ring_contents, List.length_range] at hl
  have := t1.count_lo
  omega

theorem fifo_put_get_witness :
    (queue_run 1 [.put "a" true, .put "b" true, .get, .put "c" true, .get]
        (fresh_queue_2, QueueTrace.empty)).2.dequeued.map some
        ++ ring_contents (queue_run 1 [.put "a" true, .put "b" true, .get, .put "c" true, .get]
          (fresh_queue_2, QueueTrace.empty)).1
      = (queue_run 1 [.put "a" true, .put "b" true, .get, .put "c" true, .get]
          (fresh_queue_2, QueueTrace.empty)).2.enqueued.map some :=
  (fifo_put_get InitEnv.allOk 2 fresh_queue_2 rfl 1 (by decide)
    [.put "a" true, .put "b" true, .get, .put "c" true, .get] (by decide)).1

/-! ## Invariants of the reachable queue states -/

theorem put_wait_space_inv (fuel : Nat) (q : consumer_producer_t)
    (h : put_wait fuel q = .space) :
    q.finished = false ∧ q.count < q.capacity ∧ 0 < fuel := by
  induction fuel with
  | zero => simp [put_wait] at h
  | succ n ih =>
    unfold put_wait at h
    by_cases hf : q.finished = true
    · simp [hf] at h
    · by_cases hc : q.count < q.capacity
      · exact ⟨by simpa using hf, hc, Nat.succ_pos n⟩
      · simp only [hf, hc, if_false] at h
        unfold monitor_wait at h
        by_cases hs : q.not_full_monitor.signaled = true
        · simp only [hs, if_true] at h
          have := ih (by simpa using h)
          exact absurd this.2.1 hc
        · simp [hs] at h

theorem get_wait_available_inv (fuel : Nat) (q : consumer_producer_t)
    (h : get_wait fuel q = .available) : 0 < q.count ∧ 0 < fuel := by
  induction fuel with
  | zero => simp [get_wait] at h
  | succ n ih =>
    unfold get_wait at h
    by_cases hc : q.count > 0
    · exact ⟨hc, Nat.succ_pos n⟩
    · by_cases hf : q.finished = true
      · simp [hc, hf] at h
      · simp only [hf, hc, if_false] at h
        unfold monitor_wait at h
        by_cases hs : q.not_empty_monitor.signaled = true
        · simp only [hs, if_true] at h
          have := ih (by simpa using h)
          exact absurd this.1 hc
        · simp [hs] at h

theorem put_cases (fuel : Nat) (q : consumer_producer_t) (item : Option String)
    (ok : Bool) :
    (consumer_producer_put fuel q item ok).2 = q ∨
    (∃ s n, item = some s ∧ fuel = n + 1 ∧ ok = true ∧ q.finished = false ∧
      q.count < q.capacity) := by
  cases item with
  | none => left; rfl
  | some s =>
    by_cases hf : q.finished = true
    · left; simp [consumer_producer_put, hf]
    · cases hw : put_wait fuel q with
      | space =>
        obtain ⟨h1, h2, h3⟩ := put_wait_space_inv fuel q hw
        cases ok with
        | false => left; simp [consumer_producer_put, hf, hw]
        | true => right; exact ⟨s, fuel - 1, rfl, by omega, rfl, h1, h2⟩
      | _ => left; simp [consumer_producer_put, hf, hw]

theorem get_cases (fuel : Nat) (q : consumer_producer_t) :
    (consumer_producer_get fuel q).2 = q ∨ (∃ n, fuel = n + 1 ∧ 0 < q.count) := by
  cases hw : get_wait fuel q with
  | available =>
    obtain ⟨h1, h2⟩ := get_wait_available_inv fuel q hw
    right; exact ⟨fuel - 1, by omega, h1⟩
  | _ => left; simp [consumer_producer_get, hw]

theorem put_ok_latches (fuel : Nat) (q : consumer_producer_t) (s : String)
    (hf : q.finished = false) (hc : q.count < q.capacity) :
    (consumer_producer_put (fuel + 1) q (some s) true).2.not_full_monitor
      = (if q.count + 1 = q.capacity then { signaled := false } else q.not_full_monitor) ∧
    (consumer_producer_put (fuel + 1) q (some s) true).2.not_empty_monitor
      = (if q.count + 1 = 1 then { signaled := true } else q.not_empty_monitor) ∧
    (consumer_producer_put (fuel + 1) q (some s) true).2.finished_monitor
      = q.finished_monitor := by
  simp only [consumer_producer_put, hf, put_wait_space fuel q hf hc]
  refine ⟨?_, ?_, ?_⟩ <;> simp <;> split_ifs <;> simp [monitor_signal, monitor_reset]

theorem get_ok_latches (fuel : Nat) (q : consumer_producer_t) (hc : 0 < q.count) :
    (consumer_producer_get (fuel + 1) q).2.not_full_monitor
      = (if q.count - 1 = q.capacity - 1 then { signaled := true }
          else q.not_full_monitor) ∧
    (consumer_producer_get (fuel + 1) q).2.not_empty_monitor
      = (if q.count - 1 = 0 then { signaled := false } else q.not_empty_monitor) ∧
    (consumer_producer_get (fuel + 1) q).2.finished_monitor = q.finished_monitor := by
  simp only [consumer_producer_get, get_wait_available fuel q hc]
  refine ⟨?_, ?_, ?_⟩ <;> simp <;> split_ifs <;> simp [monitor_signal, monitor_reset]

theorem wait_finished_state (q : consumer_producer_t) :
    (consumer_producer_wait_finished q).2 = q := by
  unfold consumer_producer_wait_finished monitor_wait
  split_ifs <;> simp

theorem queue_step_state (fuel : Nat) (q : consumer_producer_t) (tr : QueueTrace)
    (op : QueueOp) :
    (queue_step fuel (q, tr) op).1 =
      match op with
      | .put s ok => (consumer_producer_put fuel q (some s) ok).2
      | .get => (consumer_producer_get fuel q).2
      | .signal_finished => consumer_producer_signal_finished q
      | .wait_finished => q := by
  cases op with
  | put s ok => simp only [queue_step]; split <;> simp_all
  | get => simp only [queue_step]; split <;> simp_all
  | signal_finished => rfl
  | wait_finished => simp [queue_step, wait_finished_state]

theorem step_preserves (fuel : Nat) (q : consumer_producer_t) (tr : QueueTrace)
    (op : QueueOp) (h1 : RingOk q) (h2 : LatchOk q) :
    RingOk (queue_step fuel (q, tr) op).1 ∧ LatchOk (queue_step fuel (q, tr) op).1 ∧
      (queue_step fuel (q, tr) op).1.capacity = q.capacity := by
  rw [queue_step_state]
  cases op with
  | put s ok =>
    simp only
    rcases put_cases fuel q (some s) ok with h | ⟨s2, n, hs, rfl, rfl, hf, hc⟩
    · rw [h]; exact ⟨h1, h2, rfl⟩
    · obtain ⟨e1, e2, e3, e4, e5, e6, e7⟩ := put_ok_fields n q s hf hc
      obtain ⟨l1, l2, l3⟩ := put_ok_latches n q s hf hc
      obtain ⟨r1, -⟩ := ring_push q _ s h1 hc e2 e3 e4 e5 e6
      refine ⟨r1, ⟨?_, ?_⟩, e3⟩
      · rw [l1, e3, e4]
        have hnf := h2.not_full
        split_ifs with hx
        · simp; omega
        · rw [hnf]; constructor <;> intro <;> omega
      · intro _
        rw [l2]
        have := h2.not_empty
        have := h1.count_lo
        split_ifs with hx
        · rfl
        · exact h2.not_empty (by omega)
  | get =>
    simp only
    rcases get_cases fuel q with h | ⟨n, rfl, hc⟩
    · rw [h]; exact ⟨h1, h2, rfl⟩
    · obtain ⟨e1, e2, e3, e4, e5, e6, e7⟩ := get_ok_fields n q hc
      obtain ⟨l1, l2, l3⟩ := get_ok_latches n q hc
      obtain ⟨r1, -⟩ := ring_pop q _ h1 hc e2 e3 e4 e5 e6
      refine ⟨r1, ⟨?_, ?_⟩, e3⟩
      · rw [l1, e3, e4]
        have hnf := h2.not_full
        have := h1.count_hi
        split_ifs with hx
        · simp; omega
        · rw [hnf]; constructor <;> intro <;> omega
      · intro hpos
        rw [l2]
        rw [e4] at hpos
        split_ifs with hx
        · omega
        · exact h2.not_empty hc
  | signal_finished =>
    refine ⟨⟨h1.1, h1.2, h1.3, h1.4, h1.5, h1.6, h1.7⟩, ⟨h2.not_full, ?_⟩, rfl⟩
    intro _; rfl
  | wait_finished => exact ⟨h1, h2, rfl⟩

theorem reachable_inv (K : Int) (q : consumer_producer_t) (h : Reachable K q) :
    RingOk q ∧ LatchOk q ∧ q.capacity = K := by
  induction h with
  | init env q hq =>
    obtain ⟨hK, rfl⟩ := init_ok_state env K q hq
    obtain ⟨i1, -⟩ := init_ringOk env K _ hq
    exact ⟨i1, ⟨by simp [hK], by simp⟩, rfl⟩
  | step fuel op q tr _ ih =>
    obtain ⟨s1, s2, s3⟩ := step_preserves fuel q tr op ih.1 ih.2.1
    exact ⟨s1, s2, by rw [s3, ih.2.2]⟩

/-! ## Finishing a queue -/

/-- C3: on a finished queue `consumer_producer_put` returns the error
"Queue is finished, cannot accept more items" at its entry check, for every fuel (it never
reaches a wait), whatever `count` is, and leaves the whole queue state unchanged. -/
theorem put_on_finished (q : consumer_producer_t) (h : q.finished = true) (fuel : Nat)
    (s : String) (strdup_ok : Bool) :
    consumer_producer_put fuel q (some s) strdup_ok
      = (.returned (some "Queue is finished, cannot accept more items"), q) := by
  simp [consumer_producer_put, h]

theorem put_on_finished_witness :
    consumer_producer_put 0 (consumer_producer_signal_finished full_queue_1) (some "b") true
      = (.returned (some "Queue is finished, cannot accept more items"),
          consumer_producer_signal_finished full_queue_1) :=
  put_on_finished (consumer_producer_signal_finished full_queue_1) rfl 0 "b" true

theorem get_many_finished (fuel : Nat) (rs : List String) (m : Nat) :
    ∀ q : consumer_producer_t, RingOk q → q.finished = true →
      ring_contents q = rs.map some →
      (get_many (fuel + 1) (rs.length + m) q).1
        = rs.map (fun r => Ret.returned (some r)) ++ List.replicate m (Ret.returned none) := by
  induction rs with
  | nil =>
    intro q h1 h2 h3
    have hc : ¬ (q.count > 0) := by
      have hl := congrArg List.length h3
      simp [ring_contents] at hl
      omega
    have hget : consumer_producer_get (fuel + 1) q = (.returned none, q) := by
      simp [consumer_producer_get, get_wait, hc, h2]
    simp only [List.length_nil, Nat.zero_add, List.map_nil, List.nil_append]
    clear h3
    induction m with
    | zero => rfl
    | succ k ih => simp only [get_many, hget, ih, List.replicate_succ]
  | cons r rest ih =>
    intro q h1 h2 h3
    have hc : 0 < q.count := by
      have hl := congrArg List.length h3
      simp [ring_contents] at hl
      omega
    obtain ⟨e1, e2, e3, e4, e5, e6, e7⟩ := get_ok_fields fuel q hc
    obtain ⟨r1, r2⟩ := ring_pop q _ h1 hc e2 e3 e4 e5 e6
    rw [h3] at r2
    simp only [List.map_cons, List.cons.injEq] at r2
    have e : (r :: rest).length + m = (rest.length + m) + 1 := by simp; omega
    rw [e]
    simp only [get_many, List.map_cons, List.cons_append]
    rw [ih _ r1 (by rw [e7, h2]) r2.2.symm, e1, ← r2.1]

/-- C4: `consumer_producer_signal_finished` drops nothing: if the ring holds the records
`rs` when it is called, the next `rs.length` gets return exactly `rs` in order, and each
of the `m` gets after them returns `NULL` (it returns, it does not block). -/
theorem signal_finished_keeps_records (q : consumer_producer_t) (hq : RingOk q)
    (rs : List String) (hrs : ring_contents q = rs.map some) (fuel : Nat)
    (hfuel : 0 < fuel) (m : Nat) :
    (get_many fuel (rs.length + m) (consumer_producer_signal_finished q)).1
      = rs.map (fun r => Ret.returned (some r)) ++ List.replicate m (Ret.returned none) := by
  obtain ⟨n, rfl⟩ : ∃ n, fuel = n + 1 := ⟨fuel - 1, by omega⟩
  exact get_many_finished n rs m _ ⟨hq.1, hq.2, hq.3, hq.4, hq.5, hq.6, hq.7⟩ rfl hrs

theorem full_queue_1_ringOk : RingOk full_queue_1 :=
  ⟨by decide, by decide, by decide, by decide, by decide, by decide, by decide⟩

theorem signal_finished_keeps_records_witness :
    (get_many 1 (["a"].length + 2) (consumer_producer_signal_finished full_queue_1)).1
      = ["a"].map (fun r => Ret.returned (some r)) ++ List.replicate 2 (Ret.returned none) :=
  signal_finished_keeps_records full_queue_1 full_queue_1_ringOk ["a"] (by decide) 1
    (by decide) 2

/-! ## A full queue -/

theorem fresh_queue_1_init : consumer_producer_init InitEnv.allOk 1 = .ok fresh_queue_1 :=
  rfl

theorem full_queue_1_put :
    consumer_producer_put 1 fresh_queue_1 (some "a") true = (.returned none, full_queue_1) := by
  decide

theorem full_queue_1_reachable : Reachable 1 full_queue_1 := by
  have h := Reachable.step 1 (.put "a" true) fresh_queue_1 QueueTrace.empty
    (Reachable.init InitEnv.allOk fresh_queue_1 fresh_queue_1_init)
  have e : (queue_step 1 (fresh_queue_1, QueueTrace.empty) (.put "a" true)).1 = full_queue_1 := by
    decide
  rwa [e] at h

theorem put_full_blocks (fuel : Nat) (q : consumer_producer_t) (s : String) (ok : Bool)
    (hf : q.finished = false) (hc : ¬ q.count < q.capacity)
    (hl : q.not_full_monitor.signaled = false) :
    consumer_producer_put (fuel + 1) q (some s) ok = (.blocked, q) := by
  simp [consumer_producer_put, put_wait, hf, hc, monitor_wait, hl]

/-- C5: in every state reachable from `consumer_producer_init` (any capacity, `K = 1`
included) in which the queue is not finished, `consumer_producer_put` returns if and only
if `count < capacity`; when `count = capacity` the not-full latch is cleared, the call
parks on it and the queue state is unchanged, and after one `consumer_producer_get` the
same put returns success. -/
theorem put_blocks_iff_full (K : Int) (q : consumer_producer_t) (hq : Reachable K q)
    (hf : q.finished = false) (fuel : Nat) (hfuel : 0 < fuel) (s : String) :
    ((∃ e, (consumer_producer_put fuel q (some s) true).1 = .returned e)
        ↔ q.count < q.capacity) ∧
    (q.count < q.capacity →
      (consumer_producer_put fuel q (some s) true).1 = .returned none) ∧
    (q.count = q.capacity →
      q.not_full_monitor.signaled = false ∧
      consumer_producer_put fuel q (some s) true = (.blocked, q) ∧
      (consumer_producer_put fuel (consumer_producer_get fuel q).2 (some s) true).1
        = .returned none) := by
  obtain ⟨n, rfl⟩ : ∃ n, fuel = n + 1 := ⟨fuel - 1, by omega⟩
  obtain ⟨h1, h2, h3⟩ := reachable_inv K q hq
  have hfull : ¬ q.count < q.capacity → q.not_full_monitor.signaled = false := by
    intro hc
    cases hs : q.not_full_monitor.signaled with
    | false => rfl
    | true => exact absurd (h2.not_full.mp hs) hc
  refine ⟨⟨?_, ?_⟩, ?_, ?_⟩
  · rintro ⟨e, he⟩
    by_contra hc
    rw [put_full_blocks n q s true hf hc (hfull hc)] at he
    exact absurd he (by simp)
  · intro hc
    exact ⟨none, (put_ok_fields n q s hf hc).1⟩
  · intro hc
    exact (put_ok_fields n q s hf hc).1
  · intro hc
    have hnc : ¬ q.count < q.capacity := by omega
    refine ⟨hfull hnc, put_full_blocks n q s true hf hnc (hfull hnc), ?_⟩
    have hpos : 0 < q.count := by have := h1.cap_pos; omega
    obtain ⟨e1, e2, e3, e4, e5, e6, e7⟩ := get_ok_fields n q hpos
    exact (put_ok_fields n _ s (by rw [e7, hf]) (by rw [e3, e4]; omega)).1

theorem put_blocks_iff_full_witness :
    ((∃ e, (consumer_producer_put 1 full_queue_1 (some "b") true).1 = .returned e)
        ↔ full_queue_1.count < full_queue_1.capacity) ∧
    (full_queue_1.count < full_queue_1.capacity →
      (consumer_producer_put 1 full_queue_1 (some "b") true).1 = .returned none) ∧
    (full_queue_1.count = full_queue_1.capacity →
      full_queue_1.not_full_monitor.signaled = false ∧
      consumer_producer_put 1 full_queue_1 (some "b") true = (.blocked, full_queue_1) ∧
      (consumer_producer_put 1 (consumer_producer_get 1 full_queue_1).2 (some "b") true).1
        = .returned none) :=
  put_blocks_iff_full 1 full_queue_1 full_queue_1_reachable rfl 1 (by decide) "b"

theorem signal_finished_not_full_untouched (q : consumer_producer_t) :
    (consumer_producer_signal_finished q).not_full_monitor = q.not_full_monitor ∧
    (consumer_producer_signal_finished q).count = q.count := ⟨rfl, rfl⟩

/-- C6 (the code at a full queue): on the capacity-1 queue holding one record a `put`
parks on the not-full latch; after `consumer_producer_signal_finished` the finished flag
is set and the not-empty and finished latches are signaled, but the not-full latch is
still cleared, so a `monitor_wait` on it (the parked enqueuer) still does not return. -/
theorem signal_finished_not_full_unsignaled :
    consumer_producer_put 1 full_queue_1 (some "b") true = (.blocked, full_queue_1) ∧
    (consumer_producer_signal_finished full_queue_1).finished = true ∧
    (consumer_producer_signal_finished full_queue_1).not_empty_monitor.signaled = true ∧
    (consumer_producer_signal_finished full_queue_1).finished_monitor.signaled = true ∧
    (consumer_producer_signal_finished full_queue_1).not_full_monitor.signaled = false ∧
    monitor_wait (consumer_producer_signal_finished full_queue_1).not_full_monitor = none := by
  decide

theorem queue_step_finished (fuel : Nat) (q : consumer_producer_t) (tr : QueueTrace)
    (op : QueueOp) (h : q.finished = true) :
    (queue_step fuel (q, tr) op).1.finished = true := by
  rw [queue_step_state]
  cases op with
  | put s ok => simp [consumer_producer_put, h]
  | get =>
    simp only
    rcases get_cases fuel q with hg | ⟨n, rfl, hc⟩
    · rw [hg, h]
    · rw [(get_ok_fields n q hc).2.2.2.2.2.2, h]
  | signal_finished => rfl
  | wait_finished => exact h

theorem queue_run_finished (fuel : Nat) (ops : List QueueOp) :
    ∀ st : consumer_producer_t × QueueTrace, st.1.finished = true →
      (queue_run fuel ops st).1.finished = true := by
  induction ops with
  | nil => intro st h; exact h
  | cons op ops ih =>
    intro st h
    exact ih _ (queue_step_finished fuel st.1 st.2 op h)

/-- C7: once `finished` is true, no sequence of `put`, `get`, `signal_finished` and
`wait_finished` calls makes it false again (from any queue state, so in particular from
any initialised queue), and a second `consumer_producer_signal_finished` leaves the state
of the first one. -/
theorem finished_monotonic (q : consumer_producer_t) (tr : QueueTrace) (fuel : Nat)
    (ops : List QueueOp) :
    (q.finished = true → (queue_run fuel ops (q, tr)).1.finished = true) ∧
    consumer_producer_signal_finished (consumer_producer_signal_finished q)
      = consumer_producer_signal_finished q :=
  ⟨fun h => queue_run_finished fuel ops (q, tr) h, rfl⟩

theorem finished_monotonic_witness :
    (queue_run 1 [.get, .put "b" true, .wait_finished, .get, .signal_finished]
      (consumer_producer_signal_finished full_queue_1, QueueTrace.empty)).1.finished = true :=
  (finished_monotonic (consumer_producer_signal_finished full_queue_1) QueueTrace.empty 1
    [.get, .put "b" true, .wait_finished, .get, .signal_finished]).1 rfl

/-! ## The latch -/

theorem monitor_run_signaled (ops : List MonitorOp) :
    ∀ m : monitor_t, (∀ op ∈ ops, op ≠ MonitorOp.reset) → m.signaled = true →
      (monitor_run ops m).signaled = true := by
  induction ops with
  | nil => intro m _ h; exact h
  | cons op ops ih =>
    intro m hops h
    have h1 : ∀ o ∈ ops, o ≠ MonitorOp.reset := fun o ho => hops o (List.mem_cons_of_mem _ ho)
    have h2 : op ≠ MonitorOp.reset := hops op (List.mem_cons_self _ _)
    apply ih _ h1
    cases op with
    | signal => rfl
    | reset => exact absurd rfl h2
    | wait => simp [monitor_step, monitor_wait, h]

theorem cycles_all_return (n : Nat) :
    ∀ m : monitor_t, (signal_wait_reset_cycles n m).1 = List.replicate n (some 0) := by
  induction n with
  | zero => intro m; rfl
  | succ k ih =>
    intro m
    simp [signal_wait_reset_cycles, monitor_wait, monitor_signal, ih, List.replicate_succ]

/-- C8: after a `monitor_signal` followed by any calls other than `monitor_reset`, a
`monitor_wait` returns 0 at once and leaves the latch signaled; and in `n` rounds of
signal; wait; reset every wait returns 0. -/
theorem latch_sticky (m : monitor_t) (ops : List MonitorOp)
    (hops : ∀ op ∈ ops, op ≠ MonitorOp.reset) (n : Nat) :
    monitor_wait (monitor_run ops (monitor_signal m))
      = some (0, monitor_run ops (monitor_signal m)) ∧
    (monitor_run ops (monitor_signal m)).signaled = true ∧
    (signal_wait_reset_cycles n m).1 = List.replicate n (some 0) := by
  have h := monitor_run_signaled ops (monitor_signal m) hops rfl
  exact ⟨by simp [monitor_wait, h], h, cycles_all_return n m⟩

theorem latch_sticky_witness :
    monitor_wait (monitor_run [.wait, .signal, .wait] (monitor_signal monitor_init.2))
      = some (0, monitor_run [.wait, .signal, .wait] (monitor_signal monitor_init.2)) ∧
    (monitor_run [.wait, .signal, .wait] (monitor_signal monitor_init.2)).signaled = true ∧
    (signal_wait_reset_cycles 3 monitor_init.2).1 = List.replicate 3 (some 0) :=
  latch_sticky monitor_init.2 [.wait, .signal, .wait] (by decide) 3

/-! ## The stage worker -/

theorem map_some_split (l1 D : List String) (x : Option String) (l2 : List (Option String))
    (h : l1.map some ++ x :: l2 = D.map some) :
    ∃ v rest, x = some v ∧ l2 = rest.map some ∧ D = l1 ++ v :: rest := by
  obtain ⟨a, b, hD, ha, hb⟩ := List.append_eq_map_iff.mp h
  obtain ⟨v, rest, hb2, hv, hrest⟩ := List.map_eq_cons_iff.mp hb
  have ha2 : a = l1 := (List.map_injective_iff.mpr (Option.some_injective _)) ha
  exact ⟨v, rest, hv.symm, hrest.symm, by rw [hD, ha2, hb2]⟩

theorem takeWhile_until_sentinel (l1 rest : List String) (h : "<END>" ∉ l1) :
    (l1 ++ "<END>" :: rest).takeWhile (fun r => decide (r ≠ "<END>")) = l1 := by
  rw [List.takeWhile_append_of_pos]
  · simp
  · intro a ha
    have : a ≠ "<END>" := fun e => h (e ▸ ha)
    simpa using this

theorem get_empty_stays (fuel : Nat) (q : consumer_producer_t) (hc : ¬ 0 < q.count)
    (hf : q.finished = false) :
    (consumer_producer_get fuel q = (.blocked, q)) ∨
      (consumer_producer_get fuel q = (.spinning, q)) := by
  have hw : get_wait fuel q = .parked ∨ get_wait fuel q = .out_of_fuel := by
    induction fuel with
    | zero => right; rfl
    | succ n ih =>
      unfold get_wait monitor_wait
      have hc2 : ¬ q.count > 0 := hc
      simp only [hc2, hf, if_false]
      by_cases hs : q.not_empty_monitor.signaled = true
      · simpa [hs] using ih
      · left; simp [hs]
  rcases hw with hw | hw
  · left; simp [consumer_producer_get, hw]
  · right; simp [consumer_producer_get, hw]

theorem put_result_cases (fuel : Nat) (q : consumer_producer_t) (item : Option String)
    (ok : Bool) :
    ((consumer_producer_put fuel q item ok).1 ≠ .returned none ∧
      (consumer_producer_put fuel q item ok).2 = q) ∨
    (∃ s n, item = some s ∧ fuel = n + 1 ∧ ok = true ∧ q.finished = false ∧
      q.count < q.capacity) := by
  cases item with
  | none => left; simp [consumer_producer_put]
  | some s =>
    by_cases hf : q.finished = true
    · left; simp [consumer_producer_put, hf]
    · cases hw : put_wait fuel q with
      | space =>
        obtain ⟨h1, h2, h3⟩ := put_wait_space_inv fuel q hw
        cases ok with
        | false => left; simp [consumer_producer_put, hf, hw]
        | true => right; exact ⟨s, fuel - 1, rfl, by omega, rfl, h1, h2⟩
      | _ => left; simp [consumer_producer_put, hf, hw]

theorem signal_finished_ringOk (q : consumer_producer_t) (h : RingOk q) :
    RingOk (consumer_producer_signal_finished q) :=
  ⟨h.1, h.2, h.3, h.4, h.5, h.6, h.7⟩

theorem thread_inv (f : String → Option String) (next : Option String) (D : List String)
    (n : Nat) :
    ∀ (ctx : plugin_context_t) (evs : List Event), LiveInv f next ctx D evs →
      (((plugin_consumer_thread n ctx).1 = .exited ∧
          ExitedInv f next (plugin_consumer_thread n ctx).2.1 D
            (evs ++ (plugin_consumer_thread n ctx).2.2)) ∨
        (((plugin_consumer_thread n ctx).1 = .running ∨
            (plugin_consumer_thread n ctx).1 = .parked) ∧
          LiveInv f next (plugin_consumer_thread n ctx).2.1 D
            (evs ++ (plugin_consumer_thread n ctx).2.2))) ∧
      ("<END>" ∈ D → (∀ q, ctx.queue = some q → q.count.toNat ≤ n) →
        (plugin_consumer_thread n ctx).1 = .exited) := by
  induction n with
  | zero =>
    intro ctx evs h
    refine ⟨Or.inr ⟨Or.inl rfl, by simpa [plugin_consumer_thread] using h⟩, ?_⟩
    intro hD hn
    obtain ⟨q, consumed, ⟨hq, hring, -, -, -⟩, -, heq, hno, -⟩ := h
    have h0 := hn q hq
    have hrc : ring_contents q = [] := by
      unfold ring_contents
      rw [Nat.le_zero.mp h0]; rfl
    rw [hrc, List.append_nil] at heq
    have := (List.map_injective_iff.mpr (Option.some_injective _)) heq
    exact absurd (this ▸ hD) hno
  | succ n ih =>
    intro ctx evs h
    obtain ⟨q, consumed, ⟨hq, hring, hpf, hnext, hinit⟩, hfin, heq, hno, hev⟩ := h
    by_cases hc : 0 < q.count
    · obtain ⟨e1, e2, e3, e4, e5, e6, e7⟩ := get_ok_fields n q hc
      obtain ⟨r1, r2⟩ := ring_pop q _ hring hc e2 e3 e4 e5 e6
      rw [r2] at heq
      obtain ⟨item, rest, hitem, hrest, hD⟩ := map_some_split consumed D _ _ heq
      rw [hitem] at e1
      by_cases hend : item = "<END>"
      · have hbody : consumer_thread_body (n + 1) ctx
            = (.leave, { ctx with queue := some (consumer_producer_get (n + 1) q).2 },
                forward_call next (some item)) := by
          simp only [consumer_thread_body, hq, e1, hend, if_true, hnext]
        have hthr : plugin_consumer_thread (n + 1) ctx
            = (.exited,
                { ctx with
                  queue := some (consumer_producer_signal_finished
                    (consumer_producer_get (n + 1) q).2)
                  finished := true },
                forward_call next (some item)) := by
          simp only [plugin_consumer_thread, hbody, Option.map]
        rw [hthr]
        refine ⟨Or.inl ⟨rfl, ?_⟩, fun _ _ => rfl⟩
        refine ⟨_, ⟨rfl, signal_finished_ringOk _ r1, hpf, hnext, hinit⟩, rfl, ?_, ?_⟩
        · rw [hD, hend]; simp
        · rw [hev, hD, hend, expected_events, takeWhile_until_sentinel consumed rest hno]
      · have hbody : consumer_thread_body (n + 1) ctx
            = (.next, { ctx with queue := some (consumer_producer_get (n + 1) q).2 },
                record_events f next item) := by
          simp only [consumer_thread_body, hq, e1, hend, if_false, hnext, hpf, record_events]
        have hlive : LiveInv f next
            { ctx with queue := some (consumer_producer_get (n + 1) q).2 } D
            (evs ++ record_events f next item) := by
          refine ⟨_, consumed ++ [item], ⟨rfl, r1, hpf, hnext, hinit⟩, by rw [e7, hfin], ?_, ?_,
            ?_⟩
          · rw [← heq, hitem]; simp
          · simp only [List.mem_append, List.mem_singleton, not_or]
            exact ⟨hno, fun e => hend e.symm⟩
          · rw [hev]; simp
        obtain ⟨h1, h2⟩ := ih _ _ hlive
        have hthr : plugin_consumer_thread (n + 1) ctx
            = ((plugin_consumer_thread n
                  { ctx with queue := some (consumer_producer_get (n + 1) q).2 }).1,
                (plugin_consumer_thread n
                  { ctx with queue := some (consumer_producer_get (n + 1) q).2 }).2.1,
                record_events f next item ++ (plugin_consumer_thread n
                  { ctx with queue := some (consumer_producer_get (n + 1) q).2 }).2.2) := by
          simp only [plugin_consumer_thread, hbody]
        rw [hthr]
        refine ⟨?_, ?_⟩
        · simpa only [List.append_assoc] using h1
        · intro hDm hcount
          apply h2 hDm
          intro q2 hq2
          have hq3 : q2 = (consumer_producer_get (n + 1) q).2 := by
            simpa using hq2.symm
          have := hcount q hq
          rw [hq3, e4]
          omega
    · have hget := get_empty_stays (n + 1) q hc hfin
      have hctx : { ctx with queue := some q } = ctx := by
        cases ctx; simp_all
      have hlive : LiveInv f next ctx D (evs ++ []) := by
        rw [List.append_nil]
        exact ⟨q, consumed, ⟨hq, hring, hpf, hnext, hinit⟩, hfin, heq, hno, hev⟩
      have hstuck : "<END>" ∈ D → (∀ q, ctx.queue = some q → q.count.toNat ≤ n + 1) → False := by
        intro hD _
        have hrc : ring_contents q = [] := by
          unfold ring_contents
          have : q.count.toNat = 0 := by omega
          rw [this]; rfl
        rw [hrc, List.append_nil] at heq
        have := (List.map_injective_iff.mpr (Option.some_injective _)) heq
        exact absurd (this ▸ hD) hno
      rcases hget with hg | hg
      · have hbody : consumer_thread_body (n + 1) ctx = (.parked, ctx, []) := by
          simp only [consumer_thread_body, hq, hg, hctx]
        have hthr : plugin_consumer_thread (n + 1) ctx = (.parked, ctx, []) := by
          simp only [plugin_consumer_thread, hbody]
        rw [hthr]
        exact ⟨Or.inr ⟨Or.inr rfl, hlive⟩, fun a b => (hstuck a b).elim⟩
      · have hbody : consumer_thread_body (n + 1) ctx = (.spinning, ctx, []) := by
          simp only [consumer_thread_body, hq, hg, hctx]
        have hthr : plugin_consumer_thread (n + 1) ctx = (.running, ctx, []) := by
          simp only [plugin_consumer_thread, hbody]
        rw [hthr]
        exact ⟨Or.inr ⟨Or.inl rfl, hlive⟩, fun a b => (hstuck a b).elim⟩

theorem ctx_queue_eta (ctx : plugin_context_t) (q : consumer_producer_t)
    (h : ctx.queue = some q) : { ctx with queue := some q } = ctx := by
  cases ctx; simp_all

theorem place_work_ok_eq (f : String → Option String) (next : Option String)
    (ctx : plugin_context_t) (q : consumer_producer_t) (h : StageCtxOk f next ctx q)
    (fuel : Nat) (s : String) (ok : Bool) :
    plugin_place_work fuel ctx (some s) ok
      = ((consumer_producer_put fuel q (some s) ok).1,
          { ctx with queue := some (consumer_producer_put fuel q (some s) ok).2 }) := by
  obtain ⟨hq, -, -, -, hinit⟩ := h
  simp [plugin_place_work, hinit, hq]

theorem place_work_null (ctx : plugin_context_t) (fuel : Nat) (ok : Bool) :
    plugin_place_work fuel ctx none ok
      = (.returned (some "Plugin not initialized or invalid string"), ctx) := by
  simp [plugin_place_work]

theorem stage_step_inv (f : String → Option String) (next : Option String) (fuel : Nat)
    (r : StageRun) (a : StageAction) (h : StageInv f next r) :
    StageInv f next (stage_step fuel r a) := by
  cases a with
  | place_work str ok =>
    cases str with
    | none =>
      simp only [stage_step, place_work_null]
      exact h
    | some s =>
      have key : ∀ q, StageCtxOk f next r.stage.ctx q →
          (consumer_producer_put fuel q (some s) ok).1 ≠ .returned none →
          (consumer_producer_put fuel q (some s) ok).2 = q →
          stage_step fuel r (.place_work (some s) ok) = r := by
        intro q hctx h1 h2
        simp only [stage_step, place_work_ok_eq f next _ q hctx, h2,
          ctx_queue_eta _ q hctx.1]
        split
        · next heq _ => exact absurd heq h1
        · rfl
      rcases h with ⟨hw, q, hctx, hfin, hD, hev⟩ | ⟨hw, q, consumed, hctx, hfin, heq, hno, hev⟩
      · rcases put_result_cases fuel q (some s) ok with ⟨h1, h2⟩ | ⟨_, _, _, _, _, hf, _⟩
        · rw [key q hctx h1 h2]
          exact Or.inl ⟨hw, q, hctx, hfin, hD, hev⟩
        · rw [hfin] at hf; exact absurd hf (by simp)
      · rcases put_result_cases fuel q (some s) ok with ⟨h1, h2⟩ | ⟨s2, n, hs, rfl, rfl, hf, hc⟩
        · rw [key q hctx h1 h2]
          exact Or.inr ⟨hw, q, consumed, hctx, hfin, heq, hno, hev⟩
        · obtain ⟨e1, e2, e3, e4, e5, e6, e7⟩ := put_ok_fields n q s hf hc
          obtain ⟨r1, r2⟩ := ring_push q _ s hctx.2.1 hc e2 e3 e4 e5 e6
          simp only [stage_step, place_work_ok_eq f next _ q hctx, e1]
          refine Or.inr ⟨hw, _, consumed, ⟨rfl, r1, hctx.2.2.1, hctx.2.2.2.1, hctx.2.2.2.2⟩,
            e7, ?_, hno, hev⟩
          rw [r2, ← List.append_assoc, heq]
          simp
  | work n =>
    rcases h with ⟨hw, hex⟩ | ⟨hw, hlive⟩
    · have e : stage_step fuel r (.work n) = r := by
        simp only [stage_step, Stage.work, hw]
      rw [e]; exact Or.inl ⟨hw, hex⟩
    · have e : (stage_step fuel r (.work n)) =
          { stage :=
              { ctx := (plugin_consumer_thread n r.stage.ctx).2.1
                worker := some (plugin_consumer_thread n r.stage.ctx).1
                events := r.stage.events ++ (plugin_consumer_thread n r.stage.ctx).2.2 }
            delivered := r.delivered } := by
        rcases hw with hw | hw <;> simp only [stage_step, Stage.work, hw]
      rw [e]
      rcases (thread_inv f next r.delivered n r.stage.ctx r.stage.events hlive).1 with
        ⟨h1, h2⟩ | ⟨h1, h2⟩
      · exact Or.inl ⟨by simp only [h1], h2⟩
      · refine Or.inr ⟨?_, h2⟩
        rcases h1 with h1 | h1
        · left; simp only [h1]
        · right; simp only [h1]

theorem stage_run_inv (f : String → Option String) (next : Option String) (fuel : Nat)
    (sched : List StageAction) :
    ∀ r : StageRun, StageInv f next r → StageInv f next (stage_run fuel sched r) := by
  induction sched with
  | nil => intro r h; exact h
  | cons a sched ih => intro r h; exact ih _ (stage_step_inv f next fuel r a h)

theorem stage_start_inv (env : PluginEnv) (f : String → Option String) (name : String)
    (K : Int) (next : Option String) (r0 : StageRun)
    (h : stage_start env f name K next = (none, r0)) : StageInv f next r0 := by
  unfold stage_start at h
  have h1 := congrArg Prod.fst h
  have h2 := congrArg Prod.snd h
  simp only at h1 h2
  unfold common_plugin_init at h1 h2
  simp only [Option.isNone_some, Bool.false_or, plugin_context_zero,
    Bool.false_eq_true, if_false] at h1 h2
  by_cases hK : K ≤ 0
  · simp [hK] at h1
  · simp only [hK, decide_False, if_false] at h1 h2
    by_cases hm : env.queue_malloc_ok = true
    · simp only [hm, Bool.not_true, Bool.false_eq_true, if_false] at h1 h2
      cases hinit : consumer_producer_init env.queue_env K with
      | error e => simp [hinit] at h1
      | ok q =>
        simp only [hinit] at h1 h2
        by_cases hp : env.pthread_create_ok = true
        · simp only [hp, Bool.not_true, Bool.false_eq_true, if_false, plugin_attach,
            if_true, Option.isNone_none] at h1 h2
          obtain ⟨i1, i2, i3, -, -⟩ := init_ringOk _ K q hinit
          rw [← h2]
          refine Or.inr ⟨Or.inl rfl, q, [], ⟨rfl, i1, rfl, rfl, rfl⟩, i2, ?_, by simp, rfl⟩
          simp [i3]
        · simp [hp] at h1
    · simp [hm] at h1

theorem map_some_prefix (l1 D : List String) (l2 : List (Option String))
    (h : l1.map some ++ l2 = D.map some) : ∃ rest, D = l1 ++ rest ∧ l2 = rest.map some := by
  obtain ⟨a, b, hD, ha, hb⟩ := List.append_eq_map_iff.mp h
  have ha2 : a = l1 := (List.map_injective_iff.mpr (Option.some_injective _)) ha
  exact ⟨b, by rw [hD, ha2], hb.symm⟩

theorem live_events_prefix (f : String → Option String) (next : Option String)
    (ctx : plugin_context_t) (D : List String) (evs : List Event)
    (h : LiveInv f next ctx D evs) : evs <+: expected_events f next D := by
  obtain ⟨q, consumed, -, -, heq, hno, hev⟩ := h
  obtain ⟨rest, hD, -⟩ := map_some_prefix consumed D _ heq
  have hp : ∀ a ∈ consumed, (fun r => decide (r ≠ "<END>")) a = true := by
    intro a ha
    have : a ≠ "<END>" := fun e => hno (e ▸ ha)
    simpa using this
  rw [hev, hD, expected_events, List.takeWhile_append_of_pos hp, List.flatMap_append,
    List.append_assoc]
  exact List.prefix_append _ _

theorem live_count_le (f : String → Option String) (next : Option String)
    (ctx : plugin_context_t) (D : List String) (evs : List Event)
    (h : LiveInv f next ctx D evs) : ∀ q, ctx.queue = some q → q.count.toNat ≤ D.length := by
  obtain ⟨q, consumed, hctx, -, heq, -, -⟩ := h
  intro q2 hq2
  have : q2 = q := by
    have := hctx.1
    rw [hq2] at this
    exact Option.some.inj this
  subst this
  have hl := congrArg List.length heq
  simp only [List.length_append, List.length_map, ring_contents, List.length_range] at hl
  omega

theorem exited_stays (fuel : Nat) (sched : List StageAction) :
    ∀ r : StageRun, r.stage.worker = some .exited →
      (stage_run fuel sched r).stage.events = r.stage.events := by
  induction sched with
  | nil => intro r _; rfl
  | cons a sched ih =>
    intro r h
    have hs : (stage_step fuel r a).stage.worker = some .exited ∧
        (stage_step fuel r a).stage.events = r.stage.events := by
      cases a with
      | place_work str ok => exact ⟨h, rfl⟩
      | work n => simp only [stage_step, Stage.work, h, and_self]
    have := ih _ hs.1
    rw [hs.2] at this
    exact this

theorem stage_events_expected (env : PluginEnv) (f : String → Option String)
    (name : String) (K : Int) (next : Option String) (r0 : StageRun)
    (hstart : stage_start env f name K next = (none, r0)) (fuel : Nat)
    (sched : List StageAction) :
    (stage_run fuel sched r0).stage.events
      <+: expected_events f next (stage_run fuel sched r0).delivered ∧
    ("<END>" ∈ (stage_run fuel sched r0).delivered →
      ∀ n, (stage_run fuel sched r0).delivered.length ≤ n →
        (stage_step fuel (stage_run fuel sched r0) (.work n)).stage.worker = some .exited ∧
        (stage_step fuel (stage_run fuel sched r0) (.work n)).stage.events
          = expected_events f next (stage_run fuel sched r0).delivered) ∧
    ((stage_run fuel sched r0).stage.worker = some .exited →
      "<END>" ∈ (stage_run fuel sched r0).delivered ∧
      ∀ sched2, (stage_run fuel sched2 (stage_run fuel sched r0)).stage.events
        = expected_events f next (stage_run fuel sched r0).delivered) := by
  have hinv := stage_run_inv f next fuel sched r0 (stage_start_inv env f name K next r0 hstart)
  generalize stage_run fuel sched r0 = r at hinv ⊢
  refine ⟨?_, ?_, ?_⟩
  · rcases hinv with ⟨-, q, -, -, -, hev⟩ | ⟨-, hlive⟩
    · rw [hev]
    · exact live_events_prefix f next _ _ _ hlive
  · intro hD n hn
    rcases hinv with ⟨hw, q, -, -, -, hev⟩ | ⟨hw, hlive⟩
    · have e : stage_step fuel r (.work n) = r := by
        simp only [stage_step, Stage.work, hw]
      rw [e]; exact ⟨hw, hev⟩
    · have e : (stage_step fuel r (.work n)) =
          { stage :=
              { ctx := (plugin_consumer_thread n r.stage.ctx).2.1
                worker := some (plugin_consumer_thread n r.stage.ctx).1
                events := r.stage.events ++ (plugin_consumer_thread n r.stage.ctx).2.2 }
            delivered := r.delivered } := by
        rcases hw with hw | hw <;> simp only [stage_step, Stage.work, hw]
      rw [e]
      obtain ⟨h1, h2⟩ := thread_inv f next r.delivered n r.stage.ctx r.stage.events hlive
      have hex := h2 hD (fun q hq =>
        le_trans (live_count_le f next _ _ _ hlive q hq) hn)
      rcases h1 with ⟨-, q, -, -, -, hev⟩ | ⟨h3, -⟩
      · exact ⟨by simp only [hex], hev⟩
      · rw [hex] at h3
        rcases h3 with h3 | h3 <;> exact absurd h3 (by decide)
  · intro hw
    rcases hinv with ⟨-, q, -, -, hD, hev⟩ | ⟨h3, -⟩
    · refine ⟨hD, fun sched2 => ?_⟩
      rw [exited_stays fuel sched2 r hw, hev]
    · rw [hw] at h3
      rcases h3 with h3 | h3 <;> exact absurd h3 (by decide)

theorem logger_stage_2_start :
    stage_start PluginEnv.allOk logger_plugin_transform "logger" 2 (some "typewriter")
      = (none, logger_stage_2) := rfl

theorem expected_events_owed (f : String → Option String) (next : Option String) :
    ∀ rs : List String, expected_events f next rs = owed_calls f next.isSome rs := by
  intro rs
  induction rs with
  | nil => cases next <;> rfl
  | cons r rs ih =>
    by_cases h : r = "<END>"
    · subst h
      cases next <;> simp [expected_events, owed_calls, forward_call]
    · have e : expected_events f next (r :: rs)
          = record_events f next r ++ expected_events f next rs := by
        simp [expected_events, List.takeWhile_cons, h, List.flatMap_cons]
      rw [e, ih]
      cases next with
      | none => simp [record_events, forward_call, owed_calls, h]
      | some nm => cases hf : f r <;> simp [record_events, forward_call, owed_calls, h, hf]

theorem owed_calls_transformed (f : String → Option String) (b : Bool) :
    ∀ rs : List String, (owed_calls f b rs).filterMap Event.transformed
      = rs.takeWhile (fun r => decide (r ≠ "<END>")) := by
  intro rs
  induction rs with
  | nil => cases b <;> simp [owed_calls, Event.transformed]
  | cons r rs ih =>
    by_cases h : r = "<END>"
    · subst h
      cases b <;> simp [owed_calls, Event.transformed]
    · cases b with
      | false => simp [owed_calls, h, Event.transformed, ih, List.takeWhile_cons]
      | true =>
        cases hf : f r <;>
          simp [owed_calls, h, hf, Event.transformed, ih, List.takeWhile_cons]

theorem owed_calls_forwarded (f : String → Option String) (b : Bool) :
    ∀ rs : List String, (owed_calls f b rs).filterMap Event.forwarded
      = if b then (rs.takeWhile (fun r => decide (r ≠ "<END>"))).filterMap f ++ ["<END>"]
        else [] := by
  intro rs
  induction rs with
  | nil => cases b <;> simp [owed_calls, Event.forwarded]
  | cons r rs ih =>
    by_cases h : r = "<END>"
    · subst h
      cases b <;> simp [owed_calls, Event.forwarded]
    · cases b with
      | false =>
        simp only [Bool.false_eq_true, if_false] at ih
        simp [owed_calls, h, Event.forwarded, ih]
      | true =>
        simp only [if_true] at ih
        cases hf : f r <;>
          simp [owed_calls, h, hf, Event.forwarded, ih, List.takeWhile_cons,
            List.filterMap_cons]

/-- C2: a stage started by `common_plugin_init` with transform `f` and attached to the
forwarder `next` (or to none), under any schedule of `plugin_place_work` calls and worker
runs.  With `delivered` the records accepted so far and `owed_calls` the calls that the
contract asks for (`f` on each record before the first `"<END>"`, in order, each followed
by the forward of its non-absent result, then one forward of `"<END>"`): (1) the calls
made by the worker are always an initial part of the owed ones; (2) once `"<END>"` has
been delivered, a worker run of at least `delivered.length` passes returns, having made
exactly the owed calls; (3) after the worker has returned, whatever happens later, its
calls are exactly the owed ones: `f` was called exactly on the records before the first
`"<END>"`, in order, and the strings forwarded are the non-absent results in that order
followed by `"<END>"` once (nothing is forwarded without a forwarder), so nothing after
the first `"<END>"` is transformed or forwarded. -/
theorem worker_stops_at_sentinel (env : PluginEnv) (f : String → Option String)
    (name : String) (K : Int) (next : Option String) (r0 : StageRun)
    (hstart : stage_start env f name K next = (none, r0)) (fuel : Nat)
    (sched : List StageAction) :
    (stage_run fuel sched r0).stage.events
      <+: owed_calls f next.isSome (stage_run fuel sched r0).delivered ∧
    ("<END>" ∈ (stage_run fuel sched r0).delivered →
      ∀ n, (stage_run fuel sched r0).delivered.length ≤ n →
        (stage_step fuel (stage_run fuel sched r0) (.work n)).stage.worker = some .exited ∧
        (stage_step fuel (stage_run fuel sched r0) (.work n)).stage.events
          = owed_calls f next.isSome (stage_run fuel sched r0).delivered) ∧
    ((stage_run fuel sched r0).stage.worker = some .exited →
      "<END>" ∈ (stage_run fuel sched r0).delivered ∧
      ∀ sched2,
        (stage_run fuel sched2 (stage_run fuel sched r0)).stage.events
          = owed_calls f next.isSome (stage_run fuel sched r0).delivered ∧
        (stage_run fuel sched2 (stage_run fuel sched r0)).stage.events.filterMap
            Event.transformed
          = (stage_run fuel sched r0).delivered.takeWhile (fun r => decide (r ≠ "<END>")) ∧
        (stage_run fuel sched2 (stage_run fuel sched r0)).stage.events.filterMap
            Event.forwarded
          = if next.isSome then
              ((stage_run fuel sched r0).delivered.takeWhile
                (fun r => decide (r ≠ "<END>"))).filterMap f ++ ["<END>"]
            else []) := by
  obtain ⟨h1, h2, h3⟩ := stage_events_expected env f name K next r0 hstart fuel sched
  rw [expected_events_owed] at h1 h2 h3
  refine ⟨h1, h2, fun hw => ⟨(h3 hw).1, fun sched2 => ?_⟩⟩
  have e := (h3 hw).2 sched2
  refine ⟨e, ?_, ?_⟩
  · rw [e, owed_calls_transformed]
  · rw [e, owed_calls_forwarded]

theorem worker_stops_at_sentinel_witness :
    (stage_run 1 [.place_work (some "ab") true, .place_work (some "<END>") true, .work 1,
        .place_work (some "x") true, .work 2] logger_stage_2).stage.events
      <+: owed_calls logger_plugin_transform (some "typewriter").isSome
        (stage_run 1 [.place_work (some "ab") true, .place_work (some "<END>") true, .work 1,
          .place_work (some "x") true, .work 2] logger_stage_2).delivered ∧
    ((stage_run 1 [.place_work (some "ab") true, .place_work (some "<END>") true, .work 1,
        .place_work (some "x") true, .work 2] logger_stage_2).stage.worker = some .exited →
      "<END>" ∈ (stage_run 1 [.place_work (some "ab") true, .place_work (some "<END>") true,
        .work 1, .place_work (some "x") true, .work 2] logger_stage_2).delivered ∧
      ∀ sched2,
        (stage_run 1 sched2 (stage_run 1 [.place_work (some "ab") true,
          .place_work (some "<END>") true, .work 1, .place_work (some "x") true, .work 2]
          logger_stage_2)).stage.events
          = owed_calls logger_plugin_transform (some "typewriter").isSome
            (stage_run 1 [.place_work (some "ab") true, .place_work (some "<END>") true,
              .work 1, .place_work (some "x") true, .work 2] logger_stage_2).delivered ∧
        (stage_run 1 sched2 (stage_run 1 [.place_work (some "ab") true,
          .place_work (some "<END>") true, .work 1, .place_work (some "x") true, .work 2]
          logger_stage_2)).stage.events.filterMap Event.transformed
          = (stage_run 1 [.place_work (some "ab") true, .place_work (some "<END>") true,
              .work 1, .place_work (some "x") true, .work 2]
              logger_stage_2).delivered.takeWhile (fun r => decide (r ≠ "<END>")) ∧
        (stage_run 1 sched2 (stage_run 1 [.place_work (some "ab") true,
          .place_work (some "<END>") true, .work 1, .place_work (some "x") true, .work 2]
          logger_stage_2)).stage.events.filterMap Event.forwarded
          = if (some "typewriter").isSome then
              ((stage_run 1 [.place_work (some "ab") true, .place_work (some "<END>") true,
                .work 1, .place_work (some "x") true, .work 2]
                logger_stage_2).delivered.takeWhile
                (fun r => decide (r ≠ "<END>"))).filterMap logger_plugin_transform
                ++ ["<END>"]
            else []) :=
  ⟨(worker_stops_at_sentinel PluginEnv.allOk logger_plugin_transform "logger" 2
      (some "typewriter") logger_stage_2 logger_stage_2_start 1
      [.place_work (some "ab") true, .place_work (some "<END>") true, .work 1,
        .place_work (some "x") true, .work 2]).1,
    (worker_stops_at_sentinel PluginEnv.allOk logger_plugin_transform "logger" 2
      (some "typewriter") logger_stage_2 logger_stage_2_start 1
      [.place_work (some "ab") true, .place_work (some "<END>") true, .work 1,
        .place_work (some "x") true, .work 2]).2.2⟩

theorem logger_stage_2_example :
    (stage_run 1 [.place_work (some "ab") true, .place_work (some "<END>") true, .work 1,
        .place_work (some "x") true, .work 2] logger_stage_2).stage.events
      = [.transform "ab", .forward "ab", .forward "<END>"] ∧
    (stage_run 1 [.place_work (some "ab") true, .place_work (some "<END>") true, .work 1,
        .place_work (some "x") true, .work 2] logger_stage_2).delivered
      = ["ab", "<END>", "x"] ∧
    (stage_run 1 [.place_work (some "ab") true, .place_work (some "<END>") true, .work 1,
        .place_work (some "x") true, .work 2] logger_stage_2).stage.worker
      = some .exited ∧
    owed_calls logger_plugin_transform true ["ab", "<END>", "x"]
      = [.transform "ab", .forward "ab", .forward "<END>"] ∧
    owed_calls logger_plugin_transform false ["ab", "<END>", "x"] = [.transform "ab"] ∧
    owed_calls (fun _ => none) true ["ab", "<END>", "x"]
      = [.transform "ab", .forward "<END>"] := by
  decide

/-! ## The read loop of `main` -/

theorem fed_records_nil : fed_records [] = [] := rfl

theorem fed_records_cons_sentinel (line : String) (rest : List String)
    (h : strip_newline line = "<END>") : fed_records (line :: rest) = ["<END>"] := by
  simp [fed_records, h]

theorem fed_records_cons_other (line : String) (rest : List String)
    (h : strip_newline line ≠ "<END>") :
    fed_records (line :: rest) = strip_newline line :: fed_records rest := by
  have h2 : ¬ ("<END>" = strip_newline line) := fun e => h e.symm
  simp [fed_records, h, h2]

theorem feed_loop_spec {σ : Type} (place_work : String → σ → Option String × σ)
    (num_plugins : Int) (hn : 0 < num_plugins) (lines : List String) :
    ∀ (w : σ) (placed : List String),
      ∃ t, (feed_loop place_work num_plugins lines w placed).2 = placed ++ t ∧
        t <+: fed_records lines ∧
        ((∀ s w2, (place_work s w2).1 = none) → t = fed_records lines) := by
  induction lines with
  | nil =>
    intro w placed
    exact ⟨[], by simp [feed_loop], by simp [fed_records_nil], fun _ => rfl⟩
  | cons line rest ih =>
    intro w placed
    have hn2 : num_plugins > 0 := hn
    cases hpw : place_work (strip_newline line) w with
    | mk e w2 =>
      cases e with
      | some msg =>
        refine ⟨[], by simp [feed_loop, hn2, hpw], List.nil_prefix, ?_⟩
        intro hok
        have := hok (strip_newline line) w
        rw [hpw] at this
        exact absurd this (by simp)
      | none =>
        by_cases hend : strip_newline line = "<END>"
        · refine ⟨["<END>"], ?_, ?_, ?_⟩
          · simp only [feed_loop, hn2, if_true, hpw]
            simp [hend]
          · rw [fed_records_cons_sentinel line rest hend]
          · intro _; rw [fed_records_cons_sentinel line rest hend]
        · obtain ⟨t, h1, h2, h3⟩ := ih w2 (placed ++ [strip_newline line])
          refine ⟨strip_newline line :: t, ?_, ?_, ?_⟩
          · simp only [feed_loop, hn2, if_true, hpw, hend, if_false]
            rw [h1]; simp
          · rw [fed_records_cons_other line rest hend]
            exact (List.prefix_cons_inj _).mpr h2
          · intro hok
            rw [fed_records_cons_other line rest hend, h3 hok]

theorem sentinel_not_before (lines : List String) :
    "<END>" ∉ (lines.map strip_newline).takeWhile (fun r => decide (r ≠ "<END>")) := by
  intro h
  have := List.mem_takeWhile_imp h
  simp at this

theorem prefix_fed_cases (lines : List String) (t : List String)
    (h : t <+: fed_records lines) :
    (t = fed_records lines ∧ "<END>" ∈ lines.map strip_newline ∧
        t = (lines.map strip_newline).takeWhile (fun r => decide (r ≠ "<END>")) ++ ["<END>"])
      ∨ "<END>" ∉ t := by
  obtain ⟨u, hu⟩ := h
  unfold fed_records at hu ⊢
  have hno := sentinel_not_before lines
  rcases List.append_eq_append_iff.mp hu with ⟨a, h1, h2⟩ | ⟨c, h1, h2⟩
  · right
    intro hm
    rw [h1] at hno
    exact hno (List.mem_append_left _ hm)
  · by_cases hmem : "<END>" ∈ lines.map strip_newline
    · rw [if_pos hmem] at h2 ⊢
      cases c with
      | nil =>
        right
        rw [h1, List.append_nil]
        exact hno
      | cons x c2 =>
        left
        have hx : x = "<END>" ∧ c2 ++ u = [] := by
          simp only [List.cons_append, List.cons.injEq] at h2
          exact ⟨h2.1.symm, h2.2.symm⟩
        have hc2 : c2 = [] := (List.append_eq_nil.mp hx.2).1
        rw [h1, hx.1, hc2]
        exact ⟨rfl, hmem, rfl⟩
    · right
      rw [if_neg hmem] at h2
      have hc : c = [] := (List.append_eq_nil.mp h2.symm).1
      rw [h1, hc, List.append_nil]
      exact hno

/-- C9, as the code has it: the read loop places the stripped lines in order and stops
right after the first line equal to `"<END>"` (or at a failing `place_work`); so `"<END>"`
is placed at most once, a placed `"<END>"` is the last record placed, with an
ever-succeeding `place_work` the records placed are exactly the stripped lines up to and
including the first `"<END>"`, and when no line is `"<END>"` none is placed. -/
theorem feed_stops_at_sentinel {σ : Type} (place_work : String → σ → Option String × σ)
    (num_plugins : Int) (hn : 0 < num_plugins) (lines : List String) (w : σ) :
    (feed_loop place_work num_plugins lines w []).2 <+: fed_records lines ∧
    ((∀ s w2, (place_work s w2).1 = none) →
      (feed_loop place_work num_plugins lines w []).2 = fed_records lines) ∧
    (feed_loop place_work num_plugins lines w []).2.count "<END>" ≤ 1 ∧
    ("<END>" ∈ (feed_loop place_work num_plugins lines w []).2 →
      (feed_loop place_work num_plugins lines w []).2.getLast? = some "<END>") ∧
    ("<END>" ∉ lines.map strip_newline →
      "<END>" ∉ (feed_loop place_work num_plugins lines w []).2) := by
  obtain ⟨t, h1, h2, h3⟩ := feed_loop_spec place_work num_plugins hn lines w []
  rw [List.nil_append] at h1
  rw [h1]
  refine ⟨h2, h3, ?_, ?_, ?_⟩
  · rcases prefix_fed_cases lines t h2 with ⟨-, -, ht⟩ | hnot
    · rw [ht, List.count_append, List.count_eq_zero.mpr (sentinel_not_before lines)]
      simp
    · rw [List.count_eq_zero.mpr hnot]; omega
  · intro hm
    rcases prefix_fed_cases lines t h2 with ⟨-, -, ht⟩ | hnot
    · rw [ht]; simp
    · exact absurd hm hnot
  · intro hnone hm
    rcases prefix_fed_cases lines t h2 with ⟨-, hmem, -⟩ | hnot
    · exact hnone hmem
    · exact hnot hm

theorem feed_stops_at_sentinel_witness :
    (feed_loop place_work_accepting 1 ["abc\n", "<END>\n", "x\n", "<END>\n"] () []).2
      = fed_records ["abc\n", "<END>\n", "x\n", "<END>\n"] :=
  (feed_stops_at_sentinel place_work_accepting 1 (by decide)
    ["abc\n", "<END>\n", "x\n", "<END>\n"] ()).2.1 (fun _ _ => rfl)

/-- C9 fails as stated: on the input `abc` that ends without an `"<END>"` line, with a
`place_work` that always succeeds, the records placed are just `abc`; no `"<END>"` is
placed. -/
theorem feed_without_sentinel :
    (feed_loop place_work_accepting 1 ["abc\n"] () []).2 = ["abc"] ∧
    (feed_loop place_work_accepting 1 ["abc\n"] () []).2.count "<END>" = 0 := by
  decide

/-! ## Start-up of `main` -/

theorem fresh_worker_parks (n : Nat) (ctx : plugin_context_t) (q : consumer_producer_t)
    (hq : ctx.queue = some q) (hc : q.count = 0) (hf : q.finished = false)
    (hs : q.not_empty_monitor.signaled = false) :
    plugin_consumer_thread (n + 1) ctx = (.parked, ctx, []) := by
  have hg : consumer_producer_get (n + 1) q = (.blocked, q) := by
    simp [consumer_producer_get, get_wait, hc, hf, monitor_wait, hs]
  have hbody : consumer_thread_body (n + 1) ctx = (.parked, ctx, []) := by
    simp only [consumer_thread_body, hq, hg, ctx_queue_eta ctx q hq]
  simp only [plugin_consumer_thread, hbody]

/-- C10 (the code on `logger logger`): the first `plugin_init` succeeds and starts the
worker, the second one fails with "Plugin already initialized", and `cleanup_plugins`
then calls `plugin_fini`, whose `pthread_join` waits for a worker that is parked in
`consumer_producer_get` on its empty queue: however long the worker is given, `main` does
not reach `return 2`. -/
theorem init_failure_blocks_in_cleanup (n : Nat) :
    (plugin_init env_all_logger "logger" 1
      (plugin_init env_all_logger "logger" 1 world_zero).2).1
        = some "Plugin already initialized" ∧
    (init_all env_all_logger (n + 1) 1 ["logger", "logger"] ["logger", "logger"]
      world_zero).1 = .blocked := by
  refine ⟨by decide, ?_⟩
  have hw : ((plugin_init env_all_logger "logger" 1 world_zero).2 "logger").worker
      = some .running := by decide
  have ht := fresh_worker_parks n
    ((plugin_init env_all_logger "logger" 1 world_zero).2 "logger").ctx fresh_queue_1
    (by decide) rfl rfl rfl
  have hfini : (plugin_fini (n + 1)
      ((plugin_init env_all_logger "logger" 1
        (plugin_init env_all_logger "logger" 1 world_zero).2).2 "logger")).1 = .blocked := by
    have e : ((plugin_init env_all_logger "logger" 1
        (plugin_init env_all_logger "logger" 1 world_zero).2).2 "logger")
        = ((plugin_init env_all_logger "logger" 1 world_zero).2 "logger") := by
      simp [plugin_init, common_plugin_init, world_zero, plugin_context_zero, env_all_logger,
        PluginEnv.allOk, InitEnv.allOk, consumer_producer_init]
    rw [e]
    have hi : ((plugin_init env_all_logger "logger" 1 world_zero).2 "logger").ctx.initialized
        = true := by decide
    simp only [plugin_fini, hi, Stage.work, hw, ht]
    rfl
  have h1 : (plugin_init env_all_logger "logger" 1 world_zero).1 = none := by decide
  have h2 : (plugin_init env_all_logger "logger" 1
      (plugin_init env_all_logger "logger" 1 world_zero).2).1
        = some "Plugin already initialized" := by decide
  generalize hA : plugin_init env_all_logger "logger" 1 world_zero = A at *
  obtain ⟨a1, wA⟩ := A
  simp only at h1 h2 hfini
  subst h1
  generalize hB : plugin_init env_all_logger "logger" 1 wA = B at *
  obtain ⟨b1, wB⟩ := B
  simp only at h2 hfini
  subst h2
  generalize hF : plugin_fini (n + 1) (wB "logger") = F at *
  obtain ⟨f1, sF⟩ := F
  simp only at hfini
  subst hfini
  simp only [init_all, hA, hB, cleanup_plugins, hF]

/-- When the first `plugin_init` already fails (here: `pthread_create` fails), no worker
runs, every `plugin_fini` returns "Plugin not initialized" and `main` returns 2. -/
theorem init_failure_first_stage :
    (init_all { env_all_logger with
        plugin_env := fun _ => { PluginEnv.allOk with pthread_create_ok := false } }
      1 1 ["logger", "rotator"] ["logger", "rotator"] world_zero).1
      = .returned (some 2) := by
  decide

/-! ## Stage init, place_work and wait_finished -/

/-- C11: `common_plugin_init` fails and leaves the whole context (queue, forwarder,
transform, `initialized`, `finished`, name) as it was in both cases: with
`queue_size <= 0` it returns "Invalid parameters entered to plugin_init" (whatever the
context), and on an already-initialised stage it returns an error for every argument
list, which is "Plugin already initialized" whenever the arguments pass the parameter
check that comes first (transform and name not `NULL`, `queue_size > 0`). -/
theorem init_failure_keeps_context (env : PluginEnv) (ctx : plugin_context_t)
    (process_function : Option (String → Option String)) (name : Option String)
    (queue_size : Int) :
    (queue_size ≤ 0 →
      common_plugin_init env ctx process_function name queue_size
        = (some "Invalid parameters entered to plugin_init", ctx)) ∧
    (ctx.initialized = true →
      (common_plugin_init env ctx process_function name queue_size).2 = ctx ∧
      (common_plugin_init env ctx process_function name queue_size).1 ≠ none) ∧
    (ctx.initialized = true → process_function.isSome = true → name.isSome = true →
      0 < queue_size →
      common_plugin_init env ctx process_function name queue_size
        = (some "Plugin already initialized", ctx)) := by
  refine ⟨?_, ?_, ?_⟩
  · intro h
    simp [common_plugin_init, h]
  · intro h
    unfold common_plugin_init
    split_ifs <;> simp_all
  · intro h hp hn hq
    have h1 : process_function.isNone = false := by
      cases process_function <;> simp_all
    have h2 : name.isNone = false := by
      cases name <;> simp_all
    have h3 : ¬ queue_size ≤ 0 := by omega
    simp [common_plugin_init, h, h1, h2, h3]

theorem init_failure_keeps_context_witness :
    (logger_stage_2.stage.ctx.initialized = true →
      (common_plugin_init PluginEnv.allOk logger_stage_2.stage.ctx
        (some logger_plugin_transform) (some "logger") 2).2 = logger_stage_2.stage.ctx ∧
      (common_plugin_init PluginEnv.allOk logger_stage_2.stage.ctx
        (some logger_plugin_transform) (some "logger") 2).1 ≠ none) ∧
    common_plugin_init PluginEnv.allOk logger_stage_2.stage.ctx
        (some logger_plugin_transform) (some "logger") 2
      = (some "Plugin already initialized", logger_stage_2.stage.ctx) ∧
    common_plugin_init PluginEnv.allOk logger_stage_2.stage.ctx
        (some logger_plugin_transform) (some "logger") 0
      = (some "Invalid parameters entered to plugin_init", logger_stage_2.stage.ctx) :=
  ⟨(init_failure_keeps_context PluginEnv.allOk logger_stage_2.stage.ctx
      (some logger_plugin_transform) (some "logger") 2).2.1,
    (init_failure_keeps_context PluginEnv.allOk logger_stage_2.stage.ctx
      (some logger_plugin_transform) (some "logger") 2).2.2 rfl rfl rfl (by decide),
    (init_failure_keeps_context PluginEnv.allOk logger_stage_2.stage.ctx
      (some logger_plugin_transform) (some "logger") 0).1 (by decide)⟩

theorem place_work_uninitialised (fuel : Nat) (ctx : plugin_context_t)
    (str : Option String) (ok : Bool) (h : ctx.initialized = false) :
    plugin_place_work fuel ctx str ok
      = (.returned (some "Plugin not initialized or invalid string"), ctx) := by
  simp [plugin_place_work, h]

theorem fini_clears_initialized (n : Nat) (st : Stage)
    (h : (plugin_fini n st).1 = .returned none) :
    (plugin_fini n st).2.ctx.initialized = false ∧ (plugin_fini n st).2.ctx.queue = none := by
  unfold plugin_fini at h ⊢
  by_cases hi : st.ctx.initialized = true
  · simp only [hi, Bool.not_true, Bool.false_eq_true, if_false] at h ⊢
    split at h <;> simp_all
  · simp [hi] at h

theorem place_work_after_exit (f : String → Option String) (next : Option String)
    (r : StageRun) (hinv : StageInv f next r) (hw : r.stage.worker = some .exited)
    (fuel : Nat) (str : Option String) (ok : Bool) :
    ∃ e, plugin_place_work fuel r.stage.ctx str ok = (.returned (some e), r.stage.ctx) := by
  rcases hinv with ⟨-, q, hctx, hfin, -, -⟩ | ⟨h3, -⟩
  · cases str with
    | none => exact ⟨_, place_work_null _ fuel ok⟩
    | some s =>
      refine ⟨"Queue is finished, cannot accept more items", ?_⟩
      rw [place_work_ok_eq f next _ q hctx]
      have hp : consumer_producer_put fuel q (some s) ok
          = (.returned (some "Queue is finished, cannot accept more items"), q) := by
        simp [consumer_producer_put, hfin]
      rw [hp, ctx_queue_eta _ q hctx.1]
  · rw [hw] at h3
    rcases h3 with h3 | h3 <;> exact absurd h3 (by decide)

/-- C12: `plugin_place_work` on a stage that is not initialised (the zeroed context, or
the context left by a successful `plugin_fini`) returns a non-`NULL` error and changes
nothing; and in every state of a started stage in which the worker has returned, every
`plugin_place_work` returns a non-`NULL` error and leaves the context, hence the queue
contents, unchanged. -/
theorem place_work_only_while_running (env : PluginEnv) (f : String → Option String)
    (name : String) (K : Int) (next : Option String) (r0 : StageRun)
    (hstart : stage_start env f name K next = (none, r0)) (fuel : Nat)
    (sched : List StageAction) (str : Option String) (ok : Bool) :
    (∀ ctx : plugin_context_t, ctx.initialized = false →
      plugin_place_work fuel ctx str ok
        = (.returned (some "Plugin not initialized or invalid string"), ctx)) ∧
    plugin_place_work fuel plugin_context_zero str ok
      = (.returned (some "Plugin not initialized or invalid string"), plugin_context_zero) ∧
    (∀ n st, (plugin_fini n st).1 = .returned none →
      plugin_place_work fuel (plugin_fini n st).2.ctx str ok
        = (.returned (some "Plugin not initialized or invalid string"),
            (plugin_fini n st).2.ctx)) ∧
    ((stage_run fuel sched r0).stage.worker = some .exited →
      ∃ e, plugin_place_work fuel (stage_run fuel sched r0).stage.ctx str ok
        = (.returned (some e), (stage_run fuel sched r0).stage.ctx)) := by
  refine ⟨fun ctx h => place_work_uninitialised fuel ctx str ok h,
    place_work_uninitialised fuel _ str ok rfl,
    fun n st h => place_work_uninitialised fuel _ str ok (fini_clears_initialized n st h).1,
    fun hw => ?_⟩
  exact place_work_after_exit f next _
    (stage_run_inv f next fuel sched r0 (stage_start_inv env f name K next r0 hstart)) hw
    fuel str ok

theorem place_work_only_while_running_witness :
    ∃ e, plugin_place_work 1
        (stage_run 1 [.place_work (some "<END>") true, .work 1] logger_stage_2).stage.ctx
        (some "late") true
      = (.returned (some e),
          (stage_run 1 [.place_work (some "<END>") true, .work 1] logger_stage_2).stage.ctx) :=
  (place_work_only_while_running PluginEnv.allOk logger_plugin_transform "logger" 2
    (some "typewriter") logger_stage_2 logger_stage_2_start 1
    [.place_work (some "<END>") true, .work 1] (some "late") true).2.2.2 (by decide)

/-- C13, as the code has it: when the record at the head of the queue is not the sentinel
and the transform returns `NULL` for it, one pass of the worker loop calls the transform,
forwards nothing and goes on with the loop, whether or not a forwarder is attached. -/
theorem absent_result_dropped (fuel : Nat) (ctx : plugin_context_t)
    (q : consumer_producer_t) (f : String → Option String) (r : String)
    (hq : ctx.queue = some q) (hc : 0 < q.count)
    (hhead : q.items.getD q.head.toNat none = some r) (hr : r ≠ "<END>")
    (hf : ctx.process_function = some f) (hnull : f r = none) :
    consumer_thread_body (fuel + 1) ctx
      = (.next, { ctx with queue := some (consumer_producer_get (fuel + 1) q).2 },
          [.transform r]) ∧
    record_events f ctx.next_place_work r = [.transform r] := by
  have e1 := (get_ok_fields fuel q hc).1
  rw [hhead] at e1
  constructor
  · simp only [consumer_thread_body, hq, e1, hr, if_false, hf, hnull]
    cases ctx.next_place_work <;> rfl
  · simp only [record_events, hnull]
    cases ctx.next_place_work <;> rfl

theorem absent_result_dropped_witness :
    consumer_thread_body 1 dropping_stage.stage.ctx
      = (.next,
          { dropping_stage.stage.ctx with
            queue := some (consumer_producer_get 1 queue_2_holding_ab).2 },
          [.transform "ab"]) ∧
    record_events (fun _ => none) dropping_stage.stage.ctx.next_place_work "ab"
      = [.transform "ab"] :=
  absent_result_dropped 0 dropping_stage.stage.ctx queue_2_holding_ab (fun _ => none) "ab"
    (by decide) (by decide) (by decide) (by decide) rfl rfl

/-- C13 fails as stated for an empty result: the rotator returns the empty string for the
empty record, and the worker of a rotator stage with a forwarder attached forwards that
empty string. -/
theorem empty_result_forwarded :
    rotator_plugin_transform "" = some "" ∧
    (stage_run 1 [.place_work (some "") true, .work 1] rotator_stage_2).stage.events
      = [.transform "", .forward ""] := by
  decide

theorem get_finished_monitor (fuel : Nat) (q : consumer_producer_t) :
    (consumer_producer_get fuel q).2.finished_monitor = q.finished_monitor := by
  rcases get_cases fuel q with h | ⟨n, rfl, hc⟩
  · rw [h]
  · exact (get_ok_latches n q hc).2.2

theorem put_finished_monitor (fuel : Nat) (q : consumer_producer_t)
    (item : Option String) (ok : Bool) :
    (consumer_producer_put fuel q item ok).2.finished_monitor = q.finished_monitor := by
  rcases put_cases fuel q item ok with h | ⟨s, n, rfl, rfl, rfl, hf, hc⟩
  · rw [h]
  · exact (put_ok_latches n q s hf hc).2.2

theorem thread_latch (n : Nat) :
    ∀ (ctx : plugin_context_t) (q : consumer_producer_t), ctx.queue = some q →
      ∃ q2, (plugin_consumer_thread n ctx).2.1.queue = some q2 ∧
        ((plugin_consumer_thread n ctx).1 = .exited →
          q2.finished_monitor.signaled = true) ∧
        ((plugin_consumer_thread n ctx).1 ≠ .exited →
          q2.finished_monitor = q.finished_monitor) := by
  induction n with
  | zero =>
    intro ctx q hq
    exact ⟨q, hq, fun h => absurd h (by simp [plugin_consumer_thread]), fun _ => rfl⟩
  | succ n ih =>
    intro ctx q hq
    have hm := get_finished_monitor (n + 1) q
    cases hg : (consumer_producer_get (n + 1) q).1 with
    | blocked =>
      have hthr : plugin_consumer_thread (n + 1) ctx
          = (.parked, { ctx with queue := some (consumer_producer_get (n + 1) q).2 }, []) := by
        simp only [plugin_consumer_thread, consumer_thread_body, hq, hg]
      rw [hthr]
      exact ⟨_, rfl, fun h => absurd h (by simp), fun _ => hm⟩
    | spinning =>
      have hthr : plugin_consumer_thread (n + 1) ctx
          = (.running, { ctx with queue := some (consumer_producer_get (n + 1) q).2 }, []) := by
        simp only [plugin_consumer_thread, consumer_thread_body, hq, hg]
      rw [hthr]
      exact ⟨_, rfl, fun h => absurd h (by simp), fun _ => hm⟩
    | returned v =>
      cases v with
      | none =>
        have hthr : plugin_consumer_thread (n + 1) ctx
            = (.exited,
                { ctx with
                  queue := some (consumer_producer_signal_finished
                    (consumer_producer_get (n + 1) q).2)
                  finished := true }, []) := by
          simp only [plugin_consumer_thread, consumer_thread_body, hq, hg, Option.map]
        rw [hthr]
        exact ⟨_, rfl, fun _ => rfl, fun h => absurd rfl h⟩
      | some item =>
        by_cases hend : item = "<END>"
        · have hthr : plugin_consumer_thread (n + 1) ctx
              = (.exited,
                  { ctx with
                    queue := some (consumer_producer_signal_finished
                      (consumer_producer_get (n + 1) q).2)
                    finished := true },
                  forward_call ctx.next_place_work (some item)) := by
            simp only [plugin_consumer_thread, consumer_thread_body, hq, hg, hend, if_true,
              Option.map]
          rw [hthr]
          exact ⟨_, rfl, fun _ => rfl, fun h => absurd rfl h⟩
        · cases hpf : ctx.process_function with
          | none =>
            have hthr : plugin_consumer_thread (n + 1) ctx
                = (.crashed, { ctx with queue := some (consumer_producer_get (n + 1) q).2 },
                    []) := by
              simp only [plugin_consumer_thread, consumer_thread_body, hq, hg, hend, if_false,
                hpf]
            rw [hthr]
            exact ⟨_, rfl, fun h => absurd h (by simp), fun _ => hm⟩
          | some f =>
            obtain ⟨q2, h1, h2, h3⟩ :=
              ih { ctx with queue := some (consumer_producer_get (n + 1) q).2 } _ rfl
            have hthr : plugin_consumer_thread (n + 1) ctx
                = ((plugin_consumer_thread n
                      { ctx with queue := some (consumer_producer_get (n + 1) q).2 }).1,
                    (plugin_consumer_thread n
                      { ctx with queue := some (consumer_producer_get (n + 1) q).2 }).2.1,
                    (.transform item :: forward_call ctx.next_place_work (f item))
                      ++ (plugin_consumer_thread n
                        { ctx with
                          queue := some (consumer_producer_get (n + 1) q).2 }).2.2) := by
              simp only [plugin_consumer_thread, consumer_thread_body, hq, hg, hend, if_false,
                hpf]
            rw [hthr]
            exact ⟨q2, h1, h2, fun h => (h3 h).trans hm⟩

theorem place_work_queue (fuel : Nat) (ctx : plugin_context_t) (q : consumer_producer_t)
    (hq : ctx.queue = some q) (str : Option String) (ok : Bool) :
    ∃ q2, (plugin_place_work fuel ctx str ok).2.queue = some q2 ∧
      q2.finished_monitor = q.finished_monitor := by
  unfold plugin_place_work
  split_ifs
  · exact ⟨q, hq, rfl⟩
  · simp only [hq]
    exact ⟨_, rfl, put_finished_monitor fuel q str ok⟩

theorem drain_latch_step (fuel : Nat) (r : StageRun) (a : StageAction)
    (h : DrainLatchOk r) : DrainLatchOk (stage_step fuel r a) := by
  obtain ⟨q, hq, hiff⟩ := h
  cases a with
  | place_work str ok =>
    obtain ⟨q2, h1, h2⟩ := place_work_queue fuel r.stage.ctx q hq str ok
    exact ⟨q2, h1, by rw [h2]; exact hiff⟩
  | work n =>
    have hlive : ∀ (hw : r.stage.worker = some .running ∨ r.stage.worker = some .parked),
        DrainLatchOk (stage_step fuel r (.work n)) := by
      intro hw
      have e : (stage_step fuel r (.work n)) =
          { stage :=
              { ctx := (plugin_consumer_thread n r.stage.ctx).2.1
                worker := some (plugin_consumer_thread n r.stage.ctx).1
                events := r.stage.events ++ (plugin_consumer_thread n r.stage.ctx).2.2 }
            delivered := r.delivered } := by
        rcases hw with hw | hw <;> simp only [stage_step, Stage.work, hw]
      rw [e]
      obtain ⟨q2, h1, h2, h3⟩ := thread_latch n r.stage.ctx q hq
      refine ⟨q2, h1, ⟨fun hs => ?_, fun hx => h2 (Option.some.inj hx)⟩⟩
      by_contra hne
      have hne2 : (plugin_consumer_thread n r.stage.ctx).1 ≠ .exited :=
        fun e2 => hne (by simp only [e2])
      rw [h3 hne2] at hs
      have := hiff.mp hs
      rcases hw with hw | hw <;> rw [hw] at this <;> exact absurd this (by decide)
    have hidle : ∀ (_ : r.stage.worker ≠ some .running) (_ : r.stage.worker ≠ some .parked),
        stage_step fuel r (.work n) = r := by
      intro h1 h2
      simp only [stage_step, Stage.work]
    by_cases h1 : r.stage.worker = some .running
    · exact hlive (Or.inl h1)
    · by_cases h2 : r.stage.worker = some .parked
      · exact hlive (Or.inr h2)
      · rw [hidle h1 h2]; exact ⟨q, hq, hiff⟩

theorem drain_latch_run (fuel : Nat) (sched : List StageAction) :
    ∀ r : StageRun, DrainLatchOk r → DrainLatchOk (stage_run fuel sched r) := by
  induction sched with
  | nil => intro r h; exact h
  | cons a sched ih => intro r h; exact ih _ (drain_latch_step fuel r a h)

theorem drain_latch_start (env : PluginEnv) (f : String → Option String) (name : String)
    (K : Int) (next : Option String) (r0 : StageRun)
    (h : stage_start env f name K next = (none, r0)) : DrainLatchOk r0 := by
  have hinv := stage_start_inv env f name K next r0 h
  unfold stage_start at h
  have h1 := congrArg Prod.fst h
  have h2 := congrArg Prod.snd h
  simp only at h1 h2
  unfold common_plugin_init at h1 h2
  simp only [Option.isNone_some, Bool.false_or, plugin_context_zero,
    Bool.false_eq_true, if_false] at h1 h2
  by_cases hK : K ≤ 0
  · simp [hK] at h1
  · simp only [hK, decide_False, if_false] at h1 h2
    by_cases hm : env.queue_malloc_ok = true
    · simp only [hm, Bool.not_true, Bool.false_eq_true, if_false] at h1 h2
      cases hinit : consumer_producer_init env.queue_env K with
      | error e => simp [hinit] at h1
      | ok q =>
        simp only [hinit] at h1 h2
        by_cases hp : env.pthread_create_ok = true
        · simp only [hp, Bool.not_true, Bool.false_eq_true, if_false, plugin_attach,
            if_true, Option.isNone_none] at h1 h2
          obtain ⟨-, hq⟩ := init_ok_state _ K q hinit
          rw [← h2]
          refine ⟨q, rfl, ?_⟩
          rw [hq]
          simp
        · simp [hp] at h1
    · simp [hm] at h1

theorem wait_finished_result (ctx : plugin_context_t) (q : consumer_producer_t)
    (hq : ctx.queue = some q) (hi : ctx.initialized = true) :
    (plugin_wait_finished ctx).1
      = if q.finished_monitor.signaled = true then .returned none else .blocked := by
  unfold plugin_wait_finished consumer_producer_wait_finished monitor_wait
  simp only [hi, Bool.not_true, Bool.false_eq_true, if_false, hq]
  by_cases hs : q.finished_monitor.signaled = true
  · simp [hs]
  · simp [hs]

/-- C14: in every state that a started stage reaches under any schedule of
`plugin_place_work` calls and worker runs, `plugin_wait_finished` returns success only if
the worker has left its loop and returned, the finished latch of the stage queue is
signaled only in that case, and once the worker has returned `plugin_wait_finished`
does return success. -/
theorem wait_finished_only_after_exit (env : PluginEnv) (f : String → Option String)
    (name : String) (K : Int) (next : Option String) (r0 : StageRun)
    (hstart : stage_start env f name K next = (none, r0)) (fuel : Nat)
    (sched : List StageAction) :
    ((plugin_wait_finished (stage_run fuel sched r0).stage.ctx).1 = .returned none →
      (stage_run fuel sched r0).stage.worker = some .exited) ∧
    (∀ q, (stage_run fuel sched r0).stage.ctx.queue = some q →
      q.finished_monitor.signaled = true →
      (stage_run fuel sched r0).stage.worker = some .exited) ∧
    ((stage_run fuel sched r0).stage.worker = some .exited →
      (plugin_wait_finished (stage_run fuel sched r0).stage.ctx).1 = .returned none) := by
  have hinv := stage_run_inv f next fuel sched r0 (stage_start_inv env f name K next r0 hstart)
  obtain ⟨q, hq, hiff⟩ :=
    drain_latch_run fuel sched r0 (drain_latch_start env f name K next r0 hstart)
  generalize stage_run fuel sched r0 = r at hinv hq hiff ⊢
  have hi : r.stage.ctx.initialized = true := by
    rcases hinv with ⟨-, q2, hctx, -⟩ | ⟨-, q2, c, hctx, -⟩ <;> exact hctx.2.2.2.2
  have hres := wait_finished_result r.stage.ctx q hq hi
  refine ⟨fun h => ?_, fun q2 hq2 hs => ?_, fun hw => ?_⟩
  · rw [hres] at h
    by_cases hs : q.finished_monitor.signaled = true
    · exact hiff.mp hs
    · simp [hs] at h
  · have : q2 = q := Option.some.inj (hq2.symm.trans hq)
    exact hiff.mp (this ▸ hs)
  · rw [hres, if_pos (hiff.mpr hw)]

theorem wait_finished_only_after_exit_witness :
    (plugin_wait_finished
        (stage_run 1 [.place_work (some "ab") true, .work 1] logger_stage_2).stage.ctx).1
      ≠ .returned none ∧
    (plugin_wait_finished
        (stage_run 1 [.place_work (some "<END>") true, .work 1] logger_stage_2).stage.ctx).1
      = .returned none :=
  ⟨fun h => absurd ((wait_finished_only_after_exit PluginEnv.allOk logger_plugin_transform
      "logger" 2 (some "typewriter") logger_stage_2 logger_stage_2_start 1
      [.place_work (some "ab") true, .work 1]).1 h) (by decide),
    (wait_finished_only_after_exit PluginEnv.allOk logger_plugin_transform
      "logger" 2 (some "typewriter") logger_stage_2 logger_stage_2_start 1
      [.place_work (some "<END>") true, .work 1]).2.2 (by decide)⟩

/-! ## The rotator and expander transforms -/

theorem rotator_loop_spec (input : List Char) (len : Nat) (fuel : Nat) :
    ∀ (i : Nat) (res : List Char), len ≤ i + fuel →
      (rotator_loop input len fuel i res).length = res.length ∧
      ∀ j, (rotator_loop input len fuel i res)[j]?
        = if i ≤ j ∧ j < len ∧ j < res.length then some (input.getD (j - 1) nul)
          else res[j]? := by
  induction fuel with
  | zero =>
    intro i res h
    refine ⟨rfl, fun j => ?_⟩
    have : ¬ (i ≤ j ∧ j < len ∧ j < res.length) := by omega
    simp only [rotator_loop, this, if_false]
  | succ n ih =>
    intro i res h
    unfold rotator_loop
    by_cases hi : i < len
    · rw [if_pos hi]
      obtain ⟨h1, h2⟩ := ih (i + 1) (res.set i (input.getD (i - 1) nul)) (by omega)
      refine ⟨by rw [h1, List.length_set], fun j => ?_⟩
      rw [h2 j, List.length_set, List.getElem?_set]
      by_cases hj : i = j
      · subst hj
        by_cases hl : i < res.length
        · simp [hi, hl]
        · have hn : res[i]? = none := List.getElem?_eq_none (by omega)
          simp [hi, hl, hn]
      · have c : (i + 1 ≤ j ∧ j < len ∧ j < res.length) ↔ (i ≤ j ∧ j < len ∧ j < res.length) := by
          omega
        simp only [hj, if_false, c]
    · rw [if_neg hi]
      refine ⟨rfl, fun j => ?_⟩
      have : ¬ (i ≤ j ∧ j < len ∧ j < res.length) := by omega
      simp only [this, if_false]

theorem expander_loop_done (input : List Char) (len : Nat) (fuel : Nat) (i idx : Nat)
    (res : List Char) (h : len ≤ i) : expander_loop input len fuel i idx res = res := by
  cases fuel with
  | zero => rfl
  | succ n =>
    unfold expander_loop
    rw [if_neg (by omega)]

theorem expander_loop_spec (input : List Char) (len : Nat) (fuel : Nat) :
    ∀ (i : Nat) (res : List Char), len ≤ i + fuel → 2 * len - 1 ≤ res.length →
      (expander_loop input len fuel i (2 * i) res).length = res.length ∧
      ∀ j, (expander_loop input len fuel i (2 * i) res)[j]?
        = if 2 * i ≤ j ∧ j < 2 * len - 1 then
            some (if j % 2 = 0 then input.getD (j / 2) nul else Char.ofNat 32)
          else res[j]? := by
  induction fuel with
  | zero =>
    intro i res h _
    refine ⟨rfl, fun j => ?_⟩
    have : ¬ (2 * i ≤ j ∧ j < 2 * len - 1) := by omega
    simp only [expander_loop, this, if_false]
  | succ n ih =>
    intro i res h hres
    unfold expander_loop
    by_cases hi : i < len
    · rw [if_pos hi]
      by_cases hi2 : i < len - 1
      · rw [if_pos hi2]
        have e : 2 * i + 2 = 2 * (i + 1) := by ring
        rw [e]
        obtain ⟨h1, h2⟩ := ih (i + 1)
          ((res.set (2 * i) (input.getD i nul)).set (2 * i + 1) (Char.ofNat 32)) (by omega)
          (by simp only [List.length_set]; exact hres)
        refine ⟨by rw [h1]; simp only [List.length_set], fun j => ?_⟩
        rw [h2 j, List.getElem?_set, List.getElem?_set]
        by_cases hj1 : j = 2 * i
        · subst hj1
          have c1 : ¬ (2 * (i + 1) ≤ 2 * i ∧ 2 * i < 2 * len - 1) := by omega
          have c2 : (2 * i ≤ 2 * i ∧ 2 * i < 2 * len - 1) := by omega
          have c3 : 2 * i < res.length := by omega
          have c4 : ¬ (2 * i + 1 = 2 * i) := by omega
          simp [c1, c2, c3, c4]
        · by_cases hj2 : j = 2 * i + 1
          · subst hj2
            have c1 : ¬ (2 * (i + 1) ≤ 2 * i + 1 ∧ 2 * i + 1 < 2 * len - 1) := by omega
            have c2 : (2 * i ≤ 2 * i + 1 ∧ 2 * i + 1 < 2 * len - 1) := by omega
            have c3 : 2 * i + 1 < res.length := by omega
            have c5 : (2 * i + 1) % 2 ≠ 0 := by omega
            simp [c1, c2, c3, c5]
          · have c : (2 * (i + 1) ≤ j ∧ j < 2 * len - 1) ↔ (2 * i ≤ j ∧ j < 2 * len - 1) := by
              omega
            have c6 : ¬ (2 * i + 1 = j) := fun e => hj2 e.symm
            have c7 : ¬ (2 * i = j) := fun e => hj1 e.symm
            simp only [c, c6, c7, if_false]
      · rw [if_neg hi2, expander_loop_done input len n (i + 1) _ _ (by omega)]
        refine ⟨by simp only [List.length_set], fun j => ?_⟩
        rw [List.getElem?_set]
        by_cases hj1 : j = 2 * i
        · subst hj1
          have c2 : (2 * i ≤ 2 * i ∧ 2 * i < 2 * len - 1) := by omega
          have c3 : 2 * i < res.length := by omega
          simp [c2, c3]
        · have c : ¬ (2 * i ≤ j ∧ j < 2 * len - 1) := by omega
          have c7 : ¬ (2 * i = j) := fun e => hj1 e.symm
          simp only [c, c7, if_false]
    · rw [if_neg hi]
      refine ⟨rfl, fun j => ?_⟩
      have : ¬ (2 * i ≤ j ∧ j < 2 * len - 1) := by omega
      simp only [this, if_false]

theorem size_t_to_int_small (n : Nat) (h : n < 2147483648) : size_t_to_int n = (n : Int) := by
  unfold size_t_to_int
  have e : n % 4294967296 = n := Nat.mod_eq_of_lt (by omega)
  rw [e, if_pos h]

theorem long_record_length : long_record.data.length = 4294967299 := by
  show ('x' :: 'y' :: 'z' :: List.replicate 4294967296 'a').length = 4294967299
  rw [List.length_cons, List.length_cons, List.length_cons, List.length_replicate]

theorem long_record_int : size_t_to_int long_record.data.length = ((3 : Nat) : Int) := by
  rw [long_record_length]
  decide

theorem rotator_in_range (s : String) (L : Nat)
    (hL : size_t_to_int s.data.length = (L : Int)) (h0 : 0 < L) (h1 : L < 2147483647) :
    rotator_plugin_transform s = some (rotator_fill s.data L) := by
  have e0 : ¬ ((L : Int) = 0) := by omega
  have e1 : malloc_int_ok (wrap_int ((L : Int) + 1)) = true := by
    simp only [malloc_int_ok, wrap_int, decide_eq_true_eq]
    omega
  have e2 : ¬ ((L : Int) < 0) := by omega
  simp only [rotator_plugin_transform, hL, if_neg e0, e1, Bool.not_true, Bool.false_eq_true,
    if_false, if_neg e2, Int.toNat_ofNat]

theorem rotator_fill_snoc (l : List Char) (c : Char) :
    rotator_fill (l ++ [c]) (l.length + 1) = String.mk (c :: l) := by
  unfold rotator_fill
  simp only [Nat.add_sub_cancel]
  congr 1
  apply List.ext_getElem?
  intro j
  obtain ⟨h1, h2⟩ := rotator_loop_spec (l ++ [c]) (l.length + 1) (l.length + 1) 1
    ((List.replicate (l.length + 1 + 1) nul).set 0 ((l ++ [c]).getD l.length nul)) (by omega)
  rw [List.getElem?_take]
  by_cases hj : j < l.length + 1
  · rw [if_pos hj, List.getElem?_set_ne (by omega), h2 j]
    simp only [List.length_set, List.length_replicate]
    by_cases hj0 : j = 0
    · subst hj0
      simp [List.getD_eq_getElem?_getD]
    · have c1 : (1 ≤ j ∧ j < l.length + 1 ∧ j < l.length + 1 + 1) := by omega
      rw [if_pos c1]
      obtain ⟨k, rfl⟩ : ∃ k, j = k + 1 := ⟨j - 1, by omega⟩
      have hk : k < l.length := by omega
      simp [List.getD_eq_getElem?_getD, List.getElem?_append_left hk,
        List.getElem?_eq_getElem hk]
  · rw [if_neg hj]
    exact (List.getElem?_eq_none (by simp; omega)).symm

theorem rotator_snoc (l : List Char) (c : Char) (h : l.length + 1 < 2147483647) :
    rotator_plugin_transform (String.mk (l ++ [c])) = some (String.mk (c :: l)) := by
  have hlen : (String.mk (l ++ [c])).data.length = l.length + 1 := by simp
  rw [rotator_in_range _ (l.length + 1) (by rw [hlen]; exact size_t_to_int_small _ (by omega))
    (by omega) h]
  exact congrArg some (rotator_fill_snoc l c)

theorem rotator_empty : rotator_plugin_transform (String.mk []) = some (String.mk []) := by
  decide

/-- C18 (amended): for a string `s` of length `n` with `1 <= n < 2^31 - 1` the rotator
transform returns a string of length `n` whose character 0 is `s[n-1]` and whose character
`i` is `s[i-1]` for `1 <= i < n`; for the empty string and every 1-character string it
returns the input. -/
theorem rotator_rotates_right (s : String) (hlen : s.length < 2147483647) :
    (1 ≤ s.length →
      ∃ r, rotator_plugin_transform s = some r ∧ r.length = s.length ∧
        r.data[0]? = s.data[s.length - 1]? ∧
        ∀ i, 1 ≤ i → i < s.length → r.data[i]? = s.data[i - 1]?) ∧
    (s.length ≤ 1 → rotator_plugin_transform s = some s) := by
  obtain ⟨d⟩ := s
  rcases List.eq_nil_or_concat d with rfl | ⟨l, c, hd⟩
  · exact ⟨fun h => absurd h (by simp [String.length]), fun _ => rotator_empty⟩
  · rw [List.concat_eq_append] at hd
    subst hd
    have hl : (String.mk (l ++ [c])).length = l.length + 1 := by simp [String.length]
    rw [hl] at hlen
    refine ⟨fun _ => ⟨String.mk (c :: l), rotator_snoc l c hlen, ?_, ?_, ?_⟩, fun h => ?_⟩
    · simp [String.length]
    · simp [hl]
    · intro i h1 h2
      rw [hl] at h2
      obtain ⟨k, rfl⟩ : ∃ k, i = k + 1 := ⟨i - 1, by omega⟩
      have hk : k < l.length := by omega
      simp [List.getElem?_append_left hk]
    · rw [hl] at h
      have : l = [] := List.eq_nil_of_length_eq_zero (by omega)
      subst this
      exact rotator_snoc [] c (by decide)

theorem rotator_rotates_right_witness :
    (∃ r, rotator_plugin_transform "abc" = some r ∧ r.length = "abc".length ∧
        r.data[0]? = "abc".data["abc".length - 1]? ∧
        ∀ i, 1 ≤ i → i < "abc".length → r.data[i]? = "abc".data[i - 1]?) ∧
    rotator_plugin_transform "x" = some "x" :=
  ⟨(rotator_rotates_right "abc" (by decide)).1 (by decide),
    (rotator_rotates_right "x" (by decide)).2 (by decide)⟩

/-- C18 fails as stated for long strings, because `length_of_input` is an `int`: for the
record of 2^32 + 3 bytes `xyz aaa...` the rotator sees the length 3 and returns the 3-byte
string `zxy`; for a record of 2^31 - 1 bytes `length_of_input + 1` is negative and the
rotator returns `NULL`. -/
theorem rotator_truncates_long_record :
    long_record.length = 4294967299 ∧
    rotator_plugin_transform long_record = some "zxy" ∧
    rotator_plugin_transform (String.mk (List.replicate 2147483647 'a')) = none := by
  refine ⟨long_record_length, ?_, ?_⟩
  · rw [rotator_in_range long_record 3 long_record_int (by decide) (by decide)]
    decide
  · simp only [rotator_plugin_transform, List.length_replicate]
    decide

theorem rotator_examples :
    rotator_plugin_transform "abc" = some "cab" ∧ rotator_plugin_transform "de" = some "ed" ∧
    rotator_plugin_transform "" = some "" := by
  decide

theorem expander_in_range (s : String) (L : Nat)
    (hL : size_t_to_int s.data.length = (L : Int)) (h0 : 0 < L) (h1 : L < 1073741824) :
    expander_plugin_transform s = some (expander_fill s.data L (L + (L - 1))) := by
  have e0 : ¬ ((L : Int) = 0) := by omega
  have et : wrap_int ((L : Int) + wrap_int ((L : Int) - 1)) = ((L + (L - 1) : Nat) : Int) := by
    simp only [wrap_int]
    omega
  have e1 : malloc_int_ok (wrap_int (((L + (L - 1) : Nat) : Int) + 1)) = true := by
    simp only [malloc_int_ok, wrap_int, decide_eq_true_eq]
    omega
  have e2 : ¬ ((L : Int) < 0) := by omega
  simp only [expander_plugin_transform, hL, if_neg e0, et, e1, Bool.not_true,
    Bool.false_eq_true, if_false, if_neg e2, Int.toNat_ofNat]

theorem expander_chars (l : List Char) (hl : l ≠ []) :
    ∃ r, expander_fill l l.length (l.length + (l.length - 1)) = String.mk r ∧
      r.length = 2 * l.length - 1 ∧
      ∀ j, j < 2 * l.length - 1 →
        r[j]? = some (if j % 2 = 0 then l.getD (j / 2) nul else Char.ofNat 32) := by
  have hpos : 0 < l.length := List.length_pos.mpr hl
  obtain ⟨h1, h2⟩ := expander_loop_spec l l.length l.length 0
    (List.replicate (l.length + (l.length - 1) + 1) nul) (by omega)
    (by simp only [List.length_replicate]; omega)
  refine ⟨_, rfl, ?_, ?_⟩
  · simp only [List.length_take, List.length_set, h1, List.length_replicate]
    omega
  · intro j hj
    rw [List.getElem?_take, if_pos (by omega), List.getElem?_set_ne (by omega), h2 j,
      if_pos (by omega)]

/-- C19 (amended): for a string `s` of length `n` with `1 <= n < 2^30` the expander
transform returns a string of length `2n - 1` whose character at index `2i` is `s[i]` for
`0 <= i < n` and whose character at every odd index is a space; for the empty string it
returns the empty string. -/
theorem expander_inserts_spaces (s : String) (hlen : s.length < 1073741824) :
    (1 ≤ s.length →
      ∃ r, expander_plugin_transform s = some r ∧ r.length = 2 * s.length - 1 ∧
        (∀ i, i < s.length → r.data[2 * i]? = s.data[i]?) ∧
        (∀ j, j < 2 * s.length - 1 → j % 2 = 1 → r.data[j]? = some (Char.ofNat 32))) ∧
    (s.length = 0 → expander_plugin_transform s = some (String.mk [])) := by
  obtain ⟨l⟩ := s
  have hlen2 : l.length < 1073741824 := hlen
  constructor
  · intro h
    have hpos : 1 ≤ l.length := h
    have hl : l ≠ [] := by
      intro e; subst e; simp at hpos
    obtain ⟨r, h1, h2, h3⟩ := expander_chars l hl
    have hrun : expander_plugin_transform (String.mk l) = some (String.mk r) := by
      rw [expander_in_range (String.mk l) l.length (size_t_to_int_small l.length (by omega))
        (by omega) hlen2, h1]
    refine ⟨String.mk r, hrun, h2, ?_, ?_⟩
    · intro i hi
      have hi2 : i < l.length := hi
      rw [h3 (2 * i) (by omega)]
      simp [List.getD_eq_getElem?_getD, List.getElem?_eq_getElem hi2]
    · intro j hj hodd
      have hj2 : j < 2 * l.length - 1 := hj
      rw [h3 j hj2]
      simp [hodd]
  · intro h
    have : l = [] := List.eq_nil_of_length_eq_zero h
    subst this
    decide

theorem expander_inserts_spaces_witness :
    (∃ r, expander_plugin_transform "ab" = some r ∧ r.length = 2 * "ab".length - 1 ∧
        (∀ i, i < "ab".length → r.data[2 * i]? = "ab".data[i]?) ∧
        (∀ j, j < 2 * "ab".length - 1 → j % 2 = 1 → r.data[j]? = some (Char.ofNat 32))) ∧
    expander_plugin_transform "" = some (String.mk []) :=
  ⟨(expander_inserts_spaces "ab" (by decide)).1 (by decide),
    (expander_inserts_spaces "" (by decide)).2 (by decide)⟩

/-- C19 fails as stated for long strings, because the lengths are `int`s: for the record
of 2^32 + 3 bytes `xyz aaa...` the expander sees the length 3 and returns the 5-byte string
`x y z`; for a record of 2^30 bytes `length_after_transform + 1` is negative and the
expander returns `NULL`. -/
theorem expander_truncates_long_record :
    long_record.length = 4294967299 ∧
    expander_plugin_transform long_record = some "x y z" ∧
    expander_plugin_transform (String.mk (List.replicate 1073741824 'a')) = none := by
  refine ⟨long_record_length, ?_, ?_⟩
  · rw [expander_in_range long_record 3 long_record_int (by decide) (by decide)]
    decide
  · simp only [expander_plugin_transform, List.length_replicate]
    decide

theorem expander_examples :
    expander_plugin_transform "ab" = some "a b" ∧ expander_plugin_transform "x" = some "x" ∧
    expander_plugin_transform "abcd" = some "a b c d" := by
  decide

/-- C20 (amended): for every string `s` with at least two and fewer than 2^31 - 1
characters, rotator, rotator, flipper, rotator, rotator applied in this order return the
character reversal of `s`, which is what the flipper alone returns. -/
theorem rotate_flip_rotate (s : String) (h : 2 ≤ s.length) (hlen : s.length < 2147483647) :
    ((((rotator_plugin_transform s).bind rotator_plugin_transform).bind
        flipper_plugin_transform).bind rotator_plugin_transform).bind
        rotator_plugin_transform
      = some (String.mk s.data.reverse) ∧
    flipper_plugin_transform s = some (String.mk s.data.reverse) := by
  refine ⟨?_, rfl⟩
  obtain ⟨d⟩ := s
  rcases List.eq_nil_or_concat d with rfl | ⟨l, c, hd⟩
  · simp [String.length] at h
  · rw [List.concat_eq_append] at hd
    subst hd
    rcases List.eq_nil_or_concat l with rfl | ⟨l2, b, hl⟩
    · simp [String.length] at h
    · rw [List.concat_eq_append] at hl
      subst hl
      have hn : l2.length + 2 < 2147483647 := by
        have : (String.mk (l2 ++ [b] ++ [c])).length = l2.length + 2 := by
          simp [String.length]
        omega
      have e1 : (c :: (l2 ++ [b])) = (c :: l2) ++ [b] := rfl
      have e2 : (b :: c :: l2).reverse = (l2.reverse ++ [c]) ++ [b] := by simp
      have e3 : (b :: (l2.reverse ++ [c])) = (b :: l2.reverse) ++ [c] := rfl
      have e4 : (l2 ++ [b] ++ [c]).reverse = c :: b :: l2.reverse := by simp
      have r1 := rotator_snoc (l2 ++ [b]) c (by simp; omega)
      have r2 := rotator_snoc (c :: l2) b (by simp; omega)
      have r3 := rotator_snoc (l2.reverse ++ [c]) b (by simp; omega)
      have r4 := rotator_snoc (b :: l2.reverse) c (by simp; omega)
      simp only [r1, Option.some_bind, e1, r2, flipper_plugin_transform, e2, r3, e3, r4, e4]

theorem rotate_flip_rotate_witness :
    ((((rotator_plugin_transform "abc").bind rotator_plugin_transform).bind
        flipper_plugin_transform).bind rotator_plugin_transform).bind
        rotator_plugin_transform
      = some (String.mk "abc".data.reverse) ∧
    flipper_plugin_transform "abc" = some (String.mk "abc".data.reverse) :=
  rotate_flip_rotate "abc" (by decide) (by decide)

/-- C20 fails as stated for long strings: for the record of 2^32 + 3 bytes `xyz aaa...`
the first rotator returns the 3-byte string `zxy`, and rotator, rotator, flipper, rotator,
rotator end with `zyx`, which is not the reversal of the record. -/
theorem rotate_flip_rotate_long_record :
    ((((rotator_plugin_transform long_record).bind rotator_plugin_transform).bind
        flipper_plugin_transform).bind rotator_plugin_transform).bind
        rotator_plugin_transform
      = some "zyx" ∧
    flipper_plugin_transform long_record = some (String.mk long_record.data.reverse) ∧
    (String.mk long_record.data.reverse).length = 4294967299 ∧
    "zyx" ≠ String.mk long_record.data.reverse := by
  have hl : (String.mk long_record.data.reverse).length = 4294967299 := by
    show long_record.data.reverse.length = 4294967299
    rw [List.length_reverse, long_record_length]
  refine ⟨?_, rfl, hl, ?_⟩
  · rw [rotator_in_range long_record 3 long_record_int (by decide) (by decide)]
    decide
  · intro e
    rw [← e] at hl
    exact absurd hl (by decide)

/-! ## Reading lines -/

theorem fgets_take_full (content : List Char) (hnl : newline ∉ content) (rest : List Char) :
    fgets_take content.length (content ++ rest) = (content, rest) := by
  induction content with
  | nil => simp [fgets_take]
  | cons c cs ih =>
    have hc : c ≠ newline := fun e => hnl (e ▸ List.mem_cons_self _ _)
    have hcs : newline ∉ cs := fun h => hnl (List.mem_cons_of_mem _ h)
    simp [fgets_take, hc, ih hcs]

theorem fgets_take_line (content : List Char) (hnl : newline ∉ content) (rest : List Char) :
    ∀ n, content.length < n →
      fgets_take n (content ++ newline :: rest) = (content ++ [newline], rest) := by
  induction content with
  | nil =>
    intro n hn
    obtain ⟨k, rfl⟩ : ∃ k, n = k + 1 := ⟨n - 1, by simp at hn; omega⟩
    simp [fgets_take]
  | cons c cs ih =>
    intro n hn
    obtain ⟨k, rfl⟩ : ∃ k, n = k + 1 := ⟨n - 1, by simp at hn; omega⟩
    have hc : c ≠ newline := fun e => hnl (e ▸ List.mem_cons_self _ _)
    have hcs : newline ∉ cs := fun h => hnl (List.mem_cons_of_mem _ h)
    have hk : cs.length < k := by simp at hn; omega
    simp [fgets_take, hc, ih hcs k hk]

theorem c_string_no_nul (buf : List Char) (h : nul ∉ buf) : c_string buf = String.mk buf := by
  unfold c_string
  congr 1
  rw [List.takeWhile_eq_self_iff]
  intro a ha
  have : a ≠ nul := fun e => h (e ▸ ha)
  simpa using this

theorem strip_newline_line (content : List Char) :
    strip_newline (String.mk (content ++ [newline])) = String.mk content := by
  simp [strip_newline, String.length, newline]

theorem strip_newline_none (content : List Char) (h : newline ∉ content) :
    strip_newline (String.mk content) = String.mk content := by
  unfold strip_newline
  rw [if_neg]
  rintro ⟨-, h2⟩
  exact h (List.mem_of_getLast?_eq_some h2)

theorem read_lines_long (content : List Char) (hlen : content.length = 1024)
    (hnl : newline ∉ content) (hnul : nul ∉ content) :
    read_lines 1025 (content ++ [newline]).length (content ++ [newline])
      = [String.mk content, String.mk [newline]] := by
  have hl : (content ++ [newline]).length = 1023 + 1 + 1 := by simp [hlen]
  have hne : content ++ [newline] ≠ [] := by simp
  have h1 : fgets_take 1024 (content ++ [newline]) = (content, [newline]) := by
    have := fgets_take_full content hnl [newline]
    rwa [hlen] at this
  have h2 : fgets_take 1024 [newline] = ([newline], []) := by simp [fgets_take]
  have h3 : c_string [newline] = String.mk [newline] :=
    c_string_no_nul _ (by simp [nul, newline])
  rw [hl]
  simp [read_lines, fgets, hne, h1, h2, c_string_no_nul content hnul, h3]

theorem read_lines_short (content : List Char) (hlen : content.length ≤ 1023)
    (hnl : newline ∉ content) (hnul : nul ∉ content) :
    read_lines 1025 (content ++ [newline]).length (content ++ [newline])
      = [String.mk (content ++ [newline])] := by
  have hl : (content ++ [newline]).length = content.length + 1 := by simp
  have hne : content ++ [newline] ≠ [] := by simp
  have h1 : fgets_take 1024 (content ++ [newline]) = (content ++ [newline], []) :=
    fgets_take_line content hnl [] 1024 (by omega)
  have hn : nul ∉ content ++ [newline] := by
    simp only [List.mem_append, List.mem_singleton, not_or]
    exact ⟨hnul, by simp [nul, newline]⟩
  rw [hl]
  cases hc : content.length with
  | zero => simp [read_lines, fgets, hne, h1, c_string_no_nul _ hn]
  | succ k => simp [read_lines, fgets, hne, h1, c_string_no_nul _ hn]

/-- A line of exactly 1024 bytes before its newline is read in two `fgets` calls and
placed as two records: the 1024 bytes, and an empty record for the newline left over. -/
theorem line_1024_two_records (content : List Char) (hlen : content.length = 1024)
    (hnl : newline ∉ content) (hnul : nul ∉ content) :
    (main_read_loop place_work_accepting 1 (content ++ [newline]) ()).2
      = [String.mk content, String.mk []] := by
  have hlong : String.mk content ≠ "<END>" := by
    intro e
    have := congrArg String.length e
    simp [String.length, hlen] at this
  have hs1 := strip_newline_none content hnl
  have hs2 : strip_newline (String.mk [newline]) = String.mk [] := strip_newline_line []
  have he : String.mk [] ≠ "<END>" := by decide
  unfold main_read_loop
  rw [read_lines_long content hlen hnl hnul]
  simp [feed_loop, place_work_accepting, hs1, hs2, hlong, he]

/-- A line of at most 1023 bytes before its newline, other than `"<END>"`, is placed as
one record, the line without its newline. -/
theorem line_1023_one_record (content : List Char) (hlen : content.length ≤ 1023)
    (hnl : newline ∉ content) (hnul : nul ∉ content)
    (hend : String.mk content ≠ "<END>") :
    (main_read_loop place_work_accepting 1 (content ++ [newline]) ()).2
      = [String.mk content] := by
  unfold main_read_loop
  rw [read_lines_short content hlen hnl hnul]
  simp [feed_loop, place_work_accepting, strip_newline_line, hend]

/-- C15 (the code on a 1024-byte line): for the input line of 1024 characters `a`
followed by a newline, the read loop places two records, the 1024 characters and then an
empty record. -/
theorem line_of_1024_bytes_split :
    (main_read_loop place_work_accepting 1 (List.replicate 1024 'a' ++ [newline]) ()).2
      = [String.mk (List.replicate 1024 'a'), String.mk []] :=
  line_1024_two_records (List.replicate 1024 'a') (List.length_replicate _ _)
    (fun h => absurd (List.eq_of_mem_replicate h) (by decide))
    (fun h => absurd (List.eq_of_mem_replicate h) (by decide))

theorem is_digit_range (c : Char) (h : is_digit c = true) : 48 ≤ c.toNat ∧ c.toNat ≤ 57 := by
  simp only [is_digit, Bool.not_eq_true', Bool.or_eq_false_iff, decide_eq_false_iff_not,
    Char.lt_def, gt_iff_lt] at h
  have h1 := h.1
  have h2 := h.2
  simp only [UInt32.lt_def, BitVec.lt_def, Nat.not_lt] at h1 h2
  exact ⟨h1, h2⟩


theorem atoi_digits (u : List Char → Int) (ds : List Char)
    (hall : ∀ c ∈ ds, is_digit c = true) (hr : ((digits_value ds : Nat) : Int) ≤ INT_MAX) :
    atoi u (String.mk ds) = ((digits_value ds : Nat) : Int) := by
  have hdrop : ds.dropWhile is_space = ds := by
    cases ds with
    | nil => rfl
    | cons c r =>
      have hc := is_digit_range c (hall c (List.mem_cons_self _ _))
      have : is_space c = false := by
        simp only [is_space, Bool.or_eq_false_iff, decide_eq_false_iff_not,
          Bool.and_eq_false_iff]
        omega
      simp [List.dropWhile, this]
  have htake : ds.takeWhile is_digit = ds := List.takeWhile_eq_self_iff.mpr hall
  have hsign : atoi_sign ds = (false, ds) := by
    cases ds with
    | nil => rfl
    | cons c r =>
      have hc := is_digit_range c (hall c (List.mem_cons_self _ _))
      have h1 : c ≠ '-' := by
        intro e; rw [e] at hc; exact absurd hc.1 (by decide)
      have h2 : c ≠ '+' := by
        intro e; rw [e] at hc; exact absurd hc.1 (by decide)
      simp [atoi_sign, h1, h2]
  have h0 : (0 : Int) ≤ ((digits_value ds : Nat) : Int) := Int.ofNat_nonneg _
  have hmin : INT_MIN ≤ ((digits_value ds : Nat) : Int) := by
    unfold INT_MIN; omega
  unfold atoi
  simp only [hdrop, hsign, htake, Bool.false_eq_true, if_false]
  rw [if_pos ⟨hmin, hr⟩]

theorem digit_scan (ds : List Char) :
    ds.any (fun c => decide (c < '0') || decide (c > '9')) = true
      ↔ ∃ c ∈ ds, is_digit c = false := by
  simp only [List.any_eq_true, is_digit, Bool.not_eq_false']

theorem queue_size_cases (undefined_atoi : List Char → Int) (can_load : String → Bool)
    (prog name : String) (ds : List Char) (names : List String) :
    (ds ≠ [] → (∀ c ∈ ds, is_digit c = true) → 0 < digits_value ds →
      ((digits_value ds : Nat) : Int) ≤ INT_MAX →
      main_queue_size undefined_atoi (prog :: String.mk ds :: name :: names)
        = .ok ((digits_value ds : Nat) : Int)) ∧
    ((ds = [] ∨ (∃ c ∈ ds, is_digit c = false) ∨
        ((∀ c ∈ ds, is_digit c = true) ∧ digits_value ds = 0)) →
      main_queue_size undefined_atoi (prog :: String.mk ds :: name :: names) = .error 1 ∧
      (main_startup undefined_atoi can_load (prog :: String.mk ds :: name :: names)).exit_code
        = some 1 ∧
      (main_startup undefined_atoi can_load (prog :: String.mk ds :: name :: names)).loaded
        = []) ∧
    (∀ v, main_queue_size undefined_atoi (prog :: String.mk ds :: name :: names) = .ok v →
      ds ≠ [] ∧ (∀ c ∈ ds, is_digit c = true) ∧
      (((digits_value ds : Nat) : Int) ≤ INT_MAX →
        v = ((digits_value ds : Nat) : Int) ∧ 0 < digits_value ds)) := by
  have hlen : ¬ ((prog :: String.mk ds :: name :: names).length < 3) := by simp
  have hget : (prog :: String.mk ds :: name :: names).getD 1 "" = String.mk ds := rfl
  have hscan := digit_scan ds
  have hbad : (∃ c ∈ ds, is_digit c = false) →
      main_queue_size undefined_atoi (prog :: String.mk ds :: name :: names) = .error 1 := by
    intro h
    unfold main_queue_size
    rw [if_neg hlen, hget, if_pos (hscan.mpr h)]
  have hgood : (∀ c ∈ ds, is_digit c = true) → ((digits_value ds : Nat) : Int) ≤ INT_MAX →
      main_queue_size undefined_atoi (prog :: String.mk ds :: name :: names)
        = if ((digits_value ds : Nat) : Int) ≤ 0 then .error 1
          else .ok ((digits_value ds : Nat) : Int) := by
    intro hall hr
    have hno : ¬ (ds.any (fun c => decide (c < '0') || decide (c > '9')) = true) := by
      rw [hscan]
      rintro ⟨c, hc, hd⟩
      rw [hall c hc] at hd
      exact absurd hd (by decide)
    unfold main_queue_size
    rw [if_neg hlen, hget, if_neg hno, atoi_digits undefined_atoi ds hall hr]
  have hstart : main_queue_size undefined_atoi (prog :: String.mk ds :: name :: names)
        = .error 1 →
      (main_startup undefined_atoi can_load (prog :: String.mk ds :: name :: names)).exit_code
        = some 1 ∧
      (main_startup undefined_atoi can_load (prog :: String.mk ds :: name :: names)).loaded
        = [] := by
    intro h
    simp only [main_startup, h, and_self]
  have hzero : (∀ c ∈ ds, is_digit c = true) → digits_value ds = 0 →
      main_queue_size undefined_atoi (prog :: String.mk ds :: name :: names) = .error 1 := by
    intro hall hz
    rw [hgood hall (by rw [hz]; decide), hz]
    rfl
  refine ⟨?_, ?_, ?_⟩
  · intro _ hall hpos hr
    rw [hgood hall hr, if_neg (by omega)]
  · intro h
    have herr : main_queue_size undefined_atoi (prog :: String.mk ds :: name :: names)
        = .error 1 := by
      rcases h with h | h | ⟨h1, h2⟩
      · subst h
        exact hzero (by simp) rfl
      · exact hbad h
      · exact hzero h1 h2
    exact ⟨herr, hstart herr⟩
  · intro v hv
    have hall : ∀ c ∈ ds, is_digit c = true := by
      intro c hc
      by_contra hd
      have hd2 : is_digit c = false := by simpa using hd
      rw [hbad ⟨c, hc, hd2⟩] at hv
      exact absurd hv (by simp)
    have hne : ds ≠ [] := by
      intro e
      subst e
      rw [hzero (by simp) rfl] at hv
      exact absurd hv (by simp)
    refine ⟨hne, hall, fun hr => ?_⟩
    rw [hgood hall hr] at hv
    by_cases hz : ((digits_value ds : Nat) : Int) ≤ 0
    · rw [if_pos hz] at hv
      exact absurd hv (by simp)
    · rw [if_neg hz] at hv
      injection hv with hv
      exact ⟨hv.symm, by omega⟩

theorem atoi_all_digits (u : List Char → Int) (ds : List Char)
    (hall : ∀ c ∈ ds, is_digit c = true) :
    atoi u (String.mk ds)
      = if ((digits_value ds : Nat) : Int) ≤ INT_MAX then ((digits_value ds : Nat) : Int)
        else u ds := by
  by_cases hr : ((digits_value ds : Nat) : Int) ≤ INT_MAX
  · rw [if_pos hr]
    exact atoi_digits u ds hall hr
  · rw [if_neg hr]
    have hdrop : ds.dropWhile is_space = ds := by
      cases ds with
      | nil => rfl
      | cons c r =>
        have hc := is_digit_range c (hall c (List.mem_cons_self _ _))
        have : is_space c = false := by
          simp only [is_space, Bool.or_eq_false_iff, decide_eq_false_iff_not,
            Bool.and_eq_false_iff]
          omega
        simp [List.dropWhile, this]
    have htake : ds.takeWhile is_digit = ds := List.takeWhile_eq_self_iff.mpr hall
    have hsign : atoi_sign ds = (false, ds) := by
      cases ds with
      | nil => rfl
      | cons c r =>
        have hc := is_digit_range c (hall c (List.mem_cons_self _ _))
        have h1 : c ≠ '-' := by
          intro e; rw [e] at hc; exact absurd hc.1 (by decide)
        have h2 : c ≠ '+' := by
          intro e; rw [e] at hc; exact absurd hc.1 (by decide)
        simp [atoi_sign, h1, h2]
    unfold atoi
    simp only [hdrop, hsign, htake, Bool.false_eq_true, if_false]
    rw [if_neg (fun h => hr h.2)]

theorem queue_size_exact (undefined_atoi : List Char → Int) (can_load : String → Bool)
    (prog name : String) (ds : List Char) (names : List String) :
    (∀ v, main_queue_size undefined_atoi (prog :: String.mk ds :: name :: names) = .ok v ↔
      (ds ≠ [] ∧ (∀ c ∈ ds, is_digit c = true) ∧ 0 < v ∧
        v = if ((digits_value ds : Nat) : Int) ≤ INT_MAX then ((digits_value ds : Nat) : Int)
            else undefined_atoi ds)) ∧
    ((∀ v, main_queue_size undefined_atoi (prog :: String.mk ds :: name :: names) ≠ .ok v) →
      main_queue_size undefined_atoi (prog :: String.mk ds :: name :: names) = .error 1 ∧
      (main_startup undefined_atoi can_load (prog :: String.mk ds :: name :: names)).exit_code
        = some 1 ∧
      (main_startup undefined_atoi can_load (prog :: String.mk ds :: name :: names)).loaded
        = []) := by
  have hlen : ¬ ((prog :: String.mk ds :: name :: names).length < 3) := by simp
  have hget : (prog :: String.mk ds :: name :: names).getD 1 "" = String.mk ds := rfl
  have hscan := digit_scan ds
  have hstart : main_queue_size undefined_atoi (prog :: String.mk ds :: name :: names)
        = .error 1 →
      (main_startup undefined_atoi can_load (prog :: String.mk ds :: name :: names)).exit_code
        = some 1 ∧
      (main_startup undefined_atoi can_load (prog :: String.mk ds :: name :: names)).loaded
        = [] := by
    intro h
    simp only [main_startup, h, and_self]
  by_cases hall : ∀ c ∈ ds, is_digit c = true
  · have hno : ¬ (ds.any (fun c => decide (c < '0') || decide (c > '9')) = true) := by
      rw [hscan]
      rintro ⟨c, hc, hd⟩
      rw [hall c hc] at hd
      exact absurd hd (by decide)
    have hA := atoi_all_digits undefined_atoi ds hall
    have hmain : main_queue_size undefined_atoi (prog :: String.mk ds :: name :: names)
        = if atoi undefined_atoi (String.mk ds) ≤ 0 then .error 1
          else .ok (atoi undefined_atoi (String.mk ds)) := by
      unfold main_queue_size
      rw [if_neg hlen, hget, if_neg hno]
    have hnil : ds = [] → atoi undefined_atoi (String.mk ds) = 0 := by
      intro e
      subst e
      rw [hA]
      rfl
    by_cases hz : atoi undefined_atoi (String.mk ds) ≤ 0
    · rw [if_pos hz] at hmain
      refine ⟨fun v => ⟨fun h => ?_, fun h => ?_⟩, fun _ => ⟨hmain, hstart hmain⟩⟩
      · rw [hmain] at h
        exact absurd h (by simp)
      · obtain ⟨-, -, hv, he⟩ := h
        rw [← hA] at he
        omega
    · rw [if_neg hz] at hmain
      refine ⟨fun v => ⟨fun h => ?_, fun h => ?_⟩, fun hnone => ?_⟩
      · rw [hmain] at h
        injection h with h
        refine ⟨fun e => hz (by rw [hnil e]), hall, by omega, ?_⟩
        rw [← hA, h]
      · obtain ⟨-, -, -, he⟩ := h
        rw [← hA] at he
        rw [hmain, he]
      · exact absurd hmain (hnone _)
  · have hbad : ∃ c ∈ ds, is_digit c = false := by
      by_contra hcon
      apply hall
      intro c hc
      by_contra hd
      exact hcon ⟨c, hc, by simpa using hd⟩
    have hmain : main_queue_size undefined_atoi (prog :: String.mk ds :: name :: names)
        = .error 1 := by
      unfold main_queue_size
      rw [if_neg hlen, hget, if_pos (hscan.mpr hbad)]
    refine ⟨fun v => ⟨fun h => ?_, fun h => absurd h.2.1 hall⟩, fun _ => ⟨hmain, hstart hmain⟩⟩
    rw [hmain] at h
    exact absurd h (by simp)

/-- C16 (amended): with at least one stage name on the command line, `main` goes on with
queue size `v` if and only if `argv[1]` is a non-empty string of decimal digits and
`atoi(argv[1])`, which is `v`, is positive; `atoi` returns the number written when it fits
an `int`, and what the C library returns otherwise (no range check is made).  For every
other argument `main` returns 1 and no `load_plugin` call has been made; this is so when
`argv[1]` is empty, holds a character that is not a decimal digit (a sign, a space), or
denotes zero.  A non-empty digit string whose value is positive and fits an `int` is
accepted with that value. -/
theorem queue_size_argument (undefined_atoi : List Char → Int) (can_load : String → Bool)
    (prog arg name : String) (names : List String) :
    (∀ v, main_queue_size undefined_atoi (prog :: arg :: name :: names) = .ok v ↔
      (arg.data ≠ [] ∧ (∀ c ∈ arg.data, is_digit c = true) ∧ 0 < v ∧
        v = if ((digits_value arg.data : Nat) : Int) ≤ INT_MAX
            then ((digits_value arg.data : Nat) : Int) else undefined_atoi arg.data)) ∧
    ((∀ v, main_queue_size undefined_atoi (prog :: arg :: name :: names) ≠ .ok v) →
      main_queue_size undefined_atoi (prog :: arg :: name :: names) = .error 1 ∧
      (main_startup undefined_atoi can_load (prog :: arg :: name :: names)).exit_code
        = some 1 ∧
      (main_startup undefined_atoi can_load (prog :: arg :: name :: names)).loaded = []) ∧
    ((arg.data = [] ∨ (∃ c ∈ arg.data, is_digit c = false) ∨
        ((∀ c ∈ arg.data, is_digit c = true) ∧ digits_value arg.data = 0)) →
      main_queue_size undefined_atoi (prog :: arg :: name :: names) = .error 1 ∧
      (main_startup undefined_atoi can_load (prog :: arg :: name :: names)).exit_code
        = some 1 ∧
      (main_startup undefined_atoi can_load (prog :: arg :: name :: names)).loaded = []) ∧
    (arg.data ≠ [] → (∀ c ∈ arg.data, is_digit c = true) → 0 < digits_value arg.data →
      ((digits_value arg.data : Nat) : Int) ≤ INT_MAX →
      main_queue_size undefined_atoi (prog :: arg :: name :: names)
        = .ok ((digits_value arg.data : Nat) : Int)) := by
  obtain ⟨ds⟩ := arg
  obtain ⟨a1, a2⟩ := queue_size_exact undefined_atoi can_load prog name ds names
  obtain ⟨b1, b2, -⟩ := queue_size_cases undefined_atoi can_load prog name ds names
  exact ⟨a1, a2, b2, b1⟩

theorem queue_size_argument_witness :
    main_queue_size (fun _ => 0) ["prog", "20", "logger"] = .ok 20 ∧
    (main_queue_size (fun _ => 0) ["prog", "0", "logger"] = .error 1 ∧
      (main_startup (fun _ => 0) (fun _ => true) ["prog", "0", "logger"]).exit_code = some 1 ∧
      (main_startup (fun _ => 0) (fun _ => true) ["prog", "0", "logger"]).loaded = []) ∧
    (main_queue_size (fun _ => 0) ["prog", "+5", "logger"] = .error 1 ∧
      (main_startup (fun _ => 0) (fun _ => true) ["prog", "+5", "logger"]).exit_code = some 1 ∧
      (main_startup (fun _ => 0) (fun _ => true) ["prog", "+5", "logger"]).loaded = []) :=
  ⟨(queue_size_argument (fun _ => 0) (fun _ => true) "prog" "20" "logger" []).2.2.2
      (by decide) (by decide) (by decide) (by decide),
    (queue_size_argument (fun _ => 0) (fun _ => true) "prog" "0" "logger" []).2.2.1
      (Or.inr (Or.inr ⟨by decide, by decide⟩)),
    (queue_size_argument (fun _ => 0) (fun _ => true) "prog" "+5" "logger" []).2.2.1
      (Or.inr (Or.inl ⟨'+', by decide, by decide⟩))⟩

/-- C16 fails as stated beyond the range of `int`: `4294967297` is a string of decimal
digits whose value does not fit an `int`, yet with the `atoi` of the GNU C library, which
returns 1 for it, `main` accepts it, goes on with queue size 1 and loads the stage. -/
theorem queue_size_beyond_int :
    INT_MAX < ((digits_value "4294967297".data : Nat) : Int) ∧
    glibc_atoi "4294967297".data = 1 ∧
    main_queue_size glibc_atoi ["prog", "4294967297", "logger"] = .ok 1 ∧
    main_startup glibc_atoi (fun _ => true) ["prog", "4294967297", "logger"]
      = { exit_code := none, queue_size := 1, loaded := ["logger"] } :=
  ⟨by decide, by decide, rfl, by decide⟩

/-! ## The pipeline -/

theorem relay_sentinel (t : String → Option String) : relay t "<END>" = "<END>" := by
  simp [relay]

theorem well_behaved_cons (t : String → Option String) (ts : List (String → Option String))
    (rs : List String) (h : well_behaved (t :: ts) rs = true) :
    "<END>" ∉ rs ∧
      (ts ≠ [] → (∀ r ∈ rs, (t r).isSome = true) ∧ well_behaved ts (rs.map (relay t)) = true) := by
  simp only [well_behaved, Bool.and_eq_true, List.all_eq_true, decide_eq_true_eq,
    Bool.or_eq_true, List.isEmpty_iff] at h
  refine ⟨fun hm => h.1 _ hm rfl, fun hne => ?_⟩
  rcases h.2 with h2 | h2
  · exact absurd h2 hne
  · exact h2

theorem get_wait_not_finished (fuel : Nat) (q : consumer_producer_t)
    (hf : q.finished = false) :
    get_wait fuel q = .available ∨ get_wait fuel q = .parked ∨
      get_wait fuel q = .out_of_fuel := by
  induction fuel with
  | zero => right; right; rfl
  | succ n ih =>
    unfold get_wait monitor_wait
    by_cases hc : q.count > 0
    · left; simp [hc]
    · simp only [hc, hf, if_false]
      by_cases hs : q.not_empty_monitor.signaled = true
      · simpa [hs] using ih
      · right; left; simp [hs]

theorem get_not_finished (fuel : Nat) (q : consumer_producer_t) (hf : q.finished = false) :
    consumer_producer_get fuel q = (.blocked, q) ∨
      consumer_producer_get fuel q = (.spinning, q) ∨
      (∃ n, fuel = n + 1 ∧ 0 < q.count) := by
  rcases get_wait_not_finished fuel q hf with h | h | h
  · right; right
    obtain ⟨h1, h2⟩ := get_wait_available_inv fuel q h
    exact ⟨fuel - 1, by omega, h1⟩
  · left; simp [consumer_producer_get, h]
  · right; left; simp [consumer_producer_get, h]

theorem put_wait_not_finished (fuel : Nat) (q : consumer_producer_t)
    (hf : q.finished = false) :
    put_wait fuel q = .space ∨ put_wait fuel q = .parked ∨ put_wait fuel q = .out_of_fuel := by
  induction fuel with
  | zero => right; right; rfl
  | succ n ih =>
    unfold put_wait monitor_wait
    by_cases hc : q.count < q.capacity
    · left; simp [hc, hf]
    · simp only [hc, hf, if_false, Bool.false_eq_true]
      by_cases hs : q.not_full_monitor.signaled = true
      · simpa [hs] using ih
      · right; left; simp [hs]

theorem put_not_finished (fuel : Nat) (q : consumer_producer_t) (s : String)
    (hf : q.finished = false) :
    consumer_producer_put fuel q (some s) true = (.blocked, q) ∨
      consumer_producer_put fuel q (some s) true = (.spinning, q) ∨
      (∃ n, fuel = n + 1 ∧ q.count < q.capacity) := by
  rcases put_wait_not_finished fuel q hf with h | h | h
  · right; right
    obtain ⟨-, h2, h3⟩ := put_wait_space_inv fuel q h
    exact ⟨fuel - 1, by omega, h2⟩
  · left; simp [consumer_producer_put, hf, h]
  · right; left; simp [consumer_producer_put, hf, h]

theorem worker_queue_eta (w : Worker) (q : consumer_producer_t) (h : w.ctx.queue = some q) :
    { w with ctx := { w.ctx with queue := some q } } = w := by
  obtain ⟨ctx, pc, calls⟩ := w
  simp only at h
  simp only [ctx_queue_eta ctx q h]

theorem place_work_running (fuel : Nat) (ctx : plugin_context_t) (q : consumer_producer_t)
    (hq : ctx.queue = some q) (hi : ctx.initialized = true) (s : String) :
    plugin_place_work fuel ctx (some s) true
      = ((consumer_producer_put fuel q (some s) true).1,
          { ctx with queue := some (consumer_producer_put fuel q (some s) true).2 }) := by
  simp [plugin_place_work, hi, hq]

theorem take_stays (fuel : Nat) (w : Worker) (q : consumer_producer_t)
    (hq : w.ctx.queue = some q)
    (h : consumer_producer_get fuel q = (.blocked, q) ∨
      consumer_producer_get fuel q = (.spinning, q)) :
    worker_take fuel w = w := by
  rcases h with h | h <;> simp only [worker_take, hq, h, worker_queue_eta w q hq]

theorem forward_stays (fuel : Nat) (w nw : Worker) (s : String) (last : Bool)
    (q : consumer_producer_t) (hq : nw.ctx.queue = some q) (hi : nw.ctx.initialized = true)
    (h : consumer_producer_put fuel q (some s) true = (.blocked, q) ∨
      consumer_producer_put fuel q (some s) true = (.spinning, q)) :
    worker_forward fuel w s last nw = (w, nw) := by
  rcases h with h | h <;>
    simp only [worker_forward, place_work_running fuel nw.ctx q hq hi, h,
      worker_queue_eta nw q hq]

theorem forward_returns (n : Nat) (w nw : Worker) (s : String) (last : Bool)
    (q : consumer_producer_t) (hq : nw.ctx.queue = some q) (hi : nw.ctx.initialized = true)
    (hf : q.finished = false) (hc : q.count < q.capacity) :
    worker_forward (n + 1) w s last nw
      = (if last then worker_exit w else { w with pc := .loop },
          { nw with ctx := { nw.ctx with
              queue := some (consumer_producer_put (n + 1) q (some s) true).2 } }) := by
  have e1 := (put_ok_fields n q s hf hc).1
  simp only [worker_forward, place_work_running (n + 1) nw.ctx q hq hi, e1]

theorem feed_returns (n : Nat) (w : Worker) (ws : List Worker) (s : String)
    (rest : List String) (q : consumer_producer_t) (hq : w.ctx.queue = some q)
    (hi : w.ctx.initialized = true) (hf : q.finished = false) (hc : q.count < q.capacity) :
    pipeline_feed (n + 1) { workers := w :: ws, unfed := s :: rest }
      = { workers := { w with ctx := { w.ctx with
              queue := some (consumer_producer_put (n + 1) q (some s) true).2 } } :: ws
          unfed := rest } := by
  have e1 := (put_ok_fields n q s hf hc).1
  simp only [pipeline_feed, place_work_running (n + 1) w.ctx q hq hi, e1]

theorem feed_stays (fuel : Nat) (w : Worker) (ws : List Worker) (s : String)
    (rest : List String) (q : consumer_producer_t) (hq : w.ctx.queue = some q)
    (hi : w.ctx.initialized = true)
    (h : consumer_producer_put fuel q (some s) true = (.blocked, q) ∨
      consumer_producer_put fuel q (some s) true = (.spinning, q)) :
    pipeline_feed fuel { workers := w :: ws, unfed := s :: rest }
      = { workers := w :: ws, unfed := s :: rest } := by
  rcases h with h | h <;>
    simp only [pipeline_feed, place_work_running fuel w.ctx q hq hi, h,
      worker_queue_eta w q hq]

theorem get_item_eq (n : Nat) (q : consumer_producer_t) (x : String) (hc : 0 < q.count)
    (hx : q.items.getD q.head.toNat none = some x) :
    consumer_producer_get (n + 1) q
      = (.returned (some x), (consumer_producer_get (n + 1) q).2) := by
  have e1 := (get_ok_fields n q hc).1
  rw [hx] at e1
  exact Prod.ext e1 rfl

theorem take_sentinel_forward (n : Nat) (w : Worker) (q : consumer_producer_t)
    (hq : w.ctx.queue = some q) (hc : 0 < q.count)
    (hx : q.items.getD q.head.toNat none = some "<END>") (nm : String)
    (hn : w.ctx.next_place_work = some nm) :
    worker_take (n + 1) w
      = { w with
          ctx := { w.ctx with queue := some (consumer_producer_get (n + 1) q).2 }
          pc := .forwarding "<END>" true } := by
  unfold worker_take
  simp only [hq]
  rw [get_item_eq n q _ hc hx]
  simp only [if_true, hn]

theorem take_sentinel_exit (n : Nat) (w : Worker) (q : consumer_producer_t)
    (hq : w.ctx.queue = some q) (hc : 0 < q.count)
    (hx : q.items.getD q.head.toNat none = some "<END>")
    (hn : w.ctx.next_place_work = none) :
    worker_take (n + 1) w
      = worker_exit { w with
          ctx := { w.ctx with queue := some (consumer_producer_get (n + 1) q).2 } } := by
  unfold worker_take
  simp only [hq]
  rw [get_item_eq n q _ hc hx]
  simp only [if_true, hn]

theorem take_record_forward (n : Nat) (w : Worker) (q : consumer_producer_t)
    (hq : w.ctx.queue = some q) (hc : 0 < q.count) (x : String)
    (hx : q.items.getD q.head.toNat none = some x) (hne : x ≠ "<END>")
    (t : String → Option String) (ht : w.ctx.process_function = some t) (nm y : String)
    (hn : w.ctx.next_place_work = some nm) (hy : t x = some y) :
    worker_take (n + 1) w
      = { ctx := { w.ctx with queue := some (consumer_producer_get (n + 1) q).2 }
          pc := .forwarding y false
          calls := w.calls ++ [x] } := by
  unfold worker_take
  simp only [hq]
  rw [get_item_eq n q _ hc hx]
  simp only [hne, if_false, ht, hn, hy]

theorem take_record_last (n : Nat) (w : Worker) (q : consumer_producer_t)
    (hq : w.ctx.queue = some q) (hc : 0 < q.count) (x : String)
    (hx : q.items.getD q.head.toNat none = some x) (hne : x ≠ "<END>")
    (t : String → Option String) (ht : w.ctx.process_function = some t)
    (hn : w.ctx.next_place_work = none) :
    worker_take (n + 1) w
      = { ctx := { w.ctx with queue := some (consumer_producer_get (n + 1) q).2 }
          pc := .loop
          calls := w.calls ++ [x] } := by
  unfold worker_take
  simp only [hq]
  rw [get_item_eq n q _ hc hx]
  simp only [hne, if_false, ht, hn]

theorem chain_push (n : Nat) (nw : Worker) (rest : List Worker)
    (t : String → Option String) (ts : List (String → Option String))
    (body inc : List String) (s : String) (q : consumer_producer_t)
    (hinv : ChainInv (nw :: rest) (t :: ts) body (s :: inc))
    (hq : nw.ctx.queue = some q) (hf : q.finished = false) (hc : q.count < q.capacity) :
    ChainInv
      ({ nw with ctx := { nw.ctx with
          queue := some (consumer_producer_put (n + 1) q (some s) true).2 } } :: rest)
      (t :: ts) body inc := by
  obtain ⟨q0, taken, Q, h1, h2, h3, h4, h5, h6, h7, h8, h9, h10⟩ := hinv
  have hqq : q0 = q := Option.some.inj (h1.symm.trans hq)
  subst hqq
  obtain ⟨e1, e2, e3, e4, e5, e6, e7⟩ := put_ok_fields n q0 s hf hc
  obtain ⟨r1, r2⟩ := ring_push q0 _ s h2 hc e2 e3 e4 e5 e6
  refine ⟨_, taken, Q ++ [s], rfl, r1, h3, h4, h5, ?_, ?_, h8, ?_, ?_⟩
  · rw [r2, h6]; simp
  · rw [← h7]; simp
  · rw [e7, ← hf]; exact h9
  · have e : nw.pc.pending ++ List.map (relay t) (Q ++ [s] ++ inc)
        = nw.pc.pending ++ List.map (relay t) (Q ++ s :: inc) := by simp
    simp only
    rw [e]
    exact h10

theorem sentinel_last (body a b : List String) (hb : "<END>" ∉ body)
    (h : a ++ b = body ++ ["<END>"]) (ha : "<END>" ∈ a) : b = [] := by
  rcases List.append_eq_append_iff.mp h with ⟨c, h1, h2⟩ | ⟨c, h1, h2⟩
  · rw [h1] at hb
    exact absurd (List.mem_append_left _ ha) hb
  · cases c with
    | nil =>
      rw [List.append_nil] at h1
      rw [h1] at ha
      exact absurd ha hb
    | cons x c2 =>
      simp only [List.cons_append, List.cons.injEq] at h2
      have : c2 ++ b = [] := h2.2.symm
      exact (List.append_eq_nil.mp this).2

theorem well_behaved_tail (t : String → Option String) (ts : List (String → Option String))
    (rs : List String) (h : well_behaved (t :: ts) rs = true) :
    well_behaved ts (rs.map (relay t)) = true := by
  cases ts with
  | nil => rfl
  | cons t2 ts2 => exact ((well_behaved_cons t _ rs h).2 (by simp)).2

theorem workers_step_isEmpty (fuel : Nat) (i : Nat) (ws : List Worker) :
    (workers_step fuel i ws).isEmpty = ws.isEmpty := by
  cases ws with
  | nil => cases i <;> rfl
  | cons w rest =>
    cases i with
    | zero =>
      simp only [workers_step]
      split
      · rfl
      · split <;> rfl
      · rfl
    | succ k => rfl

theorem relay_record (t : String → Option String) (x y : String) (hx : x ≠ "<END>")
    (hy : t x = some y) : relay t x = y := by
  simp [relay, hx, hy]

theorem chain_nil_ts (ts : List (String → Option String)) (body inc : List String)
    (h : ChainInv [] ts body inc) : ts = [] := by
  cases ts with
  | nil => rfl
  | cons t ts => exact absurd h (by simp [ChainInv])

theorem take_inv (fuel : Nat) (w : Worker) (rest : List Worker)
    (t : String → Option String) (ts : List (String → Option String))
    (body inc : List String) (hwb : well_behaved (t :: ts) body = true)
    (hinv : ChainInv (w :: rest) (t :: ts) body inc) (hpc : w.pc = .loop) :
    ChainInv (worker_take fuel w :: rest) (t :: ts) body inc := by
  obtain ⟨q, taken, Q, h1, h2, h3, h4, h5, h6, h7, h8, h9, h10⟩ := hinv
  rw [hpc] at h9 h10
  obtain ⟨hno, hfin⟩ := h9
  rcases get_not_finished fuel q hfin with hg | hg | ⟨n, rfl, hc⟩
  · rw [take_stays fuel w q h1 (Or.inl hg)]
    exact ⟨q, taken, Q, h1, h2, h3, h4, h5, h6, h7, h8, by rw [hpc]; exact ⟨hno, hfin⟩,
      by rw [hpc]; exact h10⟩
  · rw [take_stays fuel w q h1 (Or.inr hg)]
    exact ⟨q, taken, Q, h1, h2, h3, h4, h5, h6, h7, h8, by rw [hpc]; exact ⟨hno, hfin⟩,
      by rw [hpc]; exact h10⟩
  · obtain ⟨e1, e2, e3, e4, e5, e6, e7⟩ := get_ok_fields n q hc
    obtain ⟨r1, r2⟩ := ring_pop q _ h2 hc e2 e3 e4 e5 e6
    rw [h6] at r2
    cases Q with
    | nil => simp at r2
    | cons x Q2 =>
      simp only [List.map_cons, List.cons.injEq] at r2
      obtain ⟨hx, hQ2⟩ := r2
      have hfin2 : (consumer_producer_get (n + 1) q).2.finished = false := by rw [e7, hfin]
      have hwbc := well_behaved_cons t ts body hwb
      by_cases hend : x = "<END>"
      · subst hend
        cases hn : w.ctx.next_place_work with
        | some nm =>
          have hrest : (!rest.isEmpty) = true := by rw [← h5, hn]; rfl
          rw [take_sentinel_forward n w q h1 hc hx.symm nm hn]
          refine ⟨_, taken ++ ["<END>"], Q2, rfl, r1, h3, h4, ?_, hQ2.symm, ?_, ?_, ?_, ?_⟩
          · simp only [hn]; exact h5 ▸ (by rw [hn])
          · rw [← h7]; simp
          · rw [h8]; simp
          · exact ⟨hfin2, hrest, taken, "<END>", rfl, hno, (relay_sentinel t).symm, by simp⟩
          · have e : WorkerPc.pending (.forwarding "<END>" true) ++ List.map (relay t) (Q2 ++ inc)
                = WorkerPc.pending .loop ++ List.map (relay t) ("<END>" :: Q2 ++ inc) := by
              simp [WorkerPc.pending, relay_sentinel]
            simp only
            rw [e]
            exact h10
        | none =>
          have hrest : rest = [] := by
            have : (!rest.isEmpty) = false := by rw [← h5, hn]; rfl
            cases rest with
            | nil => rfl
            | cons a b => simp at this
          subst hrest
          have hts := chain_nil_ts _ _ _ h10
          subst hts
          rw [take_sentinel_exit n w q h1 hc hx.symm hn]
          refine ⟨_, taken ++ ["<END>"], Q2, rfl, signal_finished_ringOk _ r1, h3, h4, ?_,
            hQ2.symm, ?_, ?_, ?_, ?_⟩
          · simp only [worker_exit, hn]; rfl
          · rw [← h7]; simp
          · simp only [worker_exit]; rw [h8]; simp
          · exact ⟨rfl, by simp⟩
          · simp [ChainInv]
      · have hxb : x ∈ body := by
          have hm : x ∈ body ++ ["<END>"] := by rw [← h7]; simp
          rcases List.mem_append.mp hm with hm | hm
          · exact hm
          · exact absurd (List.mem_singleton.mp hm) hend
        cases hn : w.ctx.next_place_work with
        | some nm =>
          have hrest : (!rest.isEmpty) = true := by rw [← h5, hn]; rfl
          have hts : ts ≠ [] := by
            intro e
            subst e
            cases rest with
            | nil => simp at hrest
            | cons a b => exact absurd h10 (by simp [ChainInv])
          obtain ⟨y, hy⟩ := Option.isSome_iff_exists.mp ((hwbc.2 hts).1 x hxb)
          rw [take_record_forward n w q h1 hc x hx.symm hend t h3 nm y hn hy]
          refine ⟨_, taken ++ [x], Q2, rfl, r1, h3, h4, ?_, hQ2.symm, ?_, ?_, ?_, ?_⟩
          · simp only [hn]; exact h5 ▸ (by rw [hn])
          · rw [← h7]; simp
          · simp only; rw [h8]; simp [hend]
          · exact ⟨hfin2, hrest, taken, x, rfl, hno, (relay_record t x y hend hy).symm,
              by simp [hend]⟩
          · have e : WorkerPc.pending (.forwarding y false) ++ List.map (relay t) (Q2 ++ inc)
                = WorkerPc.pending .loop ++ List.map (relay t) (x :: Q2 ++ inc) := by
              simp [WorkerPc.pending, relay_record t x y hend hy]
            simp only
            rw [e]
            exact h10
        | none =>
          have hrest : rest = [] := by
            have : (!rest.isEmpty) = false := by rw [← h5, hn]; rfl
            cases rest with
            | nil => rfl
            | cons a b => simp at this
          subst hrest
          have hts := chain_nil_ts _ _ _ h10
          subst hts
          rw [take_record_last n w q h1 hc x hx.symm hend t h3 hn]
          refine ⟨_, taken ++ [x], Q2, rfl, r1, h3, h4, ?_, hQ2.symm, ?_, ?_, ?_, ?_⟩
          · simp only [hn]; rfl
          · rw [← h7]; simp
          · simp only; rw [h8]; simp [hend]
          · refine ⟨?_, hfin2⟩
            simp only [List.mem_append, List.mem_singleton, not_or]
            exact ⟨hno, fun e => hend e.symm⟩
          · simp [ChainInv]

theorem forward_inv (fuel : Nat) (w nw : Worker) (rest2 : List Worker)
    (t : String → Option String) (ts : List (String → Option String))
    (body inc : List String) (s : String) (last : Bool)
    (hwb : well_behaved (t :: ts) body = true)
    (hinv : ChainInv (w :: nw :: rest2) (t :: ts) body inc)
    (hpc : w.pc = .forwarding s last) :
    ChainInv ((worker_forward fuel w s last nw).1 :: (worker_forward fuel w s last nw).2
      :: rest2) (t :: ts) body inc := by
  obtain ⟨q, taken, Q, h1, h2, h3, h4, h5, h6, h7, h8, h9, h10⟩ := hinv
  cases ts with
  | nil => exact absurd h10 (by simp [ChainInv])
  | cons t2 ts2 =>
    have hwb2 := well_behaved_tail t _ body hwb
    have hno2 := (well_behaved_cons t2 ts2 _ hwb2).1
    rw [hpc] at h9 h10
    obtain ⟨hfin, hnext, tk, x, htk, hnotk, hs, hlast⟩ := h9
    have hten : ChainInv (nw :: rest2) (t2 :: ts2) (body.map (relay t))
        (s :: (Q ++ inc).map (relay t)) := h10
    obtain ⟨q2, taken2, Q2, g1, g2, g3, g4, g5, g6, g7, g8, g9, g10⟩ := h10
    have hfin2 : q2.finished = false := by
      cases hq2 : q2.finished with
      | false => rfl
      | true =>
        rw [hq2] at g9
        have hd : "<END>" ∈ taken2 := by
          unfold PcOk at g9
          split at g9
          · exact absurd g9.2 (by simp)
          · exact absurd g9.1 (by simp)
          · exact g9.2
          · exact absurd g9 id
        have := sentinel_last _ taken2 (Q2 ++ (WorkerPc.forwarding s last).pending
          ++ List.map (relay t) (Q ++ inc)) hno2 (by rw [← g7]; simp) hd
        simp [WorkerPc.pending] at this
    have same : ChainInv (w :: nw :: rest2) (t :: t2 :: ts2) body inc :=
      ⟨q, taken, Q, h1, h2, h3, h4, h5, h6, h7, h8,
        by rw [hpc]; exact ⟨hfin, hnext, tk, x, htk, hnotk, hs, hlast⟩,
        by rw [hpc]; exact hten⟩
    rcases put_not_finished fuel q2 s hfin2 with hp | hp | ⟨n, rfl, hc⟩
    · rw [forward_stays fuel w nw s last q2 g1 g4 (Or.inl hp)]
      exact same
    · rw [forward_stays fuel w nw s last q2 g1 g4 (Or.inr hp)]
      exact same
    · rw [forward_returns n w nw s last q2 g1 g4 hfin2 hc]
      have hpush := chain_push n nw rest2 t2 ts2 (body.map (relay t))
        ((Q ++ inc).map (relay t)) s q2 hten g1 hfin2 hc
      cases hl : last with
      | false =>
        have hx : x ≠ "<END>" := by
          intro e
          rw [hl, e] at hlast
          simp at hlast
        simp only [Bool.false_eq_true, if_false]
        refine ⟨q, taken, Q, h1, h2, h3, h4, ?_, h6, h7, h8, ?_, ?_⟩
        · rw [h5]; rfl
        · refine ⟨?_, hfin⟩
          rw [htk]
          simp only [List.mem_append, List.mem_singleton, not_or]
          exact ⟨hnotk, fun e => hx e.symm⟩
        · exact hpush
      | true =>
        simp only [if_true]
        refine ⟨consumer_producer_signal_finished q, taken, Q, ?_, signal_finished_ringOk q h2,
          h3, h4, ?_, h6, h7, h8, ?_, ?_⟩
        · simp only [worker_exit, h1, Option.map]
        · simp only [worker_exit]; rw [h5]; rfl
        · refine ⟨rfl, ?_⟩
          have hx : x = "<END>" := by
            rw [hl] at hlast
            simpa using hlast.symm
          rw [htk, hx]
          simp
        · exact hpush

theorem chain_step_inv (fuel : Nat) (ws : List Worker) :
    ∀ (ts : List (String → Option String)) (body inc : List String) (i : Nat),
      well_behaved ts body = true → ChainInv ws ts body inc →
      ChainInv (workers_step fuel i ws) ts body inc := by
  induction ws with
  | nil =>
    intro ts body inc i _ h
    cases i <;> exact h
  | cons w rest ih =>
    intro ts body inc i hwb h
    cases ts with
    | nil => exact absurd h (by simp [ChainInv])
    | cons t ts2 =>
      cases i with
      | succ k =>
        obtain ⟨q, taken, Q, h1, h2, h3, h4, h5, h6, h7, h8, h9, h10⟩ := h
        refine ⟨q, taken, Q, h1, h2, h3, h4, ?_, h6, h7, h8, ?_, ?_⟩
        · rw [workers_step_isEmpty]; exact h5
        · rw [workers_step_isEmpty]; exact h9
        · exact ih _ _ _ k (well_behaved_tail t ts2 body hwb) h10
      | zero =>
        cases hpc : w.pc with
        | loop =>
          have e : workers_step fuel 0 (w :: rest) = worker_take fuel w :: rest := by
            simp only [workers_step, hpc]
          rw [e]
          exact take_inv fuel w rest t ts2 body inc hwb h hpc
        | forwarding s last =>
          cases rest with
          | nil =>
            have e : workers_step fuel 0 [w] = [w] := by
              simp only [workers_step, hpc]
            rw [e]; exact h
          | cons nw rest2 =>
            have e : workers_step fuel 0 (w :: nw :: rest2)
                = (worker_forward fuel w s last nw).1 :: (worker_forward fuel w s last nw).2
                  :: rest2 := by
              simp only [workers_step, hpc]
            rw [e]
            exact forward_inv fuel w nw rest2 t ts2 body inc s last hwb h hpc
        | done =>
          have e : workers_step fuel 0 (w :: rest) = w :: rest := by
            simp only [workers_step, hpc]
          rw [e]; exact h
        | crashed =>
          have e : workers_step fuel 0 (w :: rest) = w :: rest := by
            simp only [workers_step, hpc]
          rw [e]; exact h

theorem feed_inv (fuel : Nat) (st : PipelineState) (ts : List (String → Option String))
    (body : List String) (hwb : well_behaved ts body = true)
    (h : ChainInv st.workers ts body st.unfed) :
    ChainInv (pipeline_feed fuel st).workers ts body (pipeline_feed fuel st).unfed := by
  obtain ⟨workers, unfed⟩ := st
  cases unfed with
  | nil => simpa only [pipeline_feed] using h
  | cons s rest =>
    cases workers with
    | nil => simpa only [pipeline_feed] using h
    | cons w ws =>
      cases ts with
      | nil => exact absurd h (by simp [ChainInv])
      | cons t ts2 =>
        have hno := (well_behaved_cons t ts2 body hwb).1
        have hkeep := h
        obtain ⟨q, taken, Q, h1, h2, h3, h4, h5, h6, h7, h8, h9, h10⟩ := h
        have hfin : q.finished = false := by
          cases hq : q.finished with
          | false => rfl
          | true =>
            rw [hq] at h9
            have hd : "<END>" ∈ taken := by
              unfold PcOk at h9
              split at h9
              · exact absurd h9.2 (by simp)
              · exact absurd h9.1 (by simp)
              · exact h9.2
              · exact absurd h9 id
            have := sentinel_last _ taken (Q ++ s :: rest) hno (by rw [← h7]; simp) hd
            simp at this
        rcases put_not_finished fuel q s hfin with hp | hp | ⟨n, rfl, hc⟩
        · rw [feed_stays fuel w ws s rest q h1 h4 (Or.inl hp)]
          exact hkeep
        · rw [feed_stays fuel w ws s rest q h1 h4 (Or.inr hp)]
          exact hkeep
        · rw [feed_returns n w ws s rest q h1 h4 hfin hc]
          exact chain_push n w ws t ts2 body rest s q hkeep h1 hfin hc

theorem pipeline_step_inv (fuel : Nat) (st : PipelineState)
    (ts : List (String → Option String)) (body : List String)
    (hwb : well_behaved ts body = true) (a : PipeAction)
    (h : ChainInv st.workers ts body st.unfed) :
    ChainInv (pipeline_step fuel st a).workers ts body (pipeline_step fuel st a).unfed := by
  cases a with
  | feed => exact feed_inv fuel st ts body hwb h
  | work i => exact chain_step_inv fuel st.workers ts body st.unfed i hwb h

theorem pipeline_run_inv (fuel : Nat) (ts : List (String → Option String))
    (body : List String) (hwb : well_behaved ts body = true) (sched : List PipeAction) :
    ∀ st : PipelineState, ChainInv st.workers ts body st.unfed →
      ChainInv (pipeline_run fuel sched st).workers ts body
        (pipeline_run fuel sched st).unfed := by
  induction sched with
  | nil => intro st h; exact h
  | cons a sched ih =>
    intro st h
    exact ih _ (pipeline_step_inv fuel st ts body hwb a h)

theorem common_init_ok (env : PluginEnv) (f : String → Option String) (name : String)
    (K : Int) (ctx : plugin_context_t)
    (h : common_plugin_init env plugin_context_zero (some f) (some name) K = (none, ctx)) :
    ∃ q, consumer_producer_init env.queue_env K = .ok q ∧
      ctx = { name := some name, queue := some q, next_place_work := none,
              process_function := some f, initialized := true, finished := false } := by
  have h1 := congrArg Prod.fst h
  have h2 := congrArg Prod.snd h
  simp only at h1 h2
  unfold common_plugin_init at h1 h2
  simp only [Option.isNone_some, Bool.false_or, plugin_context_zero,
    Bool.false_eq_true, if_false] at h1 h2
  by_cases hK : K ≤ 0
  · simp [hK] at h1
  · simp only [hK, decide_False, if_false] at h1 h2
    by_cases hm : env.queue_malloc_ok = true
    · simp only [hm, Bool.not_true, Bool.false_eq_true, if_false] at h1 h2
      cases hinit : consumer_producer_init env.queue_env K with
      | error e => simp [hinit] at h1
      | ok q =>
        simp only [hinit] at h1 h2
        by_cases hp : env.pthread_create_ok = true
        · simp only [hp, Bool.not_true, Bool.false_eq_true, if_false] at h1 h2
          exact ⟨q, rfl, h2.symm⟩
        · simp [hp] at h1
    · simp [hm] at h1

theorem start_workers_isEmpty (env : PluginEnv) (K : Int) :
    ∀ (stages : List (String × (String → Option String))) (ws : List Worker),
      start_workers env K stages = some ws → ws.isEmpty = stages.isEmpty := by
  intro stages ws h
  cases stages with
  | nil =>
    simp only [start_workers, Option.some.injEq] at h
    subst h
    rfl
  | cons st rest =>
    obtain ⟨name, t⟩ := st
    simp only [start_workers] at h
    split at h
    · simp only [Option.some.injEq] at h
      rw [← h]; rfl
    · exact absurd h (by simp)

theorem start_workers_inv (env : PluginEnv) (K : Int) :
    ∀ (stages : List (String × (String → Option String))) (ws : List Worker)
      (body : List String), start_workers env K stages = some ws →
      ChainInv ws (stages.map Prod.snd) body (body ++ ["<END>"]) := by
  intro stages
  induction stages with
  | nil =>
    intro ws body h
    simp only [start_workers, Option.some.injEq] at h
    rw [← h]
    simp [ChainInv]
  | cons st rest ih =>
    intro ws body h
    obtain ⟨name, t⟩ := st
    simp only [start_workers] at h
    split at h
    · next ctx ws2 hc hs =>
      simp only [Option.some.injEq] at h
      rw [← h]
      obtain ⟨q, hq, hctx⟩ := common_init_ok env t name K ctx hc
      obtain ⟨i1, i2, i3, -, -⟩ := init_ringOk _ K q hq
      have hemp := start_workers_isEmpty env K rest ws2 hs
      subst hctx
      refine ⟨q, [], [], rfl, i1, rfl, rfl, ?_, by simpa using i3, by simp, rfl,
        ⟨by simp, i2⟩, ?_⟩
      · simp only [plugin_attach, if_true, hemp]
        cases rest <;> rfl
      · have e : WorkerPc.pending .loop ++ List.map (relay t) ([] ++ (body ++ ["<END>"]))
            = body.map (relay t) ++ ["<END>"] := by
          simp [WorkerPc.pending, relay_sentinel]
        simp only [List.map_cons]
        rw [e]
        exact ih ws2 _ hs
    · exact absurd h (by simp)

theorem chain_last (ws : List Worker) :
    ∀ (ts : List (String → Option String)) (body inc : List String),
      well_behaved ts body = true → ChainInv ws ts body inc →
      ∀ w, ws.getLast? = some w →
        w.calls <+: last_stage_inputs ts body ∧
        (w.pc = .done → w.calls = last_stage_inputs ts body) := by
  induction ws with
  | nil => intro ts body inc _ _ w hw; simp at hw
  | cons w0 rest ih =>
    intro ts body inc hwb h w hw
    cases ts with
    | nil => exact absurd h (by simp [ChainInv])
    | cons t ts2 =>
      obtain ⟨q, taken, Q, h1, h2, h3, h4, h5, h6, h7, h8, h9, h10⟩ := h
      have hno := (well_behaved_cons t ts2 body hwb).1
      cases rest with
      | nil =>
        have hts := chain_nil_ts _ _ _ h10
        subst hts
        simp only [List.getLast?_singleton, Option.some.injEq] at hw
        subst hw
        have hfb : (body ++ ["<END>"]).filter (fun x => decide (x ≠ "<END>")) = body := by
          rw [List.filter_append, List.filter_eq_self.mpr]
          · simp
          · intro a ha
            have : a ≠ "<END>" := fun e => hno (e ▸ ha)
            simpa using this
        have hpre : taken <+: body ++ ["<END>"] := ⟨Q ++ inc, by rw [← h7]; simp⟩
        refine ⟨?_, fun hd => ?_⟩
        · rw [h8]
          have := hpre.filter (fun x => decide (x ≠ "<END>"))
          rw [hfb] at this
          exact this
        · rw [hd] at h9
          have hnil := sentinel_last body taken (Q ++ inc) hno (by rw [← h7]; simp) h9.2
          rw [List.append_assoc, hnil, List.append_nil] at h7
          rw [h8, h7, hfb]
          rfl
      | cons nw rest2 =>
        cases ts2 with
        | nil => exact absurd h10 (by simp [ChainInv])
        | cons t2 ts3 =>
          have hw2 : (nw :: rest2).getLast? = some w := by
            rw [List.getLast?_cons_cons] at hw
            exact hw
          exact ih _ _ _ (well_behaved_tail t _ body hwb) h10 w hw2

theorem filter_prefix_body (body a b : List String) (hb : "<END>" ∉ body)
    (h : a ++ b = body ++ ["<END>"]) :
    a.filter (fun x => decide (x ≠ "<END>")) <+: body := by
  have hfb : (body ++ ["<END>"]).filter (fun x => decide (x ≠ "<END>")) = body := by
    rw [List.filter_append, List.filter_eq_self.mpr]
    · simp
    · intro c hc
      have : c ≠ "<END>" := fun e => hb (e ▸ hc)
      simpa using this
  have hpre : a <+: body ++ ["<END>"] := ⟨b, h⟩
  have := hpre.filter (fun x => decide (x ≠ "<END>"))
  rw [hfb] at this
  exact this

theorem chain_head_open (nw : Worker) (rest : List Worker) (t : String → Option String)
    (ts : List (String → Option String)) (body inc : List String) (s : String)
    (hno : "<END>" ∉ body) (h : ChainInv (nw :: rest) (t :: ts) body (s :: inc)) :
    ∃ q, nw.ctx.queue = some q ∧ nw.ctx.initialized = true ∧ q.finished = false := by
  obtain ⟨q, taken, Q, h1, h2, h3, h4, h5, h6, h7, h8, h9, h10⟩ := h
  refine ⟨q, h1, h4, ?_⟩
  cases hq : q.finished with
  | false => rfl
  | true =>
    rw [hq] at h9
    have hd : "<END>" ∈ taken := by
      unfold PcOk at h9
      split at h9
      · exact absurd h9.2 (by simp)
      · exact absurd h9.1 (by simp)
      · exact h9.2
      · exact absurd h9 id
    have := sentinel_last _ taken (Q ++ s :: inc) hno (by rw [← h7]; simp) hd
    simp at this

theorem chain_measure_cons (m : Nat) (w : Worker) (ws : List Worker) :
    chain_measure m (w :: ws) = worker_measure m w + chain_measure m ws := by
  simp [chain_measure]

theorem take_progress (n : Nat) (w : Worker) (rest : List Worker)
    (t : String → Option String) (ts : List (String → Option String))
    (body inc : List String) (hwb : well_behaved (t :: ts) body = true)
    (hinv : ChainInv (w :: rest) (t :: ts) body inc) (hpc : w.pc = .loop)
    (q : consumer_producer_t) (hq : w.ctx.queue = some q) (hc : 0 < q.count) :
    worker_measure body.length (worker_take (n + 1) w) < worker_measure body.length w := by
  obtain ⟨q0, taken, Q, h1, h2, h3, h4, h5, h6, h7, h8, h9, h10⟩ := hinv
  have hqq : q0 = q := Option.some.inj (h1.symm.trans hq)
  subst hqq
  obtain ⟨e1, e2, e3, e4, e5, e6, e7⟩ := get_ok_fields n q0 hc
  obtain ⟨r1, r2⟩ := ring_pop q0 _ h2 hc e2 e3 e4 e5 e6
  rw [h6] at r2
  have hwbc := well_behaved_cons t ts body hwb
  cases Q with
  | nil => simp at r2
  | cons x Q2 =>
    simp only [List.map_cons, List.cons.injEq] at r2
    obtain ⟨hx, -⟩ := r2
    have hw : worker_measure body.length w = 3 * (body.length - w.calls.length) + 2 := by
      simp [worker_measure, hpc]
    by_cases hend : x = "<END>"
    · subst hend
      cases hn : w.ctx.next_place_work with
      | some nm =>
        rw [take_sentinel_forward n w q0 h1 hc hx.symm nm hn, hw]
        simp [worker_measure]
      | none =>
        rw [take_sentinel_exit n w q0 h1 hc hx.symm hn, hw]
        simp [worker_measure, worker_exit]
    · have hpre := filter_prefix_body body (taken ++ [x]) (Q2 ++ inc) hwbc.1
        (by rw [← h7]; simp)
      have hlen := hpre.length_le
      rw [List.filter_append] at hlen
      simp only [List.length_append, ← h8] at hlen
      have hx1 : (List.filter (fun x => decide (x ≠ "<END>")) [x]).length = 1 := by
        simp [List.filter, hend]
      rw [hx1] at hlen
      cases hn : w.ctx.next_place_work with
      | some nm =>
        have hrest : rest ≠ [] := by
          intro e
          rw [hn, e] at h5
          simp at h5
        have hmem : x ∈ body := by
          have : x ∈ body ++ ["<END>"] := by rw [← h7]; simp
          rcases List.mem_append.mp this with hm | hm
          · exact hm
          · exact absurd (List.mem_singleton.mp hm) hend
        have hts : ts ≠ [] := by
          intro e
          subst e
          cases rest with
          | nil => exact hrest rfl
          | cons a b => exact absurd h10 (by simp [ChainInv])
        obtain ⟨y, hy⟩ := Option.isSome_iff_exists.mp ((hwbc.2 hts).1 x hmem)
        rw [take_record_forward n w q0 h1 hc x hx.symm hend t h3 nm y hn hy, hw]
        simp only [worker_measure, List.length_append, List.length_singleton]
        omega
      | none =>
        rw [take_record_last n w q0 h1 hc x hx.symm hend t h3 hn, hw]
        simp only [worker_measure, List.length_append, List.length_singleton]
        omega

theorem forward_progress (n m : Nat) (w nw : Worker) (rest2 : List Worker) (s : String)
    (last : Bool) (hpc : w.pc = .forwarding s last) (q : consumer_producer_t)
    (hq : nw.ctx.queue = some q) (hi : nw.ctx.initialized = true)
    (hf : q.finished = false) (hc : q.count < q.capacity) :
    chain_measure m (workers_step (n + 1) 0 (w :: nw :: rest2))
      < chain_measure m (w :: nw :: rest2) := by
  simp only [workers_step, hpc]
  rw [forward_returns n w nw s last q hq hi hf hc]
  simp only [chain_measure_cons]
  have h1 : worker_measure m { nw with ctx := { nw.ctx with
      queue := some (consumer_producer_put (n + 1) q (some s) true).2 } }
      = worker_measure m nw := rfl
  rw [h1]
  have h2 : worker_measure m (if last = true then worker_exit w else { w with pc := .loop })
      < worker_measure m w := by
    cases last <;> simp [worker_measure, worker_exit, hpc]
  omega

theorem chain_progress (n : Nat) (ws : List Worker) :
    ∀ (ts : List (String → Option String)) (body inc : List String),
      well_behaved ts body = true → ChainInv ws ts body inc →
      (∃ i, chain_measure body.length (workers_step (n + 1) i ws)
          < chain_measure body.length ws) ∨
      (∀ w ∈ ws, w.pc = .done) ∨
      (∃ w rest q, ws = w :: rest ∧ w.ctx.queue = some q ∧ w.ctx.initialized = true ∧
        q.finished = false ∧ q.count = 0 ∧ 0 < q.capacity ∧ inc ≠ []) := by
  induction ws with
  | nil => intro ts body inc _ _; right; left; intro w hw; simp at hw
  | cons w rest ih =>
    intro ts body inc hwb hinv
    cases ts with
    | nil => exact absurd hinv (by simp [ChainInv])
    | cons t ts2 =>
      have hkeep := hinv
      obtain ⟨q, taken, Q, h1, h2, h3, h4, h5, h6, h7, h8, h9, h10⟩ := hinv
      have hwb2 := well_behaved_tail t ts2 body hwb
      have hno := (well_behaved_cons t ts2 body hwb).1
      have lift : (∃ i, chain_measure (body.map (relay t)).length (workers_step (n + 1) i rest)
            < chain_measure (body.map (relay t)).length rest) →
          ∃ i, chain_measure body.length (workers_step (n + 1) i (w :: rest))
            < chain_measure body.length (w :: rest) := by
        rintro ⟨i, hi⟩
        rw [List.length_map] at hi
        refine ⟨i + 1, ?_⟩
        simp only [workers_step, chain_measure_cons]
        omega
      cases hpc : w.pc with
      | loop =>
        rw [hpc] at h9
        by_cases hc : 0 < q.count
        · left
          refine ⟨0, ?_⟩
          simp only [workers_step, hpc, chain_measure_cons]
          have := take_progress n w rest t ts2 body inc hwb hkeep hpc q h1 hc
          omega
        · right; right
          have hc0 : q.count = 0 := by have := h2.count_lo; omega
          refine ⟨w, rest, q, rfl, h1, h4, h9.2, hc0, h2.cap_pos, ?_⟩
          have hl := congrArg List.length h6
          simp only [ring_contents, List.length_map, List.length_range, hc0] at hl
          have hQ : Q = [] := List.length_eq_zero.mp (by simpa using hl.symm)
          intro hinc
          rw [hQ, hinc] at h7
          simp only [List.append_nil] at h7
          exact h9.1 (by rw [h7]; simp)
      | forwarding s last =>
        rw [hpc] at h9 h10
        obtain ⟨hfin, hnext, -⟩ := h9
        cases rest with
        | nil => simp at hnext
        | cons nw rest2 =>
          cases ts2 with
          | nil => exact absurd h10 (by simp [ChainInv])
          | cons t2 ts3 =>
            have hno2 := (well_behaved_cons t2 ts3 _ hwb2).1
            have hten : ChainInv (nw :: rest2) (t2 :: ts3) (body.map (relay t))
                (s :: (Q ++ inc).map (relay t)) := h10
            obtain ⟨q2, g1, g4, gfin⟩ := chain_head_open nw rest2 t2 ts3 _ _ s hno2 hten
            by_cases hc : q2.count < q2.capacity
            · left
              exact ⟨0, forward_progress n body.length w nw rest2 s last hpc q2 g1 g4 gfin hc⟩
            · rcases ih _ _ _ hwb2 hten with hp | hp | hp
              · left; exact lift hp
              · have hd := hp nw (by simp)
                obtain ⟨q3, taken3, Q3, k1, k2, k3, k4, k5, k6, k7, k8, k9, k10⟩ := hten
                have hqq : q3 = q2 := Option.some.inj (k1.symm.trans g1)
                subst hqq
                rw [hd] at k9
                rw [k9.1] at gfin
                exact absurd gfin (by simp)
              · obtain ⟨w3, rest3, q3, e1, e2, e3, e4, e5, e6, e7⟩ := hp
                simp only [List.cons.injEq] at e1
                rw [← e1.1] at e2
                have hqq : q3 = q2 := Option.some.inj (e2.symm.trans g1)
                subst hqq
                omega
      | done =>
        rw [hpc] at h9 h10
        have hnil := sentinel_last body taken (Q ++ inc) hno (by rw [← h7]; simp) h9.2
        rw [hnil] at h10
        have hten : ChainInv rest ts2 (body.map (relay t)) [] := h10
        rcases ih _ _ _ hwb2 hten with hp | hp | hp
        · left; exact lift hp
        · right; left
          intro w2 hw2
          rcases List.mem_cons.mp hw2 with e | e
          · rw [e]; exact hpc
          · exact hp w2 e
        · obtain ⟨w3, rest3, q3, e1, e2, e3, e4, e5, e6, e7⟩ := hp
          exact absurd rfl e7
      | crashed =>
        rw [hpc] at h9
        exact absurd h9 id

theorem chain_nonempty (ws : List Worker) (ts : List (String → Option String))
    (body inc : List String) (h : ChainInv ws ts body inc) (hts : ts ≠ []) : ws ≠ [] := by
  intro e
  subst e
  exact hts (chain_nil_ts ts body inc h)

theorem pipeline_progress (n : Nat) (st : PipelineState)
    (ts : List (String → Option String)) (body : List String)
    (hwb : well_behaved ts body = true) (hts : ts ≠ [])
    (h : ChainInv st.workers ts body st.unfed) :
    last_done st = true ∨
      ∃ a, pipeline_measure body.length (pipeline_step (n + 1) st a)
        < pipeline_measure body.length st := by
  rcases chain_progress n st.workers ts body st.unfed hwb h with ⟨i, hi⟩ | hp | hp
  · right
    refine ⟨.work i, ?_⟩
    simp only [pipeline_measure, pipeline_step]
    omega
  · left
    have hne := chain_nonempty _ _ _ _ h hts
    cases hl : st.workers.getLast? with
    | none => exact absurd (List.getLast?_eq_none_iff.mp hl) hne
    | some w =>
      have hd := hp w (List.mem_of_getLast?_eq_some hl)
      simp [last_done, hl, hd]
  · right
    obtain ⟨w, rest, q, e1, e2, e3, e4, e5, e6, e7⟩ := hp
    obtain ⟨workers, unfed⟩ := st
    simp only at e1 e7 h
    subst e1
    cases unfed with
    | nil => exact absurd rfl e7
    | cons s rest2 =>
      refine ⟨.feed, ?_⟩
      simp only [pipeline_step]
      rw [feed_returns n w rest s rest2 q e2 e3 e4 (by omega)]
      simp only [pipeline_measure, chain_measure_cons, List.length_cons]
      have h1 : worker_measure body.length { w with ctx := { w.ctx with
          queue := some (consumer_producer_put (n + 1) q (some s) true).2 } }
          = worker_measure body.length w := rfl
      rw [h1]
      omega

theorem pipeline_completes (n : Nat) (ts : List (String → Option String))
    (body : List String) (hwb : well_behaved ts body = true) (hts : ts ≠ []) :
    ∀ (k : Nat) (st : PipelineState), pipeline_measure body.length st ≤ k →
      ChainInv st.workers ts body st.unfed →
      ∃ sched, last_done (pipeline_run (n + 1) sched st) = true := by
  intro k
  induction k with
  | zero =>
    intro st hk h
    rcases pipeline_progress n st ts body hwb hts h with hd | ⟨a, ha⟩
    · exact ⟨[], hd⟩
    · omega
  | succ k ih =>
    intro st hk h
    rcases pipeline_progress n st ts body hwb hts h with hd | ⟨a, ha⟩
    · exact ⟨[], hd⟩
    · obtain ⟨sched, hs⟩ := ih (pipeline_step (n + 1) st a) (by omega)
        (pipeline_step_inv (n + 1) st ts body hwb a h)
      exact ⟨a :: sched, hs⟩

theorem start_workers_ok (K : Int) (hK : 1 ≤ K) :
    ∀ stages : List (String × (String → Option String)),
      ∃ ws, start_workers PluginEnv.allOk K stages = some ws := by
  intro stages
  induction stages with
  | nil => exact ⟨[], rfl⟩
  | cons st rest ih =>
    obtain ⟨name, t⟩ := st
    obtain ⟨ws, hws⟩ := ih
    have hK0 : ¬ K ≤ 0 := by omega
    have hc : (common_plugin_init PluginEnv.allOk plugin_context_zero (some t) (some name)
        K).1 = none := by
      simp [common_plugin_init, plugin_context_zero, PluginEnv.allOk, consumer_producer_init,
        InitEnv.allOk, hK0]
    simp only [start_workers, hws]
    split
    · exact ⟨_, rfl⟩
    · next hn => exact absurd rfl (hn _ ws (Prod.ext hc rfl))

theorem last_stage_inputs_length (ts : List (String → Option String)) :
    ∀ rs : List String, (last_stage_inputs ts rs).length = rs.length := by
  induction ts with
  | nil => intro rs; rfl
  | cons t ts2 ih =>
    intro rs
    cases ts2 with
    | nil => rfl
    | cons t2 ts3 =>
      simp only [last_stage_inputs]
      rw [ih, List.length_map]

/-- C17 (amended): for stages wired by the orchestrator with any capacity `K ≥ 1`, fed
with records followed by the sentinel, where no record reaching a stage is the sentinel
itself and no stage but the last returns `NULL`: the pipeline starts; at every moment of
every run the calls of the last stage's transform are a prefix of
`t_{N-2}(... t_0(r_j) ...)`, `j = 1..m`; once the last worker has returned they are
exactly those `m` calls in that order; and some run lets the last worker return. -/
theorem pipeline_delivers_in_order (K : Int)
    (stages : List (String × (String → Option String))) (records : List String)
    (fuel : Nat) (hK : 1 ≤ K) (hstages : stages ≠ [])
    (hwb : well_behaved (stages.map Prod.snd) records = true) (hfuel : 0 < fuel) :
    ∃ ws, start_workers PluginEnv.allOk K stages = some ws ∧
      (last_stage_inputs (stages.map Prod.snd) records).length = records.length ∧
      (∀ sched,
        last_calls (pipeline_run fuel sched { workers := ws, unfed := records ++ ["<END>"] })
            <+: last_stage_inputs (stages.map Prod.snd) records ∧
          (last_done (pipeline_run fuel sched
              { workers := ws, unfed := records ++ ["<END>"] }) = true →
            last_calls (pipeline_run fuel sched
              { workers := ws, unfed := records ++ ["<END>"] })
              = last_stage_inputs (stages.map Prod.snd) records)) ∧
      ∃ sched, last_done (pipeline_run fuel sched
        { workers := ws, unfed := records ++ ["<END>"] }) = true := by
  obtain ⟨ws, hws⟩ := start_workers_ok K hK stages
  have h0 := start_workers_inv PluginEnv.allOk K stages ws records hws
  have hts : stages.map Prod.snd ≠ [] := by
    intro e
    exact hstages (List.map_eq_nil_iff.mp e)
  refine ⟨ws, hws, last_stage_inputs_length _ _, fun sched => ?_, ?_⟩
  · have hinv := pipeline_run_inv fuel _ records hwb sched
      { workers := ws, unfed := records ++ ["<END>"] } h0
    have hne := chain_nonempty _ _ _ _ hinv hts
    cases hl : (pipeline_run fuel sched
        { workers := ws, unfed := records ++ ["<END>"] }).workers.getLast? with
    | none => exact absurd (List.getLast?_eq_none_iff.mp hl) hne
    | some w =>
      obtain ⟨c1, c2⟩ := chain_last _ _ _ _ hwb hinv w hl
      simp only [last_calls, last_done, hl, decide_eq_true_eq]
      exact ⟨c1, c2⟩
  · obtain ⟨n, rfl⟩ : ∃ n, fuel = n + 1 := ⟨fuel - 1, by omega⟩
    exact pipeline_completes n _ records hwb hts _ _ (Nat.le_refl _) h0

theorem pipeline_delivers_in_order_witness :
    ∃ ws, start_workers PluginEnv.allOk 2 rotator_logger = some ws ∧
      (last_stage_inputs (rotator_logger.map Prod.snd) ["abc", "de"]).length
        = ["abc", "de"].length ∧
      (∀ sched,
        last_calls (pipeline_run 1 sched { workers := ws, unfed := ["abc", "de"] ++ ["<END>"] })
            <+: last_stage_inputs (rotator_logger.map Prod.snd) ["abc", "de"] ∧
          (last_done (pipeline_run 1 sched
              { workers := ws, unfed := ["abc", "de"] ++ ["<END>"] }) = true →
            last_calls (pipeline_run 1 sched
              { workers := ws, unfed := ["abc", "de"] ++ ["<END>"] })
              = last_stage_inputs (rotator_logger.map Prod.snd) ["abc", "de"])) ∧
      ∃ sched, last_done (pipeline_run 1 sched
        { workers := ws, unfed := ["abc", "de"] ++ ["<END>"] }) = true :=
  pipeline_delivers_in_order 2 rotator_logger ["abc", "de"] 1 (by decide)
    (by simp [rotator_logger]) (by decide) (by decide)

/-- C17 fails as stated when a stage produces the sentinel: the rotator turns the record
`END><` into `<END>`, the logger stage takes it for the end of input and returns, and its
transform is never called, although two records were fed. -/
theorem sentinel_made_by_rotator :
    rotator_plugin_transform "END><" = some "<END>" ∧
    pipeline_outcome PluginEnv.allOk 2 rotator_logger ["END><", "abc"] 1 (round_robin 6 2)
      = some (true, []) ∧
    last_stage_inputs (rotator_logger.map Prod.snd) ["END><", "abc"] = ["<END>", "cab"] := by
  decide

/-- The two runs named in C17: with a round-robin schedule the logger is called on `cab`
then `ed`, and on `a b` then `x`. -/
theorem pipeline_examples :
    pipeline_outcome PluginEnv.allOk 2 rotator_logger ["abc", "de"] 1 (round_robin 6 2)
      = some (true, ["cab", "ed"]) ∧
    pipeline_outcome PluginEnv.allOk 8 expander_logger ["ab", "x"] 1 (round_robin 6 2)
      = some (true, ["a b", "x"]) := by
  decide

/-! ## Invariants of every reachable queue state -/

theorem reachable_run (K : Int) (fuel : Nat) (ops : List QueueOp) :
    ∀ (q : consumer_producer_t) (tr : QueueTrace), Reachable K q →
      Reachable K (queue_run fuel ops (q, tr)).1 := by
  induction ops with
  | nil => intro q tr h; exact h
  | cons op ops ih =>
    intro q tr h
    exact ih (queue_step fuel (q, tr) op).1 (queue_step fuel (q, tr) op).2
      (Reachable.step fuel op q tr h)

theorem fresh_queue_2_reachable : Reachable 2 fresh_queue_2 :=
  Reachable.init InitEnv.allOk fresh_queue_2 rfl

theorem fresh_queue_3_reachable : Reachable 3 fresh_queue_3 :=
  Reachable.init InitEnv.allOk fresh_queue_3 rfl

theorem full_queue_2_reachable : Reachable 2 full_queue_2 :=
  reachable_run 2 1 _ fresh_queue_2 QueueTrace.empty fresh_queue_2_reachable

theorem wrapped_queue_3_reachable : Reachable 3 wrapped_queue_3 :=
  reachable_run 3 1 _ fresh_queue_3 QueueTrace.empty fresh_queue_3_reachable

theorem draining_queue_3_reachable : Reachable 3 draining_queue_3 :=
  reachable_run 3 1 _ fresh_queue_3 QueueTrace.empty fresh_queue_3_reachable

theorem wrapped_queue_3_fields :
    wrapped_queue_3.head = 2 ∧ wrapped_queue_3.tail = 1 ∧ wrapped_queue_3.count = 2 ∧
      wrapped_queue_3.items = [some "d", none, some "c"] := by
  decide

/-- C21: in every state reachable from a successful `consumer_producer_init` with
capacity `K` (so `K ≥ 1`) by any sequence of `put`, `get`, `signal_finished` (and
`wait_finished`) calls, the capacity is still `K` and `0 ≤ count ≤ capacity`. -/
theorem count_within_capacity (K : Int) (q : consumer_producer_t) (h : Reachable K q) :
    1 ≤ K ∧ q.capacity = K ∧ 0 ≤ q.count ∧ q.count ≤ q.capacity := by
  obtain ⟨h1, -, h3⟩ := reachable_inv K q h
  have := h1.cap_pos
  exact ⟨by omega, h3, h1.count_lo, h1.count_hi⟩

theorem count_within_capacity_witness :
    1 ≤ (3 : Int) ∧ draining_queue_3.capacity = 3 ∧ 0 ≤ draining_queue_3.count ∧
      draining_queue_3.count ≤ draining_queue_3.capacity :=
  count_within_capacity 3 draining_queue_3 draining_queue_3_reachable

/-- C22 (amended): in every state reachable from `consumer_producer_init`, `count` and
`tail - head` agree modulo the capacity; while the ring is not full `count` is the
non-negative remainder of `tail - head`; a full ring has `head = tail`; and `head = tail`
holds only for the empty and the full ring. -/
theorem count_tail_head (K : Int) (q : consumer_producer_t) (h : Reachable K q) :
    (q.tail - q.head) % q.capacity = q.count % q.capacity ∧
    (q.count < q.capacity → q.count = (q.tail - q.head) % q.capacity) ∧
    (q.count = q.capacity → q.head = q.tail) ∧
    (q.head = q.tail → q.count = 0 ∨ q.count = q.capacity) := by
  obtain ⟨h1, -, -⟩ := reachable_inv K q h
  obtain ⟨c1, c2, c3, c4, c5, c6, c7⟩ := h1
  rw [tmod_wrap _ _ (by omega) (by omega)] at c7
  have hmod : (q.tail - q.head) % q.capacity = q.count % q.capacity := by
    split_ifs at c7 with hlt
    · rw [c7]; congr 1; omega
    · have e : q.tail - q.head = q.count + (-1) * q.capacity := by rw [c7]; ring
      rw [e, Int.add_mul_emod_self]
  refine ⟨hmod, fun hc => ?_, fun hc => ?_, fun hc => ?_⟩
  · rw [hmod, Int.emod_eq_of_lt c5 hc]
  · split_ifs at c7 <;> omega
  · split_ifs at c7 <;> omega

theorem count_tail_head_witness :
    (wrapped_queue_3.tail - wrapped_queue_3.head) % wrapped_queue_3.capacity
      = wrapped_queue_3.count % wrapped_queue_3.capacity ∧
    (wrapped_queue_3.count < wrapped_queue_3.capacity →
      wrapped_queue_3.count
        = (wrapped_queue_3.tail - wrapped_queue_3.head) % wrapped_queue_3.capacity) ∧
    (wrapped_queue_3.count = wrapped_queue_3.capacity →
      wrapped_queue_3.head = wrapped_queue_3.tail) ∧
    (wrapped_queue_3.head = wrapped_queue_3.tail →
      wrapped_queue_3.count = 0 ∨ wrapped_queue_3.count = wrapped_queue_3.capacity) :=
  count_tail_head 3 wrapped_queue_3 wrapped_queue_3_reachable

/-- C22 fails as stated for a full ring: after `consumer_producer_init` with capacity 2
and two puts the ring is non-empty with `count = 2`, yet `head = tail`, so
`(tail - head) mod capacity` is 0 (with the mathematical remainder and with the `%` of
C alike), which is neither `count`, nor is `count` 0. -/
theorem full_ring_head_eq_tail :
    Reachable 2 full_queue_2 ∧ 0 < full_queue_2.count ∧ full_queue_2.count = 2 ∧
    full_queue_2.head = full_queue_2.tail ∧
    (full_queue_2.tail - full_queue_2.head) % full_queue_2.capacity = 0 ∧
    Int.tmod (full_queue_2.tail - full_queue_2.head) full_queue_2.capacity = 0 ∧
    full_queue_2.count ≠ (full_queue_2.tail - full_queue_2.head) % full_queue_2.capacity ∧
    full_queue_2.count ≠ 0 :=
  ⟨full_queue_2_reachable, by decide, by decide, by decide, by decide, by decide, by decide,
    by decide⟩

/-- C23: `consumer_producer_init` returns the error "Queue capacity must be positive" for
every `K ≤ 0`, whatever else would succeed; for every `K ≥ 1` with the allocation and the
creation of the primitives succeeding it returns success with a ring of `K` slots,
`capacity = K`, `count = head = tail = 0` and `finished = false`; and whenever it returns
success these values hold. -/
theorem init_checks_capacity (env : InitEnv) (K : Int) :
    (K ≤ 0 → consumer_producer_init env K = .error "Queue capacity must be positive") ∧
    (1 ≤ K → env.malloc_ok = true → env.not_full_ok = true → env.not_empty_ok = true →
      env.finished_ok = true → env.mutex_ok = true →
      ∃ q, consumer_producer_init env K = .ok q ∧ q.capacity = K ∧ q.count = 0 ∧
        q.head = 0 ∧ q.tail = 0 ∧ q.finished = false ∧ q.items.length = K.toNat) ∧
    (∀ q, consumer_producer_init env K = .ok q →
      1 ≤ K ∧ q.capacity = K ∧ q.count = 0 ∧ q.head = 0 ∧ q.tail = 0 ∧
        q.finished = false ∧ q.items.length = K.toNat) := by
  refine ⟨fun hK => ?_, fun hK h1 h2 h3 h4 h5 => ?_, fun q hq => ?_⟩
  · simp [consumer_producer_init, hK]
  · have hK0 : ¬ K ≤ 0 := by omega
    have e : consumer_producer_init env K = .ok
        { items := List.replicate K.toNat none
          capacity := K
          count := 0
          head := 0
          tail := 0
          not_full_monitor := monitor_signal monitor_init.2
          not_empty_monitor := monitor_init.2
          finished_monitor := monitor_init.2
          finished := false } := by
      simp only [consumer_producer_init, hK0, h1, h2, h3, h4, h5, if_false, Bool.not_true,
        Bool.false_eq_true]
    exact ⟨_, e, rfl, rfl, rfl, rfl, rfl, by simp⟩
  · obtain ⟨hK, rfl⟩ := init_ok_state env K q hq
    exact ⟨by omega, rfl, rfl, rfl, rfl, rfl, by simp⟩

theorem init_checks_capacity_witness :
    consumer_producer_init InitEnv.allOk 0 = .error "Queue capacity must be positive" ∧
    consumer_producer_init InitEnv.allOk (-5) = .error "Queue capacity must be positive" ∧
    ∃ q, consumer_producer_init InitEnv.allOk 3 = .ok q ∧ q.capacity = 3 ∧ q.count = 0 ∧
      q.head = 0 ∧ q.tail = 0 ∧ q.finished = false ∧ q.items.length = (3 : Int).toNat :=
  ⟨(init_checks_capacity InitEnv.allOk 0).1 (by decide),
    (init_checks_capacity InitEnv.allOk (-5)).1 (by decide),
    (init_checks_capacity InitEnv.allOk 3).2.1 (by decide) rfl rfl rfl rfl rfl⟩

/-- C24: `monitor_signal` twice leaves the latch as `monitor_signal` once does (signaled),
`monitor_reset` twice leaves it as `monitor_reset` once does (cleared), for every latch
state and whatever the order of earlier calls; and `monitor_init` succeeds with a cleared
latch, on which `monitor_wait` does not return. -/
theorem latch_set_clear_idempotent (m : monitor_t) :
    monitor_signal (monitor_signal m) = monitor_signal m ∧
    (monitor_signal m).signaled = true ∧
    monitor_reset (monitor_reset m) = monitor_reset m ∧
    (monitor_reset m).signaled = false ∧
    monitor_run [.signal, .signal] m = monitor_run [.signal] m ∧
    monitor_run [.reset, .reset] m = monitor_run [.reset] m ∧
    monitor_init.1 = 0 ∧ monitor_init.2.signaled = false ∧
    monitor_wait monitor_init.2 = none := by
  refine ⟨rfl, rfl, rfl, rfl, rfl, rfl, rfl, rfl, rfl⟩

/-- C25: in every state reachable from a successful `consumer_producer_init` with
capacity `K` the array has `K ≥ 1` slots, `0 ≤ head < capacity`, `0 ≤ tail < capacity`
and `tail = (head + count) mod capacity` (with the `%` of C and with the mathematical
remainder alike), so `items[head]` and `items[tail]` are slots of the array. -/
theorem ring_indices_in_bounds (K : Int) (q : consumer_producer_t) (h : Reachable K q) :
    1 ≤ K ∧ q.capacity = K ∧ q.items.length = K.toNat ∧
    0 ≤ q.head ∧ q.head < q.capacity ∧ 0 ≤ q.tail ∧ q.tail < q.capacity ∧
    q.tail = Int.tmod (q.head + q.count) q.capacity ∧
    q.tail = (q.head + q.count) % q.capacity ∧
    q.head.toNat < q.items.length ∧ q.tail.toNat < q.items.length := by
  obtain ⟨h1, -, h3⟩ := reachable_inv K q h
  obtain ⟨c1, c2, c3, c4, c5, c6, c7⟩ := h1
  have c8 := c7
  rw [tmod_wrap _ _ (by omega) (by omega)] at c8
  have t0 : 0 ≤ q.tail := by split_ifs at c8 <;> omega
  have t1 : q.tail < q.capacity := by split_ifs at c8 <;> omega
  refine ⟨by omega, h3, by rw [c2, h3], c3, c4, t0, t1, c7, ?_, ?_, ?_⟩
  · rw [c7, Int.tmod_eq_emod (by omega) (by omega)]
  · rw [c2]; omega
  · rw [c2]; omega

theorem ring_indices_in_bounds_witness :
    1 ≤ (3 : Int) ∧ wrapped_queue_3.capacity = 3 ∧
    wrapped_queue_3.items.length = (3 : Int).toNat ∧
    0 ≤ wrapped_queue_3.head ∧ wrapped_queue_3.head < wrapped_queue_3.capacity ∧
    0 ≤ wrapped_queue_3.tail ∧ wrapped_queue_3.tail < wrapped_queue_3.capacity ∧
    wrapped_queue_3.tail
      = Int.tmod (wrapped_queue_3.head + wrapped_queue_3.count) wrapped_queue_3.capacity ∧
    wrapped_queue_3.tail
      = (wrapped_queue_3.head + wrapped_queue_3.count) % wrapped_queue_3.capacity ∧
    wrapped_queue_3.head.toNat < wrapped_queue_3.items.length ∧
    wrapped_queue_3.tail.toNat < wrapped_queue_3.items.length :=
  ring_indices_in_bounds 3 wrapped_queue_3 wrapped_queue_3_reachable

/-- C26: in every state reachable from `consumer_producer_init` by `put`, `get`,
`signal_finished` (and `wait_finished`) calls, the not-full latch is signaled if and only
if `count < capacity`, and `count > 0` implies that the not-empty latch is signaled; so a
`monitor_wait` on the latch returns at once in these cases, a `consumer_producer_put`
returns (it does not wait) while there is free space, and a `consumer_producer_get`
returns the record at `head` while one is available. -/
theorem latches_coherent (K : Int) (q : consumer_producer_t) (h : Reachable K q)
    (fuel : Nat) (hfuel : 0 < fuel) (item : Option String) (strdup_ok : Bool) :
    (q.not_full_monitor.signaled = true ↔ q.count < q.capacity) ∧
    (0 < q.count → q.not_empty_monitor.signaled = true) ∧
    (q.count < q.capacity →
      monitor_wait q.not_full_monitor = some (0, q.not_full_monitor) ∧
      ∃ e, (consumer_producer_put fuel q item strdup_ok).1 = .returned e) ∧
    (0 < q.count →
      monitor_wait q.not_empty_monitor = some (0, q.not_empty_monitor) ∧
      (consumer_producer_get fuel q).1 = .returned (q.items.getD q.head.toNat none)) := by
  obtain ⟨n, rfl⟩ : ∃ n, fuel = n + 1 := ⟨fuel - 1, by omega⟩
  obtain ⟨-, h2, -⟩ := reachable_inv K q h
  refine ⟨h2.not_full, h2.not_empty, fun hc => ⟨?_, ?_⟩, fun hc => ⟨?_, ?_⟩⟩
  · simp [monitor_wait, h2.not_full.mpr hc]
  · cases item with
    | none => exact ⟨_, rfl⟩
    | some s =>
      cases hf : q.finished with
      | true =>
        refine ⟨some "Queue is finished, cannot accept more items", ?_⟩
        simp [consumer_producer_put, hf]
      | false =>
        cases strdup_ok with
        | true => exact ⟨_, (put_ok_fields n q s hf hc).1⟩
        | false => exact ⟨_, by rw [put_strdup_fail n q s hf hc]⟩
  · simp [monitor_wait, h2.not_empty hc]
  · exact (get_ok_fields n q hc).1

theorem latches_coherent_witness :
    (wrapped_queue_3.not_full_monitor.signaled = true
        ↔ wrapped_queue_3.count < wrapped_queue_3.capacity) ∧
    (0 < wrapped_queue_3.count → wrapped_queue_3.not_empty_monitor.signaled = true) ∧
    (wrapped_queue_3.count < wrapped_queue_3.capacity →
      monitor_wait wrapped_queue_3.not_full_monitor
        = some (0, wrapped_queue_3.not_full_monitor) ∧
      ∃ e, (consumer_producer_put 1 wrapped_queue_3 (some "e") true).1 = .returned e) ∧
    (0 < wrapped_queue_3.count →
      monitor_wait wrapped_queue_3.not_empty_monitor
        = some (0, wrapped_queue_3.not_empty_monitor) ∧
      (consumer_producer_get 1 wrapped_queue_3).1
        = .returned (wrapped_queue_3.items.getD wrapped_queue_3.head.toNat none)) :=
  latches_coherent 3 wrapped_queue_3 wrapped_queue_3_reachable 1 (by decide) (some "e") true

end Pipeline
